import Mathlib

/-!
One Billion Row Challenge pipeline (`main.go`).

A shallow embedding of the ingestion-and-aggregation engine of `main.go`:

* `mergeChunk` / `mergeChunks`  : the line-boundary reassembler,
* `processValidChunks`          : the byte-level scanner of one worker,
* the reduce loop of `main`     : folding partial aggregates into the global one,
* the sort, print and count tail of `main`.

Go values are modelled by value: a `[]byte` is a `List Byte`, the fixed-size
array `cityName` is a list of exactly 64 bytes, a `map[cityName]*measure10x`
is an association list without duplicate keys, and the fixed-width signed
integers are `Int`s that are wrapped to their width after every arithmetic
operation. The `float64` quotients of the report are computed on exact
mantissa-exponent pairs with round to nearest even (`F64`), and `%.1f` rounds
the exact value of the quotient to one decimal place (`fmtF1`).
-/

namespace OneBRC

/-! ## Machine integers -/

/-- A Go `byte`. Subtraction on `Fin 256` wraps, as it does in Go. -/
abbrev Byte := Fin 256

/-- Two's-complement wrap-around to a signed 16-bit integer. -/
def wrap16 (x : Int) : Int := (x + 32768) % 65536 - 32768

/-- Two's-complement wrap-around to a signed 32-bit integer. -/
def wrap32 (x : Int) : Int := (x + 2147483648) % 4294967296 - 2147483648

/-- Two's-complement wrap-around to a signed 64-bit integer. -/
def wrap64 (x : Int) : Int :=
  (x + 9223372036854775808) % 18446744073709551616 - 9223372036854775808

/-! ## Data model -/

/-- The Go type `type cityName [64]byte`. -/
abbrev cityName := { l : List Byte // l.length = 64 }

/-- The zero value `cityName{}`: sixty-four zero bytes. -/
def cityName.zero : cityName := ⟨List.replicate 64 0, by simp⟩

/-- The assignment `name[i] = b` (only executed with `i < 64`). -/
def cityName.store (name : cityName) (i : Nat) (b : Byte) : cityName :=
  ⟨name.1.set i b, by simp [name.2]⟩

/-- The Go struct `measure10x`; `min`, `max` are `int16`, `count` is `int32`,
`sum` is `int64`. -/
structure measure10x where
  min : Int
  max : Int
  count : Int
  sum : Int
deriving DecidableEq, Repr

/-- A `map[cityName]*measure10x`, kept as an association list. -/
abbrev Stats := List (cityName × measure10x)

/-- The map read `m[k]`; `none` stands for the `nil` pointer of an absent key. -/
def Stats.get : Stats → cityName → Option measure10x
  | [], _ => none
  | (k', v) :: rest, k => if k' = k then some v else Stats.get rest k

/-- The map write `m[k] = v` (also used for an in-place update through the
pointer stored under `k`). -/
def Stats.put : Stats → cityName → measure10x → Stats
  | [], k, v => [(k, v)]
  | (k', v') :: rest, k, v =>
    if k' = k then (k, v) :: rest else (k', v') :: Stats.put rest k v

/-! ## Line-boundary reassembler -/

/-- The byte `'\n'`. -/
def newline : Byte := 10

/-- The Go call `bytes.Index(b, delim)` for the one-byte `delim`: index of the
first `'\n'`, or `-1`. -/
def bytesIndex : List Byte → Int
  | [] => -1
  | b :: rest =>
    if b = newline then 0
    else if bytesIndex rest = -1 then -1 else bytesIndex rest + 1

/-- The Go call `bytes.LastIndex(b, delim)` for the one-byte `delim`: index of
the last `'\n'`, or `-1`. -/
def bytesLastIndex : List Byte → Int
  | [] => -1
  | b :: rest =>
    if bytesLastIndex rest = -1 then (if b = newline then 0 else -1)
    else bytesLastIndex rest + 1

/-- The function `mergeChunk(previousData, newData) (valid, remainder)`. -/
def mergeChunk (previousData newData : List Byte) : List Byte × List Byte :=
  let firstLine := bytesIndex newData
  let lastNewLine := bytesLastIndex newData
  if firstLine ≠ -1 then
    (previousData ++ newData.take (lastNewLine + 1).toNat,
     newData.drop (lastNewLine + 1).toNat)
  else
    ([], previousData ++ newData)

/-- The `for r := range raw` loop of `mergeChunks`: the state is the segments
sent on `valid` so far and the held-over remainder. -/
def mergeChunksLoop : List (List Byte) → List (List Byte) × List Byte →
    List (List Byte) × List Byte
  | [], st => st
  | r :: raw, (sent, remainder) =>
    let (validData, newRemainder) := mergeChunk remainder r
    mergeChunksLoop raw
      (if validData.length > 0 then sent ++ [validData] else sent, newRemainder)

/-- The function `mergeChunks(raw, valid)`: the sequence of segments sent on
`valid`, in emission order, for the sequence of chunks received on `raw`. -/
def mergeChunks (raw : List (List Byte)) : List (List Byte) :=
  let (sent, remainder) := mergeChunksLoop raw ([], [])
  if remainder.length > 0 then sent ++ [remainder] else sent

/-! ## Parser / aggregator worker -/

/-- The local variables of `processValidChunks`. -/
structure Scanner where
  cityStats : Stats
  name : cityName
  letterInName : Nat
  temp : Int
  neg : Bool

/-- The state of `processValidChunks` before the first byte. -/
def Scanner.init : Scanner :=
  { cityStats := [], name := cityName.zero, letterInName := 0, temp := 0, neg := false }

/-- The `case '\n'` update of an existing record `cs` with the value `temp`. -/
def registerTemp (cs : measure10x) (temp : Int) : measure10x :=
  let cs1 : measure10x :=
    if cs.min > temp then { cs with min := temp }
    else if cs.max < temp then { cs with max := temp }
    else cs
  { cs1 with sum := wrap64 (cs1.sum + temp), count := wrap32 (cs1.count + 1) }

/-- The `// register city` block of `case '\n'`: insert a fresh record for
`name`, or update the one already filed under it. -/
def registerCity (cityStats : Stats) (name : cityName) (temp : Int) : Stats :=
  match cityStats.get name with
  | none => cityStats.put name { min := temp, max := temp, count := 1, sum := temp }
  | some cs => cityStats.put name (registerTemp cs temp)

/-- One iteration of `for _, b := range c` in `processValidChunks`. -/
def scanByte (s : Scanner) (b : Byte) : Scanner :=
  if b = 10 then
    let temp := if s.neg then wrap16 (-s.temp) else s.temp
    { cityStats := registerCity s.cityStats s.name temp, name := cityName.zero,
      letterInName := 0, temp := 0, neg := false }
  else if b = 59 then { s with letterInName := 64 }
  else if b = 46 then s
  else if b = 45 then { s with neg := true }
  else if s.letterInName < 64 then
    { s with name := s.name.store s.letterInName b, letterInName := s.letterInName + 1 }
  else
    { s with temp := wrap16 (wrap16 (10 * s.temp) + ((b - 48 : Byte).val : Int)) }

/-- The `for c := range validChunks` loop of `processValidChunks`, from an
arbitrary scanner state. -/
def scanChunks (s : Scanner) (validChunks : List (List Byte)) : Scanner :=
  validChunks.foldl (fun st c => c.foldl scanByte st) s

/-- The function `processValidChunks`: the partial aggregate a worker
publishes after consuming the given segments. -/
def processValidChunks (validChunks : List (List Byte)) : Stats :=
  (scanChunks Scanner.init validChunks).cityStats

/-! ## Reduce merger -/

/-- The body of the reduce loop of `main` for a key already present:
`r` is the global record, `stats` the incoming one. -/
def combine (r stats : measure10x) : measure10x :=
  let r1 : measure10x :=
    if r.min > stats.min then { r with min := stats.min }
    else if r.max < stats.max then { r with max := stats.max }
    else r
  { r1 with sum := wrap64 (r1.sum + stats.sum), count := wrap32 (r1.count + stats.count) }

/-- One iteration of `for c, stats := range sc` in `main`. -/
def reduceStep (aggResults : Stats) (c : cityName) (stats : measure10x) : Stats :=
  match aggResults.get c with
  | none => aggResults.put c stats
  | some r => aggResults.put c (combine r stats)

/-- The loop `for c, stats := range sc` of `main` for one partial aggregate. -/
def reduceOne (aggResults : Stats) (sc : Stats) : Stats :=
  sc.foldl (fun agg p => reduceStep agg p.1 p.2) aggResults

/-- The loop `for sc := range statsChan` of `main`: the global aggregate after
the partial aggregates arrived in the given order. -/
def reduceAll (statsChan : List Stats) : Stats :=
  statsChan.foldl reduceOne []

/-! ## Worker pool -/

/-- The segments pulled from the shared `validChunks` channel by worker `w`,
in channel order, when `assign` names the worker that receives each segment. -/
def workerShare (validChunks : List (List Byte)) (assign : List Nat) (w : Nat) :
    List (List Byte) :=
  ((validChunks.zip assign).filter (fun p => p.2 = w)).map Prod.fst

/-- The partial aggregates published on `statsChan` by a pool of `n` workers,
listed by worker index. -/
def poolResults (n : Nat) (validChunks : List (List Byte)) (assign : List Nat) : List Stats :=
  (List.range n).map (fun w => processValidChunks (workerShare validChunks assign w))

/-! ## Sort and total count -/

/-- The Go call `bytes.Compare(a, b)`: byte-wise lexicographic comparison. -/
def bytesCompare : List Byte → List Byte → Int
  | [], [] => 0
  | [], _ :: _ => -1
  | _ :: _, [] => 1
  | a :: as, b :: bs =>
    if a < b then -1 else if b < a then 1 else bytesCompare as bs

/-- The `less` closure handed to `sort.Slice` in `main`. -/
def cityLess (a b : cityName) : Prop := bytesCompare a.1 b.1 < 0

instance : DecidableRel cityLess := fun a b => by unfold cityLess; infer_instance

/-- The result of `maps.Keys(aggResults)` followed by `sort.Slice`: the keys
ordered so that no name is preceded by one it is `cityLess` than. -/
def sortedNames (aggResults : Stats) : List cityName :=
  (aggResults.map Prod.fst).insertionSort (fun a b => ¬ cityLess b a)

/-- The value of the variable `count` that `main` prints last: the `int32`
sum of the `count` fields, accumulated over the sorted names. A name that is
not a key would be a `nil` dereference; `sortedNames` only lists keys. -/
def printedCount (aggResults : Stats) : Int :=
  (sortedNames aggResults).foldl
    (fun count name =>
      match aggResults.get name with
      | some stats => wrap32 (count + stats.count)
      | none => count) 0

/-! ## Specification vocabulary -/

/-- The key under which an identifier is filed: its first 64 bytes, padded
with zero bytes up to 64. -/
def keyOf (ident : List Byte) : cityName :=
  ⟨(ident ++ List.replicate 64 0).take 64, by simp⟩

/-- The number of workers `main` starts (`for i := 0; i <= 1024; i++`). -/
def poolSize : Nat := 1025

/-- A segment that is non-empty and whose last byte is the record delimiter. -/
def EndsWithNewline (seg : List Byte) : Prop := seg.getLast? = some newline

instance : DecidablePred EndsWithNewline := fun seg => by
  unfold EndsWithNewline; infer_instance

/-- The invariant of a measurement record: `count >= 1`, `min <= max` and
`min*count <= sum <= max*count`. -/
def RecordInv (r : measure10x) : Prop :=
  1 ≤ r.count ∧ r.min ≤ r.max ∧ r.min * r.count ≤ r.sum ∧ r.sum ≤ r.max * r.count

/-- A record whose `min` and `max` fit `int16`, that satisfies `RecordInv`, and
that has registered at most `n` values. -/
def RecordBounded (n : Int) (r : measure10x) : Prop :=
  RecordInv r ∧ r.count ≤ n ∧ -32768 ≤ r.min ∧ r.max ≤ 32767

/-- The scanner invariant after `n` record delimiters: the accumulator fits
`int16` and every record of the private map is `RecordBounded n`. -/
def ScanInv (n : Int) (s : Scanner) : Prop :=
  -32768 ≤ s.temp ∧ s.temp ≤ 32767 ∧ ∀ p ∈ s.cityStats, RecordBounded n p.2

/-- The exact (unbounded) sum of the `count` fields of an aggregate. -/
def totalCount (m : Stats) : Int := (m.map (fun p => p.2.count)).sum

/-- The `count` field stored under `k`, or `0` when `k` is absent. -/
def countOf (m : Stats) (k : cityName) : Int :=
  match m.get k with
  | some r => r.count
  | none => 0

/-- Every record of the aggregate has `count >= 1`. -/
def CountsPos (m : Stats) : Prop := ∀ p ∈ m, 1 ≤ p.2.count

/-- No key occurs twice in the association list. -/
def KeysNodup (m : Stats) : Prop := (m.map Prod.fst).Nodup

/-- A decimal digit byte, `'0'` to `'9'`. -/
def isDigit (b : Byte) : Prop := 48 ≤ b.val ∧ b.val ≤ 57

instance : DecidablePred isDigit := fun b => by unfold isDigit; infer_instance

/-- One input record `<identifier>;<value>\n`, the value being an optional
`'-'`, the digits before the point and the single fractional digit. -/
structure Record where
  ident : List Byte
  neg : Bool
  whole : List Byte
  frac : Byte

/-- The bytes of a record as they stand in the input. -/
def Record.render (r : Record) : List Byte :=
  r.ident ++ [59] ++ (if r.neg then [45] else []) ++ r.whole ++ [46, r.frac, 10]

/-- The integer read from a string of decimal digits, continuing from `acc`. -/
def digitsValue (acc : Int) (ds : List Byte) : Int :=
  ds.foldl (fun a d => 10 * a + ((d.val : Int) - 48)) acc

/-- The magnitude of the value in tenths: all its digits read as one integer. -/
def Record.magnitude (r : Record) : Int := digitsValue 0 (r.whole ++ [r.frac])

/-- The value of the record in tenths (x10 fixed point). -/
def Record.value (r : Record) : Int := if r.neg then -r.magnitude else r.magnitude

/-- The value is a decimal with one fractional digit whose magnitude in tenths
fits `int16`. -/
def Record.ValueOk (r : Record) : Prop :=
  (∀ d ∈ r.whole, isDigit d) ∧ isDigit r.frac ∧ r.magnitude ≤ 32767

/-- A record whose identifier is, as the claim words it, any text of at most 64
bytes other than `';'` and `'\n'`. -/
def Record.WellFormedAsClaimed (r : Record) : Prop :=
  r.ident.length ≤ 64 ∧ (∀ b ∈ r.ident, b ≠ 59 ∧ b ≠ 10) ∧ r.ValueOk

/-- A record whose identifier is any text of at most 64 bytes other than `';'`,
`'\n'`, `'-'` and `'.'`. -/
def Record.WellFormed (r : Record) : Prop :=
  r.ident.length ≤ 64 ∧ (∀ b ∈ r.ident, b ≠ 59 ∧ b ≠ 10 ∧ b ≠ 45 ∧ b ≠ 46) ∧ r.ValueOk

instance : DecidablePred Record.ValueOk := fun r => by
  unfold Record.ValueOk; infer_instance

instance : DecidablePred Record.WellFormedAsClaimed := fun r => by
  unfold Record.WellFormedAsClaimed; infer_instance

instance : DecidablePred Record.WellFormed := fun r => by
  unfold Record.WellFormed; infer_instance

/-- The values, in input order, of the records filed under key `k`. -/
def valuesOf (recs : List Record) (k : cityName) : List Int :=
  (recs.filter (fun r => decide (keyOf r.ident = k))).map Record.value

/-- The record `r` holds the smallest and the largest of the values `vs`, and
their sum and their number as they stand in an `int64` and an `int32`. -/
def Summarizes (r : measure10x) (vs : List Int) : Prop :=
  vs ≠ [] ∧ r.min ∈ vs ∧ (∀ v ∈ vs, r.min ≤ v) ∧ r.max ∈ vs ∧ (∀ v ∈ vs, v ≤ r.max) ∧
    r.sum = wrap64 vs.sum ∧ r.count = wrap32 vs.length

/-- At key `k`: the aggregate `m` has no entry when no record is filed under
`k`, and otherwise an entry that summarizes the values filed under `k`. -/
def AggregatesAt (m : Stats) (recs : List Record) (k : cityName) : Prop :=
  match m.get k with
  | none => valuesOf recs k = []
  | some r => Summarizes r (valuesOf recs k)

/-- The aggregate `m` has an entry exactly for the keys of `recs`, and each
entry summarizes the values of its key. -/
def AggregatesRecords (m : Stats) (recs : List Record) : Prop :=
  (∀ k, m.get k = none ↔ valuesOf recs k = []) ∧
  (∀ k r, m.get k = some r → Summarizes r (valuesOf recs k))

/-- The text of the value of a record: an optional `'-'`, the digits before
the point, the point and the fractional digit. -/
def Record.valueText (r : Record) : List Byte :=
  (if r.neg then [45] else []) ++ r.whole ++ [46, r.frac]

/-- The registrations a scanner in state `s` performs while consuming the
given bytes: one pair (key, value) for each `'\n'`, in order. -/
def registered (s : Scanner) : List Byte → List (cityName × Int)
  | [] => []
  | b :: bs =>
    if b = 10 then
      (s.name, if s.neg then wrap16 (-s.temp) else s.temp) :: registered (scanByte s b) bs
    else registered (scanByte s b) bs

/-- The fields of a record fit their Go types: `int16` for `min` and `max`,
`int32` for `count`, `int64` for `sum`. -/
def WellTyped (r : measure10x) : Prop :=
  (-32768 ≤ r.min ∧ r.min ≤ 32767) ∧ (-32768 ≤ r.max ∧ r.max ≤ 32767) ∧
  (-2147483648 ≤ r.count ∧ r.count ≤ 2147483647) ∧
  (-9223372036854775808 ≤ r.sum ∧ r.sum ≤ 9223372036854775807)

instance : DecidablePred WellTyped := fun r => by unfold WellTyped; infer_instance

instance : DecidablePred KeysNodup := fun m => by unfold KeysNodup; infer_instance

/-- The records filed under `k` in the given partial aggregates, in list
order. -/
def partialsOf (parts : List Stats) (k : cityName) : List measure10x :=
  parts.filterMap (fun sc => sc.get k)

/-- What the reduce loop leaves under a key: the incoming record when the key
was absent, the combination with the old record otherwise. -/
def mergeInto (old : Option measure10x) (stats : measure10x) : measure10x :=
  match old with
  | none => stats
  | some r => combine r stats

/-- The bytes of a name that reach the identifier buffer: the name with every
`'-'` and `'.'` removed. -/
def storedBytes (name : List Byte) : List Byte :=
  name.filter (fun b => decide (b ≠ 45 ∧ b ≠ 46))

/-! ## Report -/

/-- A `float64` value: the finite number `(-1)^neg * man * 2^exp` (a zero
when `man = 0`), an infinity or a NaN. The exponent is not bounded: the
quotients `main` forms from an `int64`, the constant 10 and an `int32` lie, when
not zero, between `2^-35` and `2^63` in magnitude, well inside the normal range
of `float64`, so no overflow or underflow occurs. -/
inductive F64 where
  | fin (neg : Bool) (man : Nat) (exp : Int)
  | inf (neg : Bool)
  | nan
deriving DecidableEq, Repr

/-- The integer nearest to `num / den` (`den > 0`), ties going to the even one. -/
def roundHalfEven (num den : Nat) : Nat :=
  let q := num / den
  let r := num % den
  if 2 * r > den ∨ (2 * r = den ∧ q % 2 = 1) then q + 1 else q

/-- Helper of `ilog2`: halve `n` until it is below 2, at most `fuel` times. -/
def bitLog : Nat → Nat → Nat
  | 0, _ => 0
  | fuel + 1, n => if 2 ≤ n then bitLog fuel (n / 2) + 1 else 0

/-- The position of the highest set bit of `n` (`0` for `n = 0`). -/
def ilog2 (n : Nat) : Nat := bitLog n n

/-- The quotient `num / den` (`num, den > 0`) rounded to nearest, ties to even,
with the 53 significant bits of a `float64`: the result is `m * 2^e` for the
pair `(m, e)` returned, with `2^52 <= m <= 2^53`. -/
def roundQuot (num den : Nat) : Nat × Int :=
  let s0 : Int := 53 + (ilog2 den : Int) - (ilog2 num : Int)
  let q0 := (num * 2 ^ s0.toNat) / (den * 2 ^ (-s0).toNat)
  let s : Int := if q0 ≥ 2 ^ 53 then s0 - 1 else s0
  (roundHalfEven (num * 2 ^ s.toNat) (den * 2 ^ (-s).toNat), -s)

/-- The conversion `float64(x)` of an integer: exact below `2^53`, rounded to
nearest even above. -/
def F64.ofInt (x : Int) : F64 :=
  if x = 0 then .fin false 0 0
  else if x.natAbs < 2 ^ 53 then .fin (decide (x < 0)) x.natAbs 0
  else .fin (decide (x < 0)) (roundQuot x.natAbs 1).1 (roundQuot x.natAbs 1).2

/-- The `float64` division `a / b` (IEEE 754, round to nearest even). -/
def F64.div : F64 → F64 → F64
  | .nan, _ => .nan
  | _, .nan => .nan
  | .inf _, .inf _ => .nan
  | .inf n1, .fin n2 _ _ => .inf (xor n1 n2)
  | .fin n1 _ _, .inf n2 => .fin (xor n1 n2) 0 0
  | .fin n1 m1 e1, .fin n2 m2 e2 =>
    if m2 = 0 then (if m1 = 0 then .nan else .inf (xor n1 n2))
    else if m1 = 0 then .fin (xor n1 n2) 0 0
    else .fin (xor n1 n2) (roundQuot m1 m2).1 ((roundQuot m1 m2).2 + e1 - e2)

/-- The constant `10.` of `main`. -/
def F64.ten : F64 := .fin false 10 0

/-- The decimal digits of a natural number, as bytes. -/
def natDigits (n : Nat) : List Byte :=
  (Nat.toDigits 10 n).map (fun c => Fin.ofNat c.toNat)

/-- The text `fmt.Println` writes for an `int32`. -/
def decimalText (n : Int) : List Byte :=
  if n < 0 then 45 :: natDigits n.natAbs else natDigits n.natAbs

/-- The text `fmt` writes for a `float64` under the verb `%.1f`: the value
rounded to one decimal place (to nearest, ties to even), with a `'-'` for a
negative value or a negative zero; `NaN`, `+Inf` and `-Inf` otherwise. -/
def fmtF1 : F64 → List Byte
  | .nan => [78, 97, 78]
  | .inf false => [43, 73, 110, 102]
  | .inf true => [45, 73, 110, 102]
  | .fin neg man exp =>
    (if neg then [45] else []) ++
      natDigits (roundHalfEven (man * 10 * 2 ^ exp.toNat) (2 ^ (-exp).toNat) / 10) ++
      [46, Fin.ofNat (48 + roundHalfEven (man * 10 * 2 ^ exp.toNat) (2 ^ (-exp).toNat) % 10)]

/-- The text of `float64(stats.min)/10.` (or `max`) under `%.1f`. -/
def tenthF1 (x : Int) : List Byte := fmtF1 (F64.div (F64.ofInt x) F64.ten)

/-- The text of `float64(stats.sum)/10./float64(stats.count)` under `%.1f`. -/
def averageF1 (sum count : Int) : List Byte :=
  fmtF1 (F64.div (F64.div (F64.ofInt sum) F64.ten) (F64.ofInt count))

/-- The call `fmt.Printf("\t{\"%s\":[%.1f,%.1f,%.1f]}", name, ...)`; `%s` writes
the 64 bytes of the array, zero bytes included. -/
def printEntry (name : cityName) (stats : measure10x) : List Byte :=
  [9, 123, 34] ++ name.1 ++ [34, 58, 91] ++ tenthF1 stats.min ++ [44] ++
    tenthF1 stats.max ++ [44] ++ averageF1 stats.sum stats.count ++ [93, 125]

/-- The output of the loop `for idx, name := range cityNames` of `main`, from
index `idx` on: the entry, a comma unless `idx` is the last index, a newline.
A name that is not a key would be a `nil` dereference; `sortedNames` only lists
keys. -/
def printLoop (aggResults : Stats) (cityNames : List cityName) :
    Nat → List cityName → List Byte
  | _, [] => []
  | idx, name :: rest =>
    (match aggResults.get name with
      | some stats => printEntry name stats
      | none => []) ++
    (if (idx : Int) ≠ (cityNames.length : Int) - 1 then [44] else []) ++ [10] ++
    printLoop aggResults cityNames (idx + 1) rest

/-- Everything `main` writes to standard output. -/
def report (aggResults : Stats) : List Byte :=
  [123, 10] ++ printLoop aggResults (sortedNames aggResults) 0 (sortedNames aggResults) ++
    [125, 10] ++ decimalText (printedCount aggResults) ++ [10]

/-- The entry as the claim words it: `"<identifier>":[<min>,<max>,<avg>]` with
the identifier as it appears in the input. -/
def claimedEntry (ident : List Byte) (stats : measure10x) : List Byte :=
  [34] ++ ident ++ [34, 58, 91] ++ tenthF1 stats.min ++ [44] ++
    tenthF1 stats.max ++ [44] ++ averageF1 stats.sum stats.count ++ [93]

/-- The decimal text of `x / 10` with exactly one decimal: a `'-'` when `x` is
negative, the digits of `|x| / 10`, a point and the digit `|x| % 10`. -/
def tenthText (x : Int) : List Byte :=
  (if x < 0 then [45] else []) ++ natDigits (x.natAbs / 10) ++
    [46, Fin.ofNat (48 + x.natAbs % 10)]

/-- A number text with one decimal place: an optional `'-'`, at least one
decimal digit, a point and exactly one decimal digit. -/
def OneDecimal (text : List Byte) : Prop :=
  ∃ sign digits d, text = sign ++ digits ++ [46, d] ∧ (sign = [] ∨ sign = [45]) ∧
    digits ≠ [] ∧ (∀ c ∈ digits, isDigit c) ∧ isDigit d

/-- The records of the aggregate in the order of the report: for each sorted
name, the record filed under it. -/
def entriesOf (aggResults : Stats) : List (cityName × measure10x) :=
  (sortedNames aggResults).filterMap
    (fun name => (aggResults.get name).map (fun stats => (name, stats)))

/-! ## Theorems -/

/-! ### Reassembler -/
theorem bytesIndex_eq_neg_one_iff (l : List Byte) : bytesIndex l = -1 ↔ newline ∉ l := by
  induction l with
  | nil => simp [bytesIndex]
  | cons b rest ih =>
    have hge : ∀ l : List Byte, -1 ≤ bytesIndex l := by
      intro l
      induction l with
      | nil => simp [bytesIndex]
      | cons b rest ih => unfold bytesIndex; split_ifs <;> omega
    have := hge rest
    unfold bytesIndex
    by_cases hb : b = newline
    · simp [hb]
    · have hb' : ¬ newline = b := fun h => hb h.symm
      by_cases hr : bytesIndex rest = -1
      · simp [hb, hb', hr, ih.mp hr]
      · have : newline ∈ rest := by
          by_contra hn
          exact hr (ih.mpr hn)
        simp [hb, hr, this]
        omega

theorem bytesLastIndex_cons (b : Byte) (rest : List Byte) :
    bytesLastIndex (b :: rest) =
      if bytesLastIndex rest = -1 then (if b = newline then 0 else -1)
      else bytesLastIndex rest + 1 := rfl

theorem bytesLastIndex_split (pre post : List Byte) (h : newline ∉ post) :
    bytesLastIndex (pre ++ newline :: post) = pre.length := by
  have hpost : ∀ l : List Byte, newline ∉ l → bytesLastIndex l = -1 := by
    intro l
    induction l with
    | nil => simp [bytesLastIndex]
    | cons b rest ih =>
      intro hl
      simp only [List.mem_cons, not_or] at hl
      have hb : ¬ b = newline := fun h => hl.1 h.symm
      simp [bytesLastIndex, ih hl.2, hb]
  induction pre with
  | nil => simp [bytesLastIndex, hpost post h]
  | cons b rest ih =>
    have : ¬ ((rest.length : Int) = -1) := by omega
    rw [List.cons_append, bytesLastIndex_cons, ih, if_neg this, List.length_cons]
    push_cast
    rfl

theorem exists_last_newline (l : List Byte) (h : newline ∈ l) :
    ∃ pre post, l = pre ++ newline :: post ∧ newline ∉ post := by
  induction l with
  | nil => simp at h
  | cons b rest ih =>
    by_cases hr : newline ∈ rest
    · obtain ⟨pre, post, hl, hp⟩ := ih hr
      exact ⟨b :: pre, post, by simp [hl], hp⟩
    · have hb : newline = b := by
        rcases List.mem_cons.mp h with h | h
        · exact h
        · exact absurd h hr
      exact ⟨[], rest, by simp [hb], hr⟩

theorem mergeChunk_split (previousData pre post : List Byte) (h : newline ∉ post) :
    mergeChunk previousData (pre ++ newline :: post) =
      (previousData ++ (pre ++ [newline]), post) := by
  have h1 : bytesIndex (pre ++ newline :: post) ≠ -1 := by
    rw [Ne, bytesIndex_eq_neg_one_iff]; simp
  have h2 := bytesLastIndex_split pre post h
  have h3 : ((pre.length : Int) + 1).toNat = pre.length + 1 := by omega
  simp only [mergeChunk, h2, h3]
  rw [if_pos h1]
  have e : pre ++ newline :: post = (pre ++ [newline]) ++ post := by simp
  rw [e]
  have hl : (pre ++ [newline]).length = pre.length + 1 := by simp
  rw [← hl, List.take_left, List.drop_left]

theorem mergeChunk_no_newline (previousData newData : List Byte) (h : newline ∉ newData) :
    mergeChunk previousData newData = ([], previousData ++ newData) := by
  have h1 : bytesIndex newData = -1 := (bytesIndex_eq_neg_one_iff newData).mpr h
  simp [mergeChunk, h1]

theorem mergeChunk_append (previousData newData : List Byte) :
    (mergeChunk previousData newData).1 ++ (mergeChunk previousData newData).2 =
      previousData ++ newData := by
  unfold mergeChunk
  dsimp only
  split_ifs <;> simp

theorem mergeChunk_cases (previousData newData : List Byte) (h : newline ∉ previousData) :
    ((mergeChunk previousData newData).1 = [] ∨
      (mergeChunk previousData newData).1.getLast? = some newline) ∧
    newline ∉ (mergeChunk previousData newData).2 := by
  by_cases hn : newline ∈ newData
  · obtain ⟨pre, post, hl, hp⟩ := exists_last_newline newData hn
    rw [hl, mergeChunk_split previousData pre post hp]
    refine ⟨Or.inr ?_, hp⟩
    simp [← List.append_assoc]
  · rw [mergeChunk_no_newline previousData newData hn]
    refine ⟨Or.inl rfl, ?_⟩
    simp [h, hn]

theorem mergeChunksLoop_cons (r : List Byte) (raw sent : List (List Byte))
    (remainder : List Byte) :
    mergeChunksLoop (r :: raw) (sent, remainder) =
      mergeChunksLoop raw
        (if (mergeChunk remainder r).1.length > 0 then sent ++ [(mergeChunk remainder r).1]
          else sent, (mergeChunk remainder r).2) := rfl

theorem mergeChunksLoop_join (raw sent : List (List Byte)) (remainder : List Byte) :
    (mergeChunksLoop raw (sent, remainder)).1.flatten ++ (mergeChunksLoop raw (sent, remainder)).2 =
      sent.flatten ++ remainder ++ raw.flatten := by
  induction raw generalizing sent remainder with
  | nil => simp [mergeChunksLoop]
  | cons r raw ih =>
    rw [mergeChunksLoop_cons, ih]
    have h := mergeChunk_append remainder r
    by_cases hv : (mergeChunk remainder r).1.length > 0
    · rw [if_pos hv]
      simp only [List.flatten_append, List.flatten_cons, List.flatten_nil, List.append_nil,
        List.append_assoc]
      rw [← List.append_assoc (mergeChunk remainder r).1, h]
      simp
    · rw [if_neg hv]
      have hnil : (mergeChunk remainder r).1 = [] := by
        apply List.eq_nil_of_length_eq_zero; omega
      rw [hnil, List.nil_append] at h
      rw [h]; simp

theorem mergeChunksLoop_segments (raw sent : List (List Byte)) (remainder : List Byte)
    (hs : ∀ seg ∈ sent, EndsWithNewline seg) (hr : newline ∉ remainder) :
    (∀ seg ∈ (mergeChunksLoop raw (sent, remainder)).1, EndsWithNewline seg) ∧
    newline ∉ (mergeChunksLoop raw (sent, remainder)).2 := by
  induction raw generalizing sent remainder with
  | nil => exact ⟨hs, hr⟩
  | cons r raw ih =>
    rw [mergeChunksLoop_cons]
    obtain ⟨h1, h2⟩ := mergeChunk_cases remainder r hr
    apply ih _ _ _ h2
    by_cases hv : (mergeChunk remainder r).1.length > 0
    · rw [if_pos hv]
      intro seg hseg
      rcases List.mem_append.mp hseg with h | h
      · exact hs seg h
      · rw [List.mem_singleton] at h
        subst h
        rcases h1 with h1 | h1
        · rw [h1] at hv; simp at hv
        · exact h1
    · rw [if_neg hv]; exact hs

theorem mergeChunks_eq (raw : List (List Byte)) :
    mergeChunks raw =
      if (mergeChunksLoop raw ([], [])).2.length > 0 then
        (mergeChunksLoop raw ([], [])).1 ++ [(mergeChunksLoop raw ([], [])).2]
      else (mergeChunksLoop raw ([], [])).1 := rfl

theorem mergeChunks_flatten (raw : List (List Byte)) :
    (mergeChunks raw).flatten = raw.flatten := by
  have h := mergeChunksLoop_join raw [] []
  rw [mergeChunks_eq]
  by_cases hv : (mergeChunksLoop raw ([], [])).2.length > 0
  · rw [if_pos hv]
    simpa using h
  · rw [if_neg hv]
    have hnil : (mergeChunksLoop raw ([], [])).2 = [] := by
      apply List.eq_nil_of_length_eq_zero; omega
    rw [hnil] at h
    simpa using h

/-- C4. For every sequence of raw chunks, the segments `mergeChunks` sends
downstream (final flush included), concatenated in emission order, are
byte-for-byte the concatenation of the input chunks. -/
theorem mergeChunks_preserves_stream (raw : List (List Byte)) :
    (mergeChunks raw).flatten = raw.flatten :=
  mergeChunks_flatten raw

theorem getLast?_flatten_of_last_nonempty (segs : List (List Byte)) (last : List Byte)
    (h : last ≠ []) : (segs ++ [last]).flatten.getLast? = last.getLast? := by
  rw [List.flatten_append]
  simp only [List.flatten_cons, List.flatten_nil, List.append_nil]
  rw [List.getLast?_append]
  cases hl : last.getLast? with
  | none => exact absurd (List.getLast?_eq_none_iff.mp hl) h
  | some x => simp

/-- C5 (as stated, refuted). With the single chunk `A;1.0\nB;2.0` the final
flush sends `B;2.0`, a segment whose last byte is not the delimiter. -/
theorem mergeChunks_flush_unterminated :
    ¬ (∀ raw : List (List Byte), ∀ seg ∈ mergeChunks raw,
        seg ≠ [] ∧ EndsWithNewline seg) := by
  intro h
  have h1 := (h [[65, 59, 49, 46, 48, 10, 66, 59, 50, 46, 48]] [66, 59, 50, 46, 48]
    (by decide)).2
  revert h1
  unfold EndsWithNewline
  decide

/-- C5 (amended). Every segment `mergeChunks` sends is non-empty; every segment
sent by the loop ends with the delimiter, so segment boundaries fall only right
after a `'\n'`; the only other segment is the final flush, which comes last and
contains no delimiter at all; and when the stream is empty or ends with the
delimiter there is no such flush, so every segment ends with the delimiter. -/
theorem mergeChunks_segments_valid (raw : List (List Byte)) :
    (∀ seg ∈ mergeChunks raw, seg ≠ []) ∧
    (∀ seg ∈ (mergeChunks raw).dropLast, EndsWithNewline seg) ∧
    (∀ seg, (mergeChunks raw).getLast? = some seg → EndsWithNewline seg ∨ newline ∉ seg) ∧
    ((raw.flatten = [] ∨ EndsWithNewline raw.flatten) →
      ∀ seg ∈ mergeChunks raw, EndsWithNewline seg) := by
  obtain ⟨hs, hr⟩ := mergeChunksLoop_segments raw [] [] (by simp) (by simp)
  have hj := mergeChunksLoop_join raw [] []
  have hne : ∀ seg : List Byte, EndsWithNewline seg → seg ≠ [] := by
    intro seg h e
    rw [e] at h
    simp [EndsWithNewline] at h
  rw [mergeChunks_eq]
  by_cases hv : (mergeChunksLoop raw ([], [])).2.length > 0
  · rw [if_pos hv]
    have hrem : (mergeChunksLoop raw ([], [])).2 ≠ [] := by
      intro e; rw [e] at hv; simp at hv
    refine ⟨?_, ?_, ?_, ?_⟩
    · intro seg hseg
      rcases List.mem_append.mp hseg with h | h
      · exact hne seg (hs seg h)
      · rw [List.mem_singleton] at h
        rw [h]; exact hrem
    · rw [List.dropLast_concat]
      exact hs
    · intro seg hseg
      rw [List.getLast?_concat, Option.some.injEq] at hseg
      rw [← hseg]
      exact Or.inr hr
    · intro hend
      exfalso
      have hlast := getLast?_flatten_of_last_nonempty (mergeChunksLoop raw ([], [])).1
        (mergeChunksLoop raw ([], [])).2 hrem
      have hj' : ((mergeChunksLoop raw ([], [])).1 ++ [(mergeChunksLoop raw ([], [])).2]).flatten
          = raw.flatten := by
        simpa using hj
      rw [hj'] at hlast
      rcases hend with h0 | h1
      · rw [h0] at hlast
        exact hrem (List.getLast?_eq_none_iff.mp hlast.symm)
      · rw [EndsWithNewline] at h1
        rw [h1] at hlast
        exact hr (List.mem_of_getLast?_eq_some hlast.symm)
  · rw [if_neg hv]
    refine ⟨fun seg hseg => hne seg (hs seg hseg), ?_, ?_, fun _ => hs⟩
    · intro seg hseg
      exact hs seg (List.mem_of_mem_dropLast hseg)
    · intro seg hseg
      exact Or.inl (hs seg (List.mem_of_getLast?_eq_some hseg))

/-- The amended C5 applied to the chunks `A\n` and `B\n`, whose stream ends
with the delimiter: the second segment sent, `B\n`, ends with the delimiter. -/
theorem mergeChunks_segments_valid_witness :
    EndsWithNewline [[65, 10], [66, 10]].flatten ∧
    [66, 10] ∈ mergeChunks [[65, 10], [66, 10]] ∧
    EndsWithNewline [66, 10] :=
  ⟨by decide, by decide,
    (mergeChunks_segments_valid [[65, 10], [66, 10]]).2.2.2 (Or.inr (by decide)) [66, 10]
      (by decide)⟩

/-- C6. `mergeChunk(remainder, chunk)`: when the chunk holds a `'\n'` whose last
occurrence is at index `i`, the valid part is `remainder ++ chunk[0..i]`
(delimiter included) and the new remainder is `chunk[i+1..]`; when the chunk
holds no `'\n'`, the valid part is empty and the new remainder is
`remainder ++ chunk`; when the chunk ends with `'\n'`, the new remainder is
empty, so the next chunk is merged exactly as after a fresh start. -/
theorem mergeChunk_contract (remainder chunk : List Byte) :
    (∀ i : Nat, chunk[i]? = some newline → (∀ j, i < j → chunk[j]? ≠ some newline) →
      mergeChunk remainder chunk = (remainder ++ chunk.take (i + 1), chunk.drop (i + 1))) ∧
    (newline ∉ chunk → mergeChunk remainder chunk = ([], remainder ++ chunk)) ∧
    (∀ body, chunk = body ++ [newline] →
      mergeChunk remainder chunk = (remainder ++ chunk, []) ∧
      ∀ next, mergeChunk (mergeChunk remainder chunk).2 next = mergeChunk [] next) := by
  refine ⟨?_, mergeChunk_no_newline remainder chunk, ?_⟩
  · intro i hi hlast
    have hpost : newline ∉ chunk.drop (i + 1) := by
      intro hmem
      obtain ⟨k, hk⟩ := List.getElem?_of_mem hmem
      rw [List.getElem?_drop] at hk
      exact hlast (i + 1 + k) (by omega) hk
    have htake : chunk.take (i + 1) = chunk.take i ++ [newline] := by
      rw [List.take_succ, hi]; rfl
    have hsplit : chunk = chunk.take i ++ newline :: chunk.drop (i + 1) := by
      have h := List.take_append_drop (i + 1) chunk
      rw [htake] at h
      simpa using h.symm
    have h := mergeChunk_split remainder (chunk.take i) (chunk.drop (i + 1)) hpost
    rw [← hsplit] at h
    rw [h, htake]
  · intro body hbody
    have h := mergeChunk_split remainder body [] (by simp)
    rw [← hbody] at h
    rw [h]
    exact ⟨rfl, fun _ => rfl⟩

/-- C6 applied to remainder `B` and the chunks `A\nC` (last delimiter at
index 1), `A` (no delimiter) and `A\n` (delimiter last). -/
theorem mergeChunk_contract_witness :
    mergeChunk [66] [65, 10, 67] = ([66, 65, 10], [67]) ∧
    mergeChunk [66] [65] = ([], [66, 65]) ∧
    mergeChunk [66] [65, 10] = ([66, 65, 10], []) :=
  ⟨(mergeChunk_contract [66] [65, 10, 67]).1 1 (by decide)
      (fun j hj => by
        match j, hj with
        | 2, _ => decide
        | (k + 3), _ => simp),
    (mergeChunk_contract [66] [65]).2.1 (by decide),
    ((mergeChunk_contract [66] [65, 10]).2.2 [65] (by decide)).1⟩

/-! ### Reduce merger: the `else if` of the merge loop -/

/-- C1 (code evaluated at the failing input). The global aggregate holds
`A -> (min 50, max 50, count 1, sum 50)` (a worker that saw `A;5.0`) and the
incoming partial aggregate holds `A -> (min 0, max 90, count 2, sum 90)` (a
worker that saw `A;0.0` and `A;9.0`). The reduce step lowers `min` to 0 and,
having taken the first branch, skips the `else if` that would raise `max`:
the resulting record keeps `max = 50`, not `max 50 90 = 90`. -/
theorem reduceStep_skips_max :
    processValidChunks [[65, 59, 53, 46, 48, 10]] = [(keyOf [65], ⟨50, 50, 1, 50⟩)] ∧
    processValidChunks [[65, 59, 48, 46, 48, 10, 65, 59, 57, 46, 48, 10]] =
      [(keyOf [65], ⟨0, 90, 2, 90⟩)] ∧
    (reduceStep [(keyOf [65], ⟨50, 50, 1, 50⟩)] (keyOf [65]) ⟨0, 90, 2, 90⟩).get (keyOf [65]) =
      some ⟨0, 50, 3, 140⟩ ∧
    (50 : Int) ≠ max 50 90 := by
  decide

/-- C2 (code evaluated at the failing input). The same two partial aggregates,
each with `min <= max`, folded in the two possible arrival orders give global
records for `A` that differ in `max`. -/
theorem reduceAll_order_dependent :
    (reduceAll [[(keyOf [65], ⟨50, 50, 1, 50⟩)], [(keyOf [65], ⟨0, 90, 2, 90⟩)]]).get
        (keyOf [65]) = some ⟨0, 50, 3, 140⟩ ∧
    (reduceAll [[(keyOf [65], ⟨0, 90, 2, 90⟩)], [(keyOf [65], ⟨50, 50, 1, 50⟩)]]).get
        (keyOf [65]) = some ⟨0, 90, 3, 140⟩ ∧
    [[(keyOf [65], (⟨0, 90, 2, 90⟩ : measure10x))], [(keyOf [65], ⟨50, 50, 1, 50⟩)]].Perm
      [[(keyOf [65], ⟨50, 50, 1, 50⟩)], [(keyOf [65], ⟨0, 90, 2, 90⟩)]] := by
  refine ⟨by decide, by decide, ?_⟩
  exact List.Perm.swap _ _ _

set_option maxRecDepth 100000 in
/-- C3 (code evaluated at the failing input). The stream `A;5.0\nA;0.0\nA;9.0\n`
arrives as the two chunks `A;5.0\n` and `A;0.0\nA;9.0\n`, which are also the two
valid segments. Worker 0 takes the first and worker 1 the second; merged in
worker order the pool of 1025 workers gives `A -> max 50`, whereas one worker
processing both segments gives `A -> max 90`. -/
theorem pool_differs_from_single_worker :
    mergeChunks [[65, 59, 53, 46, 48, 10], [65, 59, 48, 46, 48, 10, 65, 59, 57, 46, 48, 10]] =
      [[65, 59, 53, 46, 48, 10], [65, 59, 48, 46, 48, 10, 65, 59, 57, 46, 48, 10]] ∧
    reduceAll (poolResults poolSize
        [[65, 59, 53, 46, 48, 10], [65, 59, 48, 46, 48, 10, 65, 59, 57, 46, 48, 10]] [0, 1]) =
      [(keyOf [65], ⟨0, 50, 3, 140⟩)] ∧
    reduceAll (poolResults 1
        [[65, 59, 53, 46, 48, 10], [65, 59, 48, 46, 48, 10, 65, 59, 57, 46, 48, 10]] [0, 0]) =
      [(keyOf [65], ⟨0, 90, 3, 140⟩)] ∧
    processValidChunks
        [[65, 59, 53, 46, 48, 10], [65, 59, 48, 46, 48, 10, 65, 59, 57, 46, 48, 10]] =
      [(keyOf [65], ⟨0, 90, 3, 140⟩)] := by
  decide

set_option maxRecDepth 100000 in
/-- C8 (code evaluated at the failing input). The stream
`A;5.0\nA;0.0\nA;99.0\nA;99.0\n` arrives as the chunks `A;5.0\n` and
`A;0.0\nA;99.0\nA;99.0\n`; worker 0 takes the first segment, worker 1 the second,
and the partial aggregates are merged in worker order. The global record for `A`
is `(min 0, max 50, count 4, sum 2030)`: its sum exceeds `max * count = 200`, so
the average 507.5 is above the recorded maximum 50. -/
theorem pool_average_above_max :
    reduceAll (poolResults poolSize
        (mergeChunks [[65, 59, 53, 46, 48, 10],
          [65, 59, 48, 46, 48, 10, 65, 59, 57, 57, 46, 48, 10, 65, 59, 57, 57, 46, 48, 10]])
        [0, 1]) =
      [(keyOf [65], ⟨0, 50, 4, 2030⟩)] ∧
    ¬ ((2030 : Int) ≤ 50 * 4) := by
  decide

/-! ### Association-list maps -/

theorem Stats.get_put (m : Stats) (k k' : cityName) (v : measure10x) :
    (m.put k v).get k' = if k = k' then some v else m.get k' := by
  induction m with
  | nil => simp [Stats.put, Stats.get]
  | cons p rest ih =>
    obtain ⟨a, w⟩ := p
    by_cases ha : a = k
    · subst ha
      by_cases hk : a = k' <;> simp [Stats.put, Stats.get, hk]
    · by_cases hk : a = k'
      · subst hk
        simp [Stats.put, Stats.get, ha, Ne.symm ha]
      · simp [Stats.put, Stats.get, ha, hk, ih]

theorem Stats.mem_of_get (m : Stats) (k : cityName) (v : measure10x)
    (h : m.get k = some v) : (k, v) ∈ m := by
  induction m with
  | nil => simp [Stats.get] at h
  | cons p rest ih =>
    obtain ⟨a, w⟩ := p
    by_cases ha : a = k
    · subst ha
      simp [Stats.get] at h
      simp [h]
    · simp [Stats.get, ha] at h
      exact List.mem_cons_of_mem _ (ih h)

theorem Stats.mem_put (m : Stats) (k : cityName) (v : measure10x) (p : cityName × measure10x)
    (h : p ∈ m.put k v) : p ∈ m ∨ p = (k, v) := by
  induction m with
  | nil =>
    simp [Stats.put] at h
    exact Or.inr h
  | cons q rest ih =>
    obtain ⟨a, w⟩ := q
    by_cases ha : a = k
    · simp only [Stats.put, ha, if_true, List.mem_cons] at h
      rcases h with h | h
      · exact Or.inr h
      · exact Or.inl (List.mem_cons_of_mem _ h)
    · simp only [Stats.put, ha, if_false, List.mem_cons] at h
      rcases h with h | h
      · exact Or.inl (by simp [h])
      · rcases ih h with h | h
        · exact Or.inl (List.mem_cons_of_mem _ h)
        · exact Or.inr h

/-! ### Wrap-around -/

theorem wrap16_range (x : Int) : -32768 ≤ wrap16 x ∧ wrap16 x ≤ 32767 := by
  unfold wrap16; omega

theorem wrap16_id (x : Int) (h1 : -32768 ≤ x) (h2 : x ≤ 32767) : wrap16 x = x := by
  unfold wrap16; omega

theorem wrap32_id (x : Int) (h1 : -2147483648 ≤ x) (h2 : x ≤ 2147483647) : wrap32 x = x := by
  unfold wrap32; omega

theorem wrap64_id (x : Int) (h1 : -9223372036854775808 ≤ x) (h2 : x ≤ 9223372036854775807) :
    wrap64 x = x := by
  unfold wrap64; omega

/-! ### Worker invariant -/

theorem recordBounded_mono {n m : Int} {r : measure10x} (h : RecordBounded n r) (hnm : n ≤ m) :
    RecordBounded m r :=
  ⟨h.1, le_trans h.2.1 hnm, h.2.2⟩

theorem recordBounded_first (n : Int) (temp : Int) (hn : 0 ≤ n) (h1 : -32768 ≤ temp)
    (h2 : temp ≤ 32767) :
    RecordBounded (n + 1) { min := temp, max := temp, count := 1, sum := temp } := by
  refine ⟨⟨?_, ?_, ?_, ?_⟩, ?_, ?_, ?_⟩ <;> dsimp only <;> omega

theorem registerTemp_eq (cs : measure10x) (temp : Int) (hmm : cs.min ≤ cs.max)
    (hs : wrap64 (cs.sum + temp) = cs.sum + temp)
    (hc : wrap32 (cs.count + 1) = cs.count + 1) :
    registerTemp cs temp =
      { min := min cs.min temp, max := max cs.max temp, count := cs.count + 1,
        sum := cs.sum + temp } := by
  unfold registerTemp
  by_cases hA : cs.min > temp
  · simp only [hA, if_true, hs, hc, measure10x.mk.injEq, and_true]
    omega
  · by_cases hB : cs.max < temp
    · simp only [hA, hB, if_true, if_false, hs, hc, measure10x.mk.injEq, and_true]
      omega
    · simp only [hA, hB, if_false, hs, hc, measure10x.mk.injEq, and_true]
      omega

theorem registerTemp_bounded (n : Int) (cs : measure10x) (temp : Int)
    (hcs : RecordBounded n cs) (hn : n + 1 < 2147483648) (h1 : -32768 ≤ temp)
    (h2 : temp ≤ 32767) : RecordBounded (n + 1) (registerTemp cs temp) := by
  obtain ⟨⟨hc1, hmm, hlo, hhi⟩, hcn, hmin, hmax⟩ := hcs
  have hc0 : 0 ≤ cs.count := by omega
  have hlo' : -32768 * cs.count ≤ cs.sum := by nlinarith
  have hhi' : cs.sum ≤ 32767 * cs.count := by nlinarith
  have hsum : wrap64 (cs.sum + temp) = cs.sum + temp := by
    apply wrap64_id <;> omega
  have hcount : wrap32 (cs.count + 1) = cs.count + 1 := by
    apply wrap32_id <;> omega
  rw [registerTemp_eq cs temp hmm hsum hcount]
  have hm1 : min cs.min temp ≤ cs.min := min_le_left _ _
  have hm2 : min cs.min temp ≤ temp := min_le_right _ _
  have hM1 : cs.max ≤ max cs.max temp := le_max_left _ _
  have hM2 : temp ≤ max cs.max temp := le_max_right _ _
  have hp1 := mul_le_mul_of_nonneg_right hm1 hc0
  have hp2 := mul_le_mul_of_nonneg_right hM1 hc0
  refine ⟨⟨?_, ?_, ?_, ?_⟩, ?_, ?_, ?_⟩ <;> dsimp only
  · omega
  · omega
  · nlinarith
  · nlinarith
  · omega
  · omega
  · omega

theorem scanByte_inv (n : Int) (s : Scanner) (b : Byte) (hn : 0 ≤ n) (hs : ScanInv n s)
    (hb : b = newline → n + 1 < 2147483648) :
    ScanInv (n + (if b = newline then 1 else 0)) (scanByte s b) := by
  obtain ⟨ht1, ht2, hrec⟩ := hs
  by_cases h10 : b = 10
  · have hnl : b = newline := h10
    have hn1 := hb hnl
    simp only [hnl, if_true]
    have htemp : -32768 ≤ (if s.neg then wrap16 (-s.temp) else s.temp) ∧
        (if s.neg then wrap16 (-s.temp) else s.temp) ≤ 32767 := by
      split_ifs
      · exact wrap16_range _
      · exact ⟨ht1, ht2⟩
    unfold scanByte
    simp only [show newline = (10 : Byte) from rfl, if_true]
    refine ⟨by simp, by simp, ?_⟩
    intro p hp
    dsimp only [registerCity] at hp
    cases hget : s.cityStats.get s.name with
    | none =>
      rw [hget] at hp
      rcases Stats.mem_put _ _ _ _ hp with h | h
      · exact recordBounded_mono (hrec p h) (by omega)
      · rw [h]
        exact recordBounded_first n _ hn htemp.1 htemp.2
    | some cs =>
      rw [hget] at hp
      rcases Stats.mem_put _ _ _ _ hp with h | h
      · exact recordBounded_mono (hrec p h) (by omega)
      · rw [h]
        exact registerTemp_bounded n cs _ (hrec _ (Stats.mem_of_get _ _ _ hget)) hn1
          htemp.1 htemp.2
  · have hnl : ¬ b = newline := h10
    simp only [hnl, if_false, add_zero]
    unfold scanByte
    simp only [h10, if_false]
    split_ifs
    · exact ⟨ht1, ht2, hrec⟩
    · exact ⟨ht1, ht2, hrec⟩
    · exact ⟨ht1, ht2, hrec⟩
    · exact ⟨ht1, ht2, hrec⟩
    · exact ⟨(wrap16_range _).1, (wrap16_range _).2, hrec⟩

theorem scanBytes_inv (bs : List Byte) (n : Int) (s : Scanner) (hn : 0 ≤ n) (hs : ScanInv n s)
    (hb : n + (bs.count newline : Int) < 2147483648) :
    ScanInv (n + (bs.count newline : Int)) (bs.foldl scanByte s) := by
  induction bs generalizing n s with
  | nil => simpa using hs
  | cons b rest ih =>
    rw [List.foldl_cons]
    by_cases hnl : b = newline
    · subst hnl
      rw [List.count_cons_self] at hb ⊢
      push_cast at hb ⊢
      have h1 := scanByte_inv n s newline hn hs (fun _ => by omega)
      simp only [if_true] at h1
      have h2 := ih (n + 1) (scanByte s newline) (by omega) h1 (by omega)
      have e : n + ((List.count newline rest : Int) + 1) = n + 1 + (List.count newline rest : Int) := by
        ring
      rw [e]; exact h2
    · have hne : ¬ (b == newline) = true := by simpa using hnl
      rw [List.count_cons, if_neg hne] at hb ⊢
      have h1 := scanByte_inv n s b hn hs (fun h => absurd h hnl)
      simp only [hnl, if_false, add_zero] at h1
      simpa using ih n (scanByte s b) hn h1 (by simpa using hb)

theorem scanChunks_eq_foldl (s : Scanner) (validChunks : List (List Byte)) :
    scanChunks s validChunks = validChunks.flatten.foldl scanByte s := by
  unfold scanChunks
  induction validChunks generalizing s with
  | nil => rfl
  | cons c rest ih => simp [List.foldl_append, ih]

theorem scanInv_init : ScanInv 0 Scanner.init := by
  refine ⟨by simp [Scanner.init], by simp [Scanner.init], ?_⟩
  intro p hp
  simp [Scanner.init] at hp

/-- C9. For every byte sequence fed to one worker, well-formed or not, with
fewer than `2^31` delimiters: after every processed byte (every prefix of the
stream), and so also in the published partial aggregate, every measurement
record satisfies `count >= 1`, `min <= max` and `min*count <= sum <= max*count`. -/
theorem worker_records_invariant (validChunks : List (List Byte))
    (h : validChunks.flatten.count newline < 2 ^ 31) :
    (∀ n k r, ((validChunks.flatten.take n).foldl scanByte Scanner.init).cityStats.get k = some r →
      1 ≤ r.count ∧ r.min ≤ r.max ∧ r.min * r.count ≤ r.sum ∧ r.sum ≤ r.max * r.count) ∧
    (∀ k r, (processValidChunks validChunks).get k = some r →
      1 ≤ r.count ∧ r.min ≤ r.max ∧ r.min * r.count ≤ r.sum ∧ r.sum ≤ r.max * r.count) := by
  have key : ∀ bs : List Byte, bs.count newline < 2 ^ 31 → ∀ k r,
      (bs.foldl scanByte Scanner.init).cityStats.get k = some r → RecordInv r := by
    intro bs hbs k r hget
    have hlt : (0 : Int) + (bs.count newline : Int) < 2147483648 := by
      have : (bs.count newline : Int) < 2 ^ 31 := by exact_mod_cast hbs
      omega
    have hinv := scanBytes_inv bs 0 Scanner.init (le_refl _) scanInv_init hlt
    exact (hinv.2.2 _ (Stats.mem_of_get _ _ _ hget)).1
  constructor
  · intro n k r hget
    have hsub : (validChunks.flatten.take n).count newline ≤ validChunks.flatten.count newline :=
      (List.take_sublist n _).count_le _
    exact key _ (lt_of_le_of_lt hsub h) k r hget
  · intro k r hget
    unfold processValidChunks at hget
    rw [scanChunks_eq_foldl] at hget
    exact key _ h k r hget

/-- C9 applied to the segment `Paris;23.5\nParis;18.2\n`, whose record for
`Paris` is `(min 182, max 235, count 2, sum 417)`. -/
theorem worker_records_invariant_witness :
    [[(80 : Byte), 97, 114, 105, 115, 59, 50, 51, 46, 53, 10,
        80, 97, 114, 105, 115, 59, 49, 56, 46, 50, 10]].flatten.count newline < 2 ^ 31 ∧
    (processValidChunks [[80, 97, 114, 105, 115, 59, 50, 51, 46, 53, 10,
        80, 97, 114, 105, 115, 59, 49, 56, 46, 50, 10]]).get (keyOf [80, 97, 114, 105, 115]) =
      some ⟨182, 235, 2, 417⟩ ∧
    ((1 : Int) ≤ 2 ∧ (182 : Int) ≤ 235 ∧ (182 : Int) * 2 ≤ 417 ∧ (417 : Int) ≤ 235 * 2) :=
  ⟨by decide, by decide,
    (worker_records_invariant
      [[80, 97, 114, 105, 115, 59, 50, 51, 46, 53, 10,
        80, 97, 114, 105, 115, 59, 49, 56, 46, 50, 10]] (by decide)).2
      (keyOf [80, 97, 114, 105, 115]) ⟨182, 235, 2, 417⟩ (by decide)⟩

/-! ### Counting records -/

theorem totalCount_put (m : Stats) (k : cityName) (v : measure10x) :
    totalCount (m.put k v) = totalCount m + v.count - countOf m k := by
  induction m with
  | nil => simp [Stats.put, totalCount, countOf, Stats.get]
  | cons p rest ih =>
    obtain ⟨a, w⟩ := p
    by_cases ha : a = k
    · simp [Stats.put, totalCount, countOf, Stats.get, ha]
      ring
    · have e : countOf ((a, w) :: rest) k = countOf rest k := by
        simp [countOf, Stats.get, ha]
      have e2 : Stats.put ((a, w) :: rest) k v = (a, w) :: Stats.put rest k v := by
        simp [Stats.put, ha]
      rw [e, e2]
      have e3 : ∀ l : Stats, totalCount ((a, w) :: l) = w.count + totalCount l := by
        intro l; simp [totalCount]
      rw [e3, e3, ih]
      ring

theorem count_le_totalCount (m : Stats) (h : ∀ p ∈ m, 0 ≤ p.2.count)
    (p : cityName × measure10x) (hp : p ∈ m) : p.2.count ≤ totalCount m := by
  induction m with
  | nil => simp at hp
  | cons q rest ih =>
    have hq : 0 ≤ q.2.count := h q (List.mem_cons_self _ _)
    have hrest : ∀ p ∈ rest, 0 ≤ p.2.count := fun p hp => h p (List.mem_cons_of_mem _ hp)
    have hnn : 0 ≤ totalCount rest := by
      unfold totalCount
      apply List.sum_nonneg
      intro x hx
      obtain ⟨y, hy, rfl⟩ := List.mem_map.mp hx
      exact hrest y hy
    have e : totalCount (q :: rest) = q.2.count + totalCount rest := by simp [totalCount]
    rw [e]
    rcases List.mem_cons.mp hp with h1 | h1
    · rw [h1]; omega
    · have := ih hrest h1
      omega

theorem totalCount_nonneg (m : Stats) (h : CountsPos m) : 0 ≤ totalCount m := by
  unfold totalCount
  apply List.sum_nonneg
  intro x hx
  obtain ⟨y, hy, rfl⟩ := List.mem_map.mp hx
  have := h y hy
  omega

theorem registerTemp_count (cs : measure10x) (temp : Int) :
    (registerTemp cs temp).count = wrap32 (cs.count + 1) := by
  unfold registerTemp
  split_ifs <;> rfl

theorem combine_count (r stats : measure10x) :
    (combine r stats).count = wrap32 (r.count + stats.count) := by
  unfold combine
  split_ifs <;> rfl

theorem scanByte_total (n : Int) (s : Scanner) (b : Byte) (hs : ScanInv n s)
    (ht : totalCount s.cityStats = n) (hb : b = newline → n + 1 < 2147483648) :
    totalCount (scanByte s b).cityStats = n + (if b = newline then 1 else 0) := by
  by_cases h10 : b = 10
  · have hnl : b = newline := h10
    have hn1 := hb hnl
    simp only [hnl, if_true]
    unfold scanByte
    simp only [show newline = (10 : Byte) from rfl, if_true, registerCity]
    cases hget : s.cityStats.get s.name with
    | none =>
      simp only [totalCount_put, countOf, hget, ht]
      ring
    | some cs =>
      have hcs := hs.2.2 _ (Stats.mem_of_get _ _ _ hget)
      have h1 : 1 ≤ cs.count := hcs.1.1
      have h2 : cs.count ≤ n := hcs.2.1
      simp only [totalCount_put, countOf, hget, ht, registerTemp_count]
      rw [wrap32_id _ (by omega) (by omega)]
      ring
  · have hnl : ¬ b = newline := h10
    simp only [hnl, if_false, add_zero]
    unfold scanByte
    simp only [h10, if_false]
    split_ifs <;> exact ht

theorem scanBytes_total (bs : List Byte) (n : Int) (s : Scanner) (hn : 0 ≤ n)
    (hs : ScanInv n s) (ht : totalCount s.cityStats = n)
    (hb : n + (bs.count newline : Int) < 2147483648) :
    totalCount (bs.foldl scanByte s).cityStats = n + (bs.count newline : Int) := by
  induction bs generalizing n s with
  | nil => simpa using ht
  | cons b rest ih =>
    rw [List.foldl_cons]
    by_cases hnl : b = newline
    · subst hnl
      rw [List.count_cons_self] at hb ⊢
      push_cast at hb ⊢
      have h1 := scanByte_inv n s newline hn hs (fun _ => by omega)
      have h1t := scanByte_total n s newline hs ht (fun _ => by omega)
      simp only [if_true] at h1 h1t
      rw [ih (n + 1) (scanByte s newline) (by omega) h1 h1t (by omega)]
      ring
    · have hne : ¬ (b == newline) = true := by simpa using hnl
      rw [List.count_cons, if_neg hne] at hb ⊢
      have h1 := scanByte_inv n s b hn hs (fun h => absurd h hnl)
      have h1t := scanByte_total n s b hs ht (fun h => absurd h hnl)
      simp only [hnl, if_false, add_zero] at h1 h1t
      simpa using ih n (scanByte s b) hn h1 h1t (by simpa using hb)

theorem processValidChunks_total (validChunks : List (List Byte))
    (h : (validChunks.flatten.count newline : Int) < 2147483648) :
    totalCount (processValidChunks validChunks) = (validChunks.flatten.count newline : Int) ∧
    CountsPos (processValidChunks validChunks) := by
  unfold processValidChunks
  rw [scanChunks_eq_foldl]
  have h0 : (0 : Int) + (validChunks.flatten.count newline : Int) < 2147483648 := by omega
  have ht : totalCount Scanner.init.cityStats = 0 := by simp [Scanner.init, totalCount]
  have h1 := scanBytes_total _ 0 Scanner.init (le_refl _) scanInv_init ht h0
  have h2 := scanBytes_inv _ 0 Scanner.init (le_refl _) scanInv_init h0
  refine ⟨by simpa using h1, ?_⟩
  intro p hp
  exact (h2.2.2 p hp).1.1

theorem totalCount_cons (p : cityName × measure10x) (m : Stats) :
    totalCount (p :: m) = p.2.count + totalCount m := by
  simp [totalCount]

theorem countsPos_put {m : Stats} (h : CountsPos m) (k : cityName) (v : measure10x)
    (hv : 1 ≤ v.count) : CountsPos (m.put k v) := by
  intro p hp
  rcases Stats.mem_put m k v p hp with h1 | h1
  · exact h p h1
  · rw [h1]; exact hv

theorem reduceStep_total (agg : Stats) (c : cityName) (stats : measure10x)
    (hagg : CountsPos agg) (hs : 1 ≤ stats.count)
    (hb : totalCount agg + stats.count < 2147483648) :
    totalCount (reduceStep agg c stats) = totalCount agg + stats.count ∧
    CountsPos (reduceStep agg c stats) := by
  unfold reduceStep
  cases hget : agg.get c with
  | none =>
    refine ⟨?_, countsPos_put hagg c stats hs⟩
    simp only [totalCount_put, countOf, hget]
    ring
  | some r =>
    have hmem := Stats.mem_of_get _ _ _ hget
    have hr1 : 1 ≤ r.count := hagg _ hmem
    have hr2 : r.count ≤ totalCount agg :=
      count_le_totalCount agg (fun p hp => by have := hagg p hp; omega) _ hmem
    have hw : wrap32 (r.count + stats.count) = r.count + stats.count :=
      wrap32_id _ (by omega) (by omega)
    have hc : (combine r stats).count = r.count + stats.count := by
      rw [combine_count, hw]
    refine ⟨?_, countsPos_put hagg c _ (by rw [hc]; omega)⟩
    simp only [totalCount_put, countOf, hget, hc]
    ring

theorem reduceOne_total (sc agg : Stats) (hagg : CountsPos agg) (hsc : CountsPos sc)
    (hb : totalCount agg + totalCount sc < 2147483648) :
    totalCount (reduceOne agg sc) = totalCount agg + totalCount sc ∧
    CountsPos (reduceOne agg sc) := by
  unfold reduceOne
  induction sc generalizing agg with
  | nil => exact ⟨by simp [totalCount], hagg⟩
  | cons p rest ih =>
    have hp : 1 ≤ p.2.count := hsc p (List.mem_cons_self _ _)
    have hrest : CountsPos rest := fun q hq => hsc q (List.mem_cons_of_mem _ hq)
    have hnn := totalCount_nonneg rest hrest
    rw [totalCount_cons] at hb ⊢
    obtain ⟨h1, h2⟩ := reduceStep_total agg p.1 p.2 hagg hp (by omega)
    rw [List.foldl_cons]
    obtain ⟨h3, h4⟩ := ih (reduceStep agg p.1 p.2) h2 hrest (by omega)
    exact ⟨by rw [h3, h1]; ring, h4⟩

theorem foldl_reduceOne_total (parts : List Stats) (agg : Stats) (hagg : CountsPos agg)
    (hparts : ∀ sc ∈ parts, CountsPos sc)
    (hb : totalCount agg + (parts.map totalCount).sum < 2147483648) :
    totalCount (parts.foldl reduceOne agg) = totalCount agg + (parts.map totalCount).sum ∧
    CountsPos (parts.foldl reduceOne agg) := by
  induction parts generalizing agg with
  | nil => exact ⟨by simp, hagg⟩
  | cons sc rest ih =>
    have hsc : CountsPos sc := hparts sc (List.mem_cons_self _ _)
    have hrest : ∀ sc ∈ rest, CountsPos sc := fun q hq => hparts q (List.mem_cons_of_mem _ hq)
    have hnn : 0 ≤ (rest.map totalCount).sum := by
      apply List.sum_nonneg
      intro x hx
      obtain ⟨y, hy, rfl⟩ := List.mem_map.mp hx
      exact totalCount_nonneg y (hrest y hy)
    rw [List.map_cons, List.sum_cons] at hb ⊢
    obtain ⟨h1, h2⟩ := reduceOne_total sc agg hagg hsc (by omega)
    rw [List.foldl_cons]
    obtain ⟨h3, h4⟩ := ih (reduceOne agg sc) h2 hrest (by omega)
    exact ⟨by rw [h3, h1]; ring, h4⟩

/-! ### Keys stay distinct -/

theorem Stats.keys_put (m : Stats) (k : cityName) (v : measure10x) :
    (m.put k v).map Prod.fst =
      if k ∈ m.map Prod.fst then m.map Prod.fst else m.map Prod.fst ++ [k] := by
  induction m with
  | nil => simp [Stats.put]
  | cons p rest ih =>
    obtain ⟨a, w⟩ := p
    by_cases ha : a = k
    · simp [Stats.put, ha]
    · have hk : ¬ k = a := fun h => ha h.symm
      simp only [Stats.put, ha, if_false, List.map_cons, ih, List.mem_cons, hk, false_or]
      split_ifs <;> simp

theorem keysNodup_put {m : Stats} (h : KeysNodup m) (k : cityName) (v : measure10x) :
    KeysNodup (m.put k v) := by
  unfold KeysNodup at h ⊢
  rw [Stats.keys_put]
  split_ifs with hk
  · exact h
  · rw [List.nodup_append]
    refine ⟨h, List.nodup_singleton k, ?_⟩
    intro a ha hb
    rw [List.mem_singleton] at hb
    exact hk (hb ▸ ha)

theorem keysNodup_reduceStep {m : Stats} (h : KeysNodup m) (c : cityName) (stats : measure10x) :
    KeysNodup (reduceStep m c stats) := by
  unfold reduceStep
  cases m.get c <;> exact keysNodup_put h _ _

theorem keysNodup_reduceOne (sc : Stats) {m : Stats} (h : KeysNodup m) :
    KeysNodup (reduceOne m sc) := by
  unfold reduceOne
  induction sc generalizing m with
  | nil => exact h
  | cons p rest ih => exact ih (keysNodup_reduceStep h p.1 p.2)

theorem keysNodup_reduceAll (parts : List Stats) : KeysNodup (reduceAll parts) := by
  unfold reduceAll
  have : ∀ m : Stats, KeysNodup m → KeysNodup (parts.foldl reduceOne m) := by
    induction parts with
    | nil => exact fun m h => h
    | cons sc rest ih => exact fun m h => ih _ (keysNodup_reduceOne sc h)
  exact this [] (by simp [KeysNodup])

theorem Stats.get_of_mem (m : Stats) (h : KeysNodup m) (p : cityName × measure10x)
    (hp : p ∈ m) : m.get p.1 = some p.2 := by
  induction m with
  | nil => simp at hp
  | cons q rest ih =>
    obtain ⟨a, w⟩ := q
    unfold KeysNodup at h
    rw [List.map_cons, List.nodup_cons] at h
    rcases List.mem_cons.mp hp with h1 | h1
    · rw [h1]; simp [Stats.get]
    · have hne : ¬ a = p.1 := by
        intro e
        apply h.1
        rw [e]
        exact List.mem_map.mpr ⟨p, h1, rfl⟩
      simp only [Stats.get, hne, if_false]
      exact ih h.2 h1

/-! ### Distribution of segments among workers -/

theorem workerShare_nil (assign : List Nat) (w : Nat) : workerShare [] assign w = [] := by
  simp [workerShare]

theorem workerShare_cons (seg : List Byte) (segs : List (List Byte)) (a : Nat)
    (assign : List Nat) (w : Nat) :
    workerShare (seg :: segs) (a :: assign) w =
      if a = w then seg :: workerShare segs assign w else workerShare segs assign w := by
  unfold workerShare
  by_cases h : a = w <;> simp [List.zip_cons_cons, List.filter_cons, h]

theorem sum_range_indicator (n a : Nat) (x : Int) (ha : a < n) :
    ((List.range n).map (fun w => if a = w then x else 0)).sum = x := by
  induction n with
  | zero => omega
  | succ n ih =>
    rw [List.range_succ, List.map_append, List.sum_append]
    by_cases h : a = n
    · subst h
      have hz : ((List.range a).map (fun w => if a = w then x else 0)).sum = 0 := by
        apply List.sum_eq_zero
        intro y hy
        obtain ⟨w, hw, rfl⟩ := List.mem_map.mp hy
        have : w < a := List.mem_range.mp hw
        have hne : ¬ a = w := by omega
        simp [hne]
      rw [hz]; simp
    · rw [ih (by omega)]
      simp [h]

theorem workerShare_count_sum (n : Nat) (segs : List (List Byte)) (assign : List Nat)
    (hlen : assign.length = segs.length) (hn : ∀ a ∈ assign, a < n) :
    ((List.range n).map
        (fun w => ((workerShare segs assign w).flatten.count newline : Int))).sum =
      (segs.flatten.count newline : Int) := by
  induction segs generalizing assign with
  | nil => simp [workerShare_nil]
  | cons seg rest ih =>
    cases assign with
    | nil => simp at hlen
    | cons a assign =>
      have hlen' : assign.length = rest.length := by simpa using hlen
      have ha : a < n := hn a (List.mem_cons_self _ _)
      have hn' : ∀ b ∈ assign, b < n := fun b hb => hn b (List.mem_cons_of_mem _ hb)
      have e : (fun w => ((workerShare (seg :: rest) (a :: assign) w).flatten.count newline : Int))
          = fun w => (if a = w then (seg.count newline : Int) else 0) +
              ((workerShare rest assign w).flatten.count newline : Int) := by
        funext w
        rw [workerShare_cons]
        by_cases h : a = w <;> simp [h]
      rw [e, List.sum_map_add, sum_range_indicator n a _ ha, ih assign hlen' hn']
      simp

theorem workerShare_count_le (segs : List (List Byte)) (assign : List Nat) (w : Nat) :
    (workerShare segs assign w).flatten.count newline ≤ segs.flatten.count newline := by
  induction segs generalizing assign with
  | nil => simp [workerShare_nil]
  | cons seg rest ih =>
    cases assign with
    | nil => simp [workerShare]
    | cons a assign =>
      rw [workerShare_cons]
      have := ih assign
      by_cases h : a = w
      · simp only [h, if_true, List.flatten_cons, List.count_append]; omega
      · simp only [h, if_false, List.flatten_cons, List.count_append]; omega

/-! ### The printed total -/

theorem printed_foldl (agg : Stats) (names : List cityName) (c : Int) (hc : 0 ≤ c)
    (hpos : ∀ nm ∈ names, 0 ≤ countOf agg nm)
    (hb : c + (names.map (countOf agg)).sum < 2147483648) :
    names.foldl
      (fun count name =>
        match agg.get name with
        | some stats => wrap32 (count + stats.count)
        | none => count) c = c + (names.map (countOf agg)).sum := by
  induction names generalizing c with
  | nil => simp
  | cons nm rest ih =>
    have h0 : 0 ≤ countOf agg nm := hpos nm (List.mem_cons_self _ _)
    have hrest : ∀ x ∈ rest, 0 ≤ countOf agg x := fun x hx => hpos x (List.mem_cons_of_mem _ hx)
    have hnn : 0 ≤ (rest.map (countOf agg)).sum := by
      apply List.sum_nonneg
      intro x hx
      obtain ⟨y, hy, rfl⟩ := List.mem_map.mp hx
      exact hrest y hy
    rw [List.map_cons, List.sum_cons] at hb ⊢
    rw [List.foldl_cons]
    have hstep : (match agg.get nm with
        | some stats => wrap32 (c + stats.count)
        | none => c) = c + countOf agg nm := by
      cases hget : agg.get nm with
      | none => simp [countOf, hget]
      | some r =>
        have hcr : countOf agg nm = r.count := by simp [countOf, hget]
        rw [hcr] at h0 hb ⊢
        exact wrap32_id _ (by omega) (by omega)
    rw [hstep, ih (c + countOf agg nm) (by omega) hrest (by omega)]
    ring

theorem sum_countOf_keys (agg : Stats) (h : KeysNodup agg) :
    ((agg.map Prod.fst).map (countOf agg)).sum = totalCount agg := by
  unfold totalCount
  rw [List.map_map]
  congr 1
  apply List.map_congr_left
  intro p hp
  simp [countOf, Stats.get_of_mem agg h p hp]

theorem printedCount_eq_totalCount (agg : Stats) (hk : KeysNodup agg) (hpos : CountsPos agg)
    (hb : totalCount agg < 2147483648) : printedCount agg = totalCount agg := by
  have hperm : (sortedNames agg).Perm (agg.map Prod.fst) := List.perm_insertionSort _ _
  have hsum : ((sortedNames agg).map (countOf agg)).sum = totalCount agg := by
    rw [(hperm.map (countOf agg)).sum_eq, sum_countOf_keys agg hk]
  have hnn : ∀ nm ∈ sortedNames agg, 0 ≤ countOf agg nm := by
    intro nm _
    unfold countOf
    cases hget : agg.get nm with
    | none => simp
    | some r =>
      have h1 : 1 ≤ r.count := hpos _ (Stats.mem_of_get _ _ _ hget)
      simp only
      omega
  unfold printedCount
  rw [printed_foldl agg (sortedNames agg) 0 (le_refl _) hnn (by rw [hsum]; omega), hsum]
  ring

theorem count_newline_records (records : List (List Byte)) (h : ∀ r ∈ records, newline ∉ r) :
    (records.map (fun r => r ++ [newline])).flatten.count newline = records.length := by
  induction records with
  | nil => simp
  | cons r rest ih =>
    have hr : newline ∉ r := h r (List.mem_cons_self _ _)
    have hrest : ∀ x ∈ rest, newline ∉ x := fun x hx => h x (List.mem_cons_of_mem _ hx)
    simp only [List.map_cons, List.flatten_cons, List.count_append, ih hrest,
      List.count_eq_zero_of_not_mem hr, List.length_cons]
    simp
    omega

theorem pool_total (n : Nat) (segs : List (List Byte)) (assign : List Nat) (arrived : List Stats)
    (hlen : assign.length = segs.length) (hn : ∀ a ∈ assign, a < n)
    (hb : (segs.flatten.count newline : Int) < 2147483648)
    (harr : arrived.Perm (poolResults n segs assign)) :
    totalCount (reduceAll arrived) = (segs.flatten.count newline : Int) ∧
    CountsPos (reduceAll arrived) := by
  have hshare : ∀ w, ((workerShare segs assign w).flatten.count newline : Int) < 2147483648 := by
    intro w
    have := workerShare_count_le segs assign w
    omega
  have hparts : ∀ sc ∈ arrived, CountsPos sc := by
    intro sc hsc
    have hmem := harr.mem_iff.mp hsc
    unfold poolResults at hmem
    obtain ⟨w, _, rfl⟩ := List.mem_map.mp hmem
    exact (processValidChunks_total _ (hshare w)).2
  have hsum : (arrived.map totalCount).sum = (segs.flatten.count newline : Int) := by
    rw [(harr.map totalCount).sum_eq]
    unfold poolResults
    rw [List.map_map, ← workerShare_count_sum n segs assign hlen hn]
    congr 1
    apply List.map_congr_left
    intro w _
    exact (processValidChunks_total _ (hshare w)).1
  have hempty : CountsPos [] := by intro p hp; simp at hp
  have h := foldl_reduceOne_total arrived [] hempty hparts
    (by rw [hsum]; simp [totalCount]; omega)
  unfold reduceAll
  refine ⟨?_, h.2⟩
  rw [h.1, hsum]
  simp [totalCount]

/-- C10. For every input made of newline-terminated records (fewer than
`2^31`), every chunking `raw` of it, every assignment of the segments to the
`n` workers and every arrival order of the partial aggregates at the reducer,
the total `main` prints equals the number of records. -/
theorem printed_total_is_record_count (records : List (List Byte)) (raw : List (List Byte))
    (n : Nat) (assign : List Nat) (arrived : List Stats)
    (hrec : ∀ r ∈ records, newline ∉ r) (hlt : records.length < 2 ^ 31)
    (hraw : raw.flatten = (records.map (fun r => r ++ [newline])).flatten)
    (hlen : assign.length = (mergeChunks raw).length) (hn : ∀ a ∈ assign, a < n)
    (harr : arrived.Perm (poolResults n (mergeChunks raw) assign)) :
    printedCount (reduceAll arrived) = (records.length : Int) := by
  have hcount : (mergeChunks raw).flatten.count newline = records.length := by
    rw [mergeChunks_flatten, hraw, count_newline_records records hrec]
  have hb : ((mergeChunks raw).flatten.count newline : Int) < 2147483648 := by
    rw [hcount]
    have : (records.length : Int) < 2 ^ 31 := by exact_mod_cast hlt
    omega
  obtain ⟨h1, h2⟩ := pool_total n (mergeChunks raw) assign arrived hlen hn hb harr
  rw [printedCount_eq_totalCount _ (keysNodup_reduceAll arrived) h2 (by rw [h1]; exact hb), h1,
    hcount]

set_option maxRecDepth 100000 in
/-- C10 applied to the input `A;1.0\nB;2.0\n` read as the chunks `A;1.0\nB;`
and `2.0\n`, with two workers, the first segment going to worker 1 and the
second to worker 0, and worker 1 publishing first: the printed total is 2. -/
theorem printed_total_is_record_count_witness :
    mergeChunks [[65, 59, 49, 46, 48, 10, 66, 59], [50, 46, 48, 10]] =
      [[65, 59, 49, 46, 48, 10], [66, 59, 50, 46, 48, 10]] ∧
    printedCount (reduceAll (poolResults 2
      (mergeChunks [[65, 59, 49, 46, 48, 10, 66, 59], [50, 46, 48, 10]]) [1, 0]).reverse) =
      2 :=
  ⟨by decide,
    printed_total_is_record_count [[65, 59, 49, 46, 48], [66, 59, 50, 46, 48]]
      [[65, 59, 49, 46, 48, 10, 66, 59], [50, 46, 48, 10]] 2 [1, 0]
      (poolResults 2 (mergeChunks [[65, 59, 49, 46, 48, 10, 66, 59], [50, 46, 48, 10]])
        [1, 0]).reverse
      (by decide) (by decide) (by decide) (by decide) (by decide) (List.reverse_perm _)⟩

theorem digit_sub (b : Byte) (h : isDigit b) :
    (((b - 48 : Byte).val : Nat) : Int) = (b.val : Int) - 48 := by
  obtain ⟨h1, h2⟩ := h
  have hb := b.isLt
  rw [Fin.sub_def]
  simp only [Fin.val_mk]
  have e : ((48 : Byte).val) = 48 := rfl
  rw [e]
  omega

theorem digit_not_special (b : Byte) (h : isDigit b) :
    b ≠ 10 ∧ b ≠ 59 ∧ b ≠ 46 ∧ b ≠ 45 := by
  obtain ⟨h1, h2⟩ := h
  refine ⟨?_, ?_, ?_, ?_⟩ <;> (intro e; rw [e] at h1 h2; revert h1 h2; decide)

/-! ### Scanning one well-formed record -/

theorem scanByte_ident (s : Scanner) (b : Byte) (hb : b ≠ 10 ∧ b ≠ 59 ∧ b ≠ 46 ∧ b ≠ 45)
    (hl : s.letterInName < 64) :
    scanByte s b =
      { s with name := s.name.store s.letterInName b, letterInName := s.letterInName + 1 } := by
  unfold scanByte
  simp [hb.1, hb.2.1, hb.2.2.1, hb.2.2.2, hl]

theorem scanByte_digit (s : Scanner) (b : Byte) (hb : isDigit b) (hl : s.letterInName = 64)
    (h0 : 0 ≤ s.temp) (h1 : 10 * s.temp + ((b.val : Int) - 48) ≤ 32767) :
    scanByte s b = { s with temp := 10 * s.temp + ((b.val : Int) - 48) } := by
  have hs := digit_not_special b hb
  have hd := digit_sub b hb
  have hge : (0 : Int) ≤ (b.val : Int) - 48 := by
    have := hb.1
    omega
  unfold scanByte
  simp only [hs.1, hs.2.1, hs.2.2.1, hs.2.2.2, hl, if_false, lt_irrefl]
  rw [hd, wrap16_id (10 * s.temp) (by omega) (by omega), wrap16_id _ (by omega) h1]

theorem set_append_length (pre : List Byte) (x b : Byte) (rest : List Byte) :
    (pre ++ x :: rest).set pre.length b = pre ++ b :: rest := by
  induction pre with
  | nil => rfl
  | cons a pre ih => simp [ih]

theorem scan_ident (bs : List Byte) (s : Scanner) (pre : List Byte)
    (hbs : ∀ b ∈ bs, b ≠ 10 ∧ b ≠ 59 ∧ b ≠ 46 ∧ b ≠ 45)
    (hl : s.letterInName = pre.length)
    (hname : s.name.1 = pre ++ List.replicate (64 - pre.length) 0)
    (hlen : pre.length + bs.length ≤ 64) :
    (bs.foldl scanByte s).name.1 =
        (pre ++ bs) ++ List.replicate (64 - (pre.length + bs.length)) 0 ∧
    (bs.foldl scanByte s).cityStats = s.cityStats ∧
    (bs.foldl scanByte s).temp = s.temp ∧
    (bs.foldl scanByte s).neg = s.neg := by
  induction bs generalizing s pre with
  | nil => simpa using hname
  | cons b rest ih =>
    have hb := hbs b (List.mem_cons_self _ _)
    have hrest : ∀ x ∈ rest, x ≠ 10 ∧ x ≠ 59 ∧ x ≠ 46 ∧ x ≠ 45 :=
      fun x hx => hbs x (List.mem_cons_of_mem _ hx)
    simp only [List.length_cons] at hlen
    have hlt : s.letterInName < 64 := by omega
    rw [List.foldl_cons, scanByte_ident s b hb hlt]
    have hname' : (s.name.store s.letterInName b).1 =
        (pre ++ [b]) ++ List.replicate (64 - (pre ++ [b]).length) 0 := by
      have e : 64 - pre.length = (64 - (pre.length + 1)) + 1 := by omega
      simp only [cityName.store, hname, hl]
      rw [e, List.replicate_succ, set_append_length]
      simp
    generalize hs1 : Scanner.mk s.cityStats (s.name.store s.letterInName b)
      (s.letterInName + 1) s.temp s.neg = s1
    have e1 : s1.letterInName = (pre ++ [b]).length := by rw [← hs1]; simp [hl]
    have e2 : s1.name.1 = (pre ++ [b]) ++ List.replicate (64 - (pre ++ [b]).length) 0 := by
      rw [← hs1]; exact hname'
    have e3 : s1.cityStats = s.cityStats ∧ s1.temp = s.temp ∧ s1.neg = s.neg := by
      rw [← hs1]; exact ⟨rfl, rfl, rfl⟩
    obtain ⟨h1, h2, h3, h4⟩ := ih s1 (pre ++ [b]) hrest e1 e2 (by simp; omega)
    refine ⟨?_, h2.trans e3.1, h3.trans e3.2.1, h4.trans e3.2.2⟩
    rw [h1]
    simp only [List.length_append, List.length_cons, List.length_nil, List.append_assoc,
      List.singleton_append]
    congr 3
    omega

theorem digitsValue_mono (ds : List Byte) (acc : Int) (h0 : 0 ≤ acc)
    (hds : ∀ d ∈ ds, isDigit d) : acc ≤ digitsValue acc ds := by
  induction ds generalizing acc with
  | nil => simp [digitsValue]
  | cons d rest ih =>
    have hd := (hds d (List.mem_cons_self _ _)).1
    have hrest : ∀ x ∈ rest, isDigit x := fun x hx => hds x (List.mem_cons_of_mem _ hx)
    have h := ih (10 * acc + ((d.val : Int) - 48)) (by omega) hrest
    simp only [digitsValue, List.foldl_cons] at h ⊢
    omega

theorem scan_digits (ds : List Byte) (s : Scanner) (hds : ∀ d ∈ ds, isDigit d)
    (hl : s.letterInName = 64) (h0 : 0 ≤ s.temp) (h1 : digitsValue s.temp ds ≤ 32767) :
    ds.foldl scanByte s = { s with temp := digitsValue s.temp ds } := by
  induction ds generalizing s with
  | nil => simp [digitsValue]
  | cons d rest ih =>
    have hd := hds d (List.mem_cons_self _ _)
    have hrest : ∀ x ∈ rest, isDigit x := fun x hx => hds x (List.mem_cons_of_mem _ hx)
    have hge : (0 : Int) ≤ (d.val : Int) - 48 := by
      have := hd.1
      omega
    have hstep : digitsValue s.temp (d :: rest) =
        digitsValue (10 * s.temp + ((d.val : Int) - 48)) rest := by
      simp [digitsValue]
    rw [hstep] at h1 ⊢
    have hm := digitsValue_mono rest (10 * s.temp + ((d.val : Int) - 48)) (by omega) hrest
    rw [List.foldl_cons, scanByte_digit s d hd hl h0 (by omega)]
    generalize hs1 : ({ s with temp := 10 * s.temp + ((d.val : Int) - 48) } : Scanner) = s1
    have e1 : s1.temp = 10 * s.temp + ((d.val : Int) - 48) := by rw [← hs1]
    have e2 : s1.letterInName = 64 := by rw [← hs1]; exact hl
    rw [← e1] at h1 ⊢
    rw [ih s1 hrest e2 (by rw [e1]; omega) h1, ← hs1]


theorem keyOf_val (ident : List Byte) (h : ident.length ≤ 64) :
    (keyOf ident).1 = ident ++ List.replicate (64 - ident.length) 0 := by
  unfold keyOf
  simp only
  rw [List.take_append_eq_append_take, List.take_of_length_le h, List.take_replicate]
  congr 2
  omega

theorem scan_ident_semicolon (ident : List Byte) (m : Stats)
    (hbs : ∀ b ∈ ident, b ≠ 59 ∧ b ≠ 10 ∧ b ≠ 45 ∧ b ≠ 46) (hlen : ident.length ≤ 64) :
    scanByte (ident.foldl scanByte (Scanner.mk m cityName.zero 0 0 false)) 59 =
      Scanner.mk m (keyOf ident) 64 0 false := by
  have hbs' : ∀ b ∈ ident, b ≠ 10 ∧ b ≠ 59 ∧ b ≠ 46 ∧ b ≠ 45 :=
    fun b hb => ⟨(hbs b hb).2.1, (hbs b hb).1, (hbs b hb).2.2.2, (hbs b hb).2.2.1⟩
  obtain ⟨h1, h2, h3, h4⟩ := scan_ident ident (Scanner.mk m cityName.zero 0 0 false) []
    hbs' rfl (by simp [cityName.zero]) (by simpa using hlen)
  cases hs : ident.foldl scanByte (Scanner.mk m cityName.zero 0 0 false) with
  | mk cs nm l t ng =>
    rw [hs] at h1 h2 h3 h4
    simp only at h1 h2 h3 h4
    have hnm : nm = keyOf ident := by
      apply Subtype.ext
      rw [h1, keyOf_val ident hlen]
      simp
    subst h2 h3 h4 hnm
    rfl

theorem digitsValue_append (acc : Int) (ds : List Byte) (d : Byte) :
    digitsValue acc (ds ++ [d]) = 10 * digitsValue acc ds + ((d.val : Int) - 48) := by
  simp [digitsValue, List.foldl_append]

theorem scan_value (r : Record) (hv : r.ValueOk) (m : Stats) (k : cityName) :
    (r.whole ++ [46, r.frac]).foldl scanByte (Scanner.mk m k 64 0 r.neg) =
      Scanner.mk m k 64 r.magnitude r.neg := by
  obtain ⟨hw, hf, hmag⟩ := hv
  have hmag' : 10 * digitsValue 0 r.whole + ((r.frac.val : Int) - 48) ≤ 32767 := by
    rw [← digitsValue_append]; exact hmag
  have h0 : 0 ≤ digitsValue 0 r.whole := digitsValue_mono r.whole 0 (le_refl _) hw
  have hfge : (0 : Int) ≤ (r.frac.val : Int) - 48 := by
    have := hf.1
    omega
  rw [List.foldl_append, scan_digits r.whole _ hw rfl (le_refl _) (by simp only; omega)]
  simp only [List.foldl_cons, List.foldl_nil]
  have hdot : ∀ s : Scanner, scanByte s 46 = s := by
    intro s
    unfold scanByte
    simp
  rw [hdot, scanByte_digit _ r.frac hf rfl h0 hmag']
  simp only [Record.magnitude, digitsValue_append]

theorem magnitude_nonneg (r : Record) (hv : r.ValueOk) : 0 ≤ r.magnitude := by
  unfold Record.magnitude
  apply digitsValue_mono _ 0 (le_refl _)
  intro d hd
  rcases List.mem_append.mp hd with h | h
  · exact hv.1 d h
  · rw [List.mem_singleton] at h
    rw [h]; exact hv.2.1

theorem value_range (r : Record) (hv : r.ValueOk) : -32767 ≤ r.value ∧ r.value ≤ 32767 := by
  have h0 := magnitude_nonneg r hv
  have h1 := hv.2.2
  unfold Record.value
  split_ifs <;> omega

theorem scan_record (r : Record) (hwf : r.WellFormed) (m : Stats) :
    r.render.foldl scanByte (Scanner.mk m cityName.zero 0 0 false) =
      Scanner.mk (registerCity m (keyOf r.ident) r.value) cityName.zero 0 0 false := by
  obtain ⟨hlen, hbs, hv⟩ := hwf
  have h0 := magnitude_nonneg r hv
  have h1 := hv.2.2
  have hsplit : r.render =
      r.ident ++ ([59] ++ ((if r.neg then [45] else []) ++ ((r.whole ++ [46, r.frac]) ++ [10]))) := by
    simp [Record.render]
  rw [hsplit, List.foldl_append, List.foldl_append, List.foldl_cons, List.foldl_nil,
    scan_ident_semicolon r.ident m hbs hlen, List.foldl_append]
  have hneg : (if r.neg then [(45 : Byte)] else []).foldl scanByte
      (Scanner.mk m (keyOf r.ident) 64 0 false) = Scanner.mk m (keyOf r.ident) 64 0 r.neg := by
    cases r.neg <;> rfl
  rw [hneg, List.foldl_append, scan_value r hv m (keyOf r.ident)]
  simp only [List.foldl_cons, List.foldl_nil]
  unfold scanByte
  simp only [if_true]
  have hval : (if r.neg = true then wrap16 (-r.magnitude) else r.magnitude) = r.value := by
    unfold Record.value
    split_ifs
    · exact wrap16_id _ (by omega) (by omega)
    · rfl
  rw [hval]

theorem scan_records (recs : List Record) (hwf : ∀ r ∈ recs, r.WellFormed) (m : Stats) :
    (recs.map Record.render).flatten.foldl scanByte (Scanner.mk m cityName.zero 0 0 false) =
      Scanner.mk (recs.foldl (fun acc r => registerCity acc (keyOf r.ident) r.value) m)
        cityName.zero 0 0 false := by
  induction recs generalizing m with
  | nil => rfl
  | cons r rest ih =>
    have hr := hwf r (List.mem_cons_self _ _)
    have hrest : ∀ x ∈ rest, x.WellFormed := fun x hx => hwf x (List.mem_cons_of_mem _ hx)
    rw [List.map_cons, List.flatten_cons, List.foldl_append, scan_record r hr m, ih hrest,
      List.foldl_cons]


/-! ### Folding the registered values -/

theorem sum_bounds (vs : List Int) (h : ∀ x ∈ vs, -32767 ≤ x ∧ x ≤ 32767) :
    -32767 * (vs.length : Int) ≤ vs.sum ∧ vs.sum ≤ 32767 * (vs.length : Int) := by
  induction vs with
  | nil => simp
  | cons v rest ih =>
    have hv := h v (List.mem_cons_self _ _)
    have hrest := ih (fun x hx => h x (List.mem_cons_of_mem _ hx))
    simp only [List.sum_cons, List.length_cons]
    push_cast
    omega

theorem wrap64_add (a b : Int) : wrap64 (wrap64 a + b) = wrap64 (a + b) := by
  unfold wrap64; omega

theorem wrap32_add (a b : Int) : wrap32 (wrap32 a + b) = wrap32 (a + b) := by
  unfold wrap32; omega

theorem registerTemp_fields (cs : measure10x) (temp : Int) (hmm : cs.min ≤ cs.max) :
    (registerTemp cs temp).min = min cs.min temp ∧
    (registerTemp cs temp).max = max cs.max temp ∧
    (registerTemp cs temp).sum = wrap64 (cs.sum + temp) ∧
    (registerTemp cs temp).count = wrap32 (cs.count + 1) := by
  unfold registerTemp
  split_ifs <;> (refine ⟨?_, ?_, rfl, rfl⟩ <;> dsimp only <;> omega)

theorem summarizes_first (v : Int) (hv : -32767 ≤ v ∧ v ≤ 32767) :
    Summarizes { min := v, max := v, count := 1, sum := v } [v] := by
  refine ⟨by simp, by simp, by simp, by simp, by simp, ?_, ?_⟩
  · simp only [List.sum_cons, List.sum_nil, add_zero]
    exact (wrap64_id v (by omega) (by omega)).symm
  · simp [wrap32]

theorem summarizes_register (cs : measure10x) (vs : List Int) (v : Int)
    (hcs : Summarizes cs vs) : Summarizes (registerTemp cs v) (vs ++ [v]) := by
  obtain ⟨hne, hminmem, hmin, hmaxmem, hmax, hsum, hcount⟩ := hcs
  have hmm : cs.min ≤ cs.max := hmax _ hminmem
  obtain ⟨f1, f2, f3, f4⟩ := registerTemp_fields cs v hmm
  refine ⟨by simp, ?_, ?_, ?_, ?_, ?_, ?_⟩
  · rw [f1]
    rcases le_total cs.min v with h | h
    · rw [min_eq_left h]; exact List.mem_append_left _ hminmem
    · rw [min_eq_right h]; simp
  · intro x hx
    rw [f1]
    rcases List.mem_append.mp hx with h | h
    · exact le_trans (min_le_left _ _) (hmin x h)
    · rw [List.mem_singleton] at h
      rw [h]; exact min_le_right _ _
  · rw [f2]
    rcases le_total cs.max v with h | h
    · rw [max_eq_right h]; simp
    · rw [max_eq_left h]; exact List.mem_append_left _ hmaxmem
  · intro x hx
    rw [f2]
    rcases List.mem_append.mp hx with h | h
    · exact le_trans (hmax x h) (le_max_left _ _)
    · rw [List.mem_singleton] at h
      rw [h]; exact le_max_right _ _
  · rw [f3, hsum, wrap64_add, List.sum_append]; simp
  · rw [f4, hcount, wrap32_add]; simp

theorem valuesOf_append (init : List Record) (r : Record) (k : cityName) :
    valuesOf (init ++ [r]) k =
      valuesOf init k ++ (if keyOf r.ident = k then [r.value] else []) := by
  unfold valuesOf
  rw [List.filter_append, List.map_append]
  by_cases h : keyOf r.ident = k <;> simp [List.filter_cons, h]

theorem valuesOf_range (recs : List Record) (k : cityName) (h : ∀ r ∈ recs, r.ValueOk) :
    ∀ x ∈ valuesOf recs k, -32767 ≤ x ∧ x ≤ 32767 := by
  intro x hx
  unfold valuesOf at hx
  obtain ⟨r, hr, rfl⟩ := List.mem_map.mp hx
  exact value_range r (h r (List.mem_filter.mp hr).1)

theorem valuesOf_length (recs : List Record) (k : cityName) :
    (valuesOf recs k).length ≤ recs.length := by
  unfold valuesOf
  rw [List.length_map]
  exact List.length_filter_le _ _

theorem registerCity_get (m : Stats) (key k : cityName) (v : Int) :
    (registerCity m key v).get k =
      if key = k then
        (match m.get key with
          | none => some { min := v, max := v, count := 1, sum := v }
          | some cs => some (registerTemp cs v))
      else m.get k := by
  unfold registerCity
  cases m.get key <;> simp only [Stats.get_put]

theorem fold_aggregates (recs : List Record) (hv : ∀ r ∈ recs, r.ValueOk) :
    ∀ k, AggregatesAt (recs.foldl (fun acc r => registerCity acc (keyOf r.ident) r.value) [])
      recs k := by
  induction recs using List.reverseRecOn with
  | nil =>
    intro k
    simp [AggregatesAt, Stats.get, valuesOf]
  | append_singleton init r ih =>
    have hinit : ∀ x ∈ init, x.ValueOk := fun x hx => hv x (List.mem_append_left _ hx)
    have hr : r.ValueOk := hv r (by simp)
    have ih' := ih hinit
    intro k
    unfold AggregatesAt
    rw [List.foldl_append, List.foldl_cons, List.foldl_nil, registerCity_get, valuesOf_append]
    by_cases hk : keyOf r.ident = k
    · subst hk
      simp only [if_true]
      have hk := ih' (keyOf r.ident)
      unfold AggregatesAt at hk
      cases hget : Stats.get
          (init.foldl (fun acc r => registerCity acc (keyOf r.ident) r.value) [])
          (keyOf r.ident) with
      | none =>
        rw [hget] at hk
        simp only at hk ⊢
        rw [hk]
        exact summarizes_first r.value (value_range r hr)
      | some cs =>
        rw [hget] at hk
        simp only at hk ⊢
        exact summarizes_register cs _ r.value hk
    · simp only [hk, if_false, List.append_nil]
      exact ih' k

theorem aggregatesRecords_of_at (m : Stats) (recs : List Record)
    (h : ∀ k, AggregatesAt m recs k) : AggregatesRecords m recs := by
  constructor
  · intro k
    have hk := h k
    unfold AggregatesAt at hk
    cases hget : m.get k with
    | none =>
      rw [hget] at hk
      simpa using hk
    | some r =>
      rw [hget] at hk
      simp only [reduceCtorEq, false_iff]
      exact hk.1
  · intro k r hget
    have hk := h k
    unfold AggregatesAt at hk
    rw [hget] at hk
    exact hk

set_option maxRecDepth 100000 in
/-- C7 (as stated, refuted). The record `a-b;1.0\n` has an identifier free of
`';'` and `'\n'`, yet the worker files it under `ab` with the value `-10`:
the `'-'` is not stored in the name and sets the negative flag. -/
theorem hyphen_in_identifier_misfiled :
    processValidChunks [[97, 45, 98, 59, 49, 46, 48, 10]] =
      [(keyOf [97, 98], ⟨-10, -10, 1, -10⟩)] ∧
    ¬ (∀ (recs : List Record) (validChunks : List (List Byte)),
        (∀ r ∈ recs, r.WellFormedAsClaimed) → recs.length < 2 ^ 31 →
        validChunks.flatten = (recs.map Record.render).flatten →
        AggregatesRecords (processValidChunks validChunks) recs) := by
  refine ⟨by decide, ?_⟩
  intro h
  have h1 := (h [⟨[97, 45, 98], false, [49], 48⟩] [[97, 45, 98, 59, 49, 46, 48, 10]]
    (by decide) (by decide) (by decide)).1 (keyOf [97, 45, 98])
  have h2 : (processValidChunks [[97, 45, 98, 59, 49, 46, 48, 10]]).get (keyOf [97, 45, 98]) =
      none := by decide
  have h3 := h1.mp h2
  revert h3
  decide

set_option maxRecDepth 100000 in
/-- C7 (amended). For every input made of records `<identifier>;<value>\n`
whose identifier is at most 64 bytes other than `';'`, `'\n'`, `'-'` and `'.'`
and whose value is a decimal with one fractional digit, an optional leading
`'-'` and a magnitude in tenths within `int16`, the partial aggregate of one
worker has an entry exactly for the zero-padded identifiers of the input,
holding the smallest and the largest of that identifier's values in tenths,
and their sum and number as `int64` and `int32`, which are the exact sum and
number when the input has fewer than `2^31` records;
`Paris;23.5\nParis;18.2\n` gives `Paris -> (182, 235, count 2, sum 417)` and
`City;-5.3\nCity;-1.1\n` gives `City -> (-53, -11, count 2, sum -64)`. -/
theorem worker_aggregates_records (recs : List Record) (validChunks : List (List Byte))
    (hwf : ∀ r ∈ recs, r.WellFormed)
    (hin : validChunks.flatten = (recs.map Record.render).flatten) :
    AggregatesRecords (processValidChunks validChunks) recs ∧
    (recs.length < 2 ^ 31 → ∀ k r, (processValidChunks validChunks).get k = some r →
      r.sum = (valuesOf recs k).sum ∧ r.count = (valuesOf recs k).length) ∧
    processValidChunks [[80, 97, 114, 105, 115, 59, 50, 51, 46, 53, 10,
        80, 97, 114, 105, 115, 59, 49, 56, 46, 50, 10]] =
      [(keyOf [80, 97, 114, 105, 115], ⟨182, 235, 2, 417⟩)] ∧
    processValidChunks [[67, 105, 116, 121, 59, 45, 53, 46, 51, 10,
        67, 105, 116, 121, 59, 45, 49, 46, 49, 10]] =
      [(keyOf [67, 105, 116, 121], ⟨-53, -11, 2, -64⟩)] := by
  have hagg : AggregatesRecords (processValidChunks validChunks) recs := by
    apply aggregatesRecords_of_at
    unfold processValidChunks
    rw [scanChunks_eq_foldl, hin]
    have h := scan_records recs hwf []
    have hinit : Scanner.init = Scanner.mk [] cityName.zero 0 0 false := rfl
    rw [hinit, h]
    exact fold_aggregates recs (fun r hr => (hwf r hr).2.2)
  refine ⟨hagg, ?_, by decide, by decide⟩
  intro hlen k r hget
  obtain ⟨_, _, _, _, _, hsum, hcount⟩ := hagg.2 k r hget
  have hl := valuesOf_length recs k
  have hl' : ((valuesOf recs k).length : Int) ≤ (recs.length : Int) := by exact_mod_cast hl
  have hlen' : (recs.length : Int) < 2 ^ 31 := by exact_mod_cast hlen
  obtain ⟨hs1, hs2⟩ := sum_bounds _ (valuesOf_range recs k (fun r hr => (hwf r hr).2.2))
  have h0 : (0 : Int) ≤ ((valuesOf recs k).length : Int) := Int.ofNat_nonneg _
  rw [hsum, hcount]
  exact ⟨wrap64_id _ (by omega) (by omega), wrap32_id _ (by omega) (by omega)⟩

set_option maxRecDepth 100000 in
/-- The amended C7 applied to `Paris;23.5\nParis;18.2\n`: the record filed
under `Paris` has the sum and the count of the values 235 and 182. -/
theorem worker_aggregates_records_witness :
    (417 : Int) = (valuesOf [⟨[80, 97, 114, 105, 115], false, [50, 51], 53⟩,
        ⟨[80, 97, 114, 105, 115], false, [49, 56], 50⟩] (keyOf [80, 97, 114, 105, 115])).sum ∧
    (2 : Int) = ((valuesOf [⟨[80, 97, 114, 105, 115], false, [50, 51], 53⟩,
        ⟨[80, 97, 114, 105, 115], false, [49, 56], 50⟩]
        (keyOf [80, 97, 114, 105, 115])).length : Int) :=
  (worker_aggregates_records
    [⟨[80, 97, 114, 105, 115], false, [50, 51], 53⟩,
      ⟨[80, 97, 114, 105, 115], false, [49, 56], 50⟩]
    [[80, 97, 114, 105, 115, 59, 50, 51, 46, 53, 10,
      80, 97, 114, 105, 115, 59, 49, 56, 46, 50, 10]]
    (by decide) (by decide)).2.1 (by decide) (keyOf [80, 97, 114, 105, 115])
    ⟨182, 235, 2, 417⟩ (by decide)

/-! ### Single scanner steps -/

theorem scanByte_newline (s : Scanner) :
    scanByte s 10 =
      Scanner.mk (registerCity s.cityStats s.name (if s.neg then wrap16 (-s.temp) else s.temp))
        cityName.zero 0 0 false := by
  unfold scanByte
  simp

theorem scanByte_semicolon (s : Scanner) :
    scanByte s 59 = Scanner.mk s.cityStats s.name 64 s.temp s.neg := by
  unfold scanByte
  simp

theorem scanByte_dot (s : Scanner) : scanByte s 46 = s := by
  unfold scanByte
  simp

theorem scanByte_minus (s : Scanner) :
    scanByte s 45 = Scanner.mk s.cityStats s.name s.letterInName s.temp true := by
  unfold scanByte
  simp

theorem scanByte_other_full (s : Scanner) (b : Byte)
    (hb : b ≠ 10 ∧ b ≠ 59 ∧ b ≠ 46 ∧ b ≠ 45) (hl : 64 ≤ s.letterInName) :
    scanByte s b =
      Scanner.mk s.cityStats s.name s.letterInName
        (wrap16 (wrap16 (10 * s.temp) + ((b - 48 : Byte).val : Int))) s.neg := by
  have hlt : ¬ s.letterInName < 64 := by omega
  unfold scanByte
  simp [hb.1, hb.2.1, hb.2.2.1, hb.2.2.2, hlt]

theorem wrap16_wrap16_add (a b : Int) : wrap16 (wrap16 a + b) = wrap16 (a + b) := by
  unfold wrap16; omega

/-- C15 (as stated, refuted). A fresh scanner that reads the digit `'5'` stores
it in the name and leaves the accumulator at 0, not at `0*10 + 5`; and after
`;32767` the digit `'9'` leaves the `int16` accumulator at -1, not at 327679. -/
theorem digit_not_always_accumulated :
    (scanByte Scanner.init 53).temp = 0 ∧
    (scanByte Scanner.init 53).name = keyOf [53] ∧
    (scanByte ([59, 51, 50, 55, 54, 55].foldl scanByte Scanner.init) 57).temp = -1 ∧
    ¬ (∀ (s : Scanner) (b : Byte), isDigit b →
        (scanByte s b).temp = s.temp * 10 + ((b.val : Int) - 48)) := by
  refine ⟨by decide, by decide, by decide, ?_⟩
  intro h
  have h1 := h Scanner.init 53 (by decide)
  revert h1
  decide

/-- C15 (amended). For every scanner state and every digit byte: once the
identifier is closed or full (`letterInName >= 64`) the accumulator becomes
`accumulator*10 + digit` reduced to `int16`, which is exactly
`accumulator*10 + digit` when that fits `int16`, and nothing else changes; while
the identifier is still being read (`letterInName < 64`) the digit is stored in
the name and the accumulator is unchanged. -/
theorem digit_step (s : Scanner) (b : Byte) (hb : isDigit b) :
    (64 ≤ s.letterInName →
      scanByte s b = Scanner.mk s.cityStats s.name s.letterInName
        (wrap16 (s.temp * 10 + ((b.val : Int) - 48))) s.neg ∧
      (-32768 ≤ s.temp * 10 + ((b.val : Int) - 48) →
        s.temp * 10 + ((b.val : Int) - 48) ≤ 32767 →
        (scanByte s b).temp = s.temp * 10 + ((b.val : Int) - 48))) ∧
    (s.letterInName < 64 →
      scanByte s b = Scanner.mk s.cityStats (s.name.store s.letterInName b)
        (s.letterInName + 1) s.temp s.neg) := by
  constructor
  · intro hl
    have h1 : scanByte s b = Scanner.mk s.cityStats s.name s.letterInName
        (wrap16 (s.temp * 10 + ((b.val : Int) - 48))) s.neg := by
      rw [scanByte_other_full s b (digit_not_special b hb) hl, digit_sub b hb,
        wrap16_wrap16_add, mul_comm]
    refine ⟨h1, ?_⟩
    intro h2 h3
    rw [h1]
    exact wrap16_id _ h2 h3
  · intro hl
    rw [scanByte_ident s b (digit_not_special b hb) hl]

/-- The amended C15 applied to the digit `'5'` after `;1` (accumulator 1,
identifier closed) and to the digit `'5'` in a fresh scanner. -/
theorem digit_step_witness :
    (scanByte ([59, 49].foldl scanByte Scanner.init) 53).temp = 15 ∧
    scanByte Scanner.init 53 =
      Scanner.mk [] (cityName.zero.store 0 53) 1 0 false :=
  ⟨((digit_step ([59, 49].foldl scanByte Scanner.init) 53 (by decide)).1 (by decide)).2
      (by decide) (by decide),
    (digit_step Scanner.init 53 (by decide)).2 (by decide)⟩


/-! ### After the `';'`: the identifier is frozen -/

theorem scanByte_frozen (s : Scanner) (b : Byte) (hb : b ≠ 10) (hl : s.letterInName = 64) :
    (scanByte s b).name = s.name ∧ (scanByte s b).cityStats = s.cityStats ∧
    (scanByte s b).letterInName = 64 := by
  by_cases h59 : b = 59
  · rw [h59, scanByte_semicolon]
    exact ⟨rfl, rfl, rfl⟩
  · by_cases h46 : b = 46
    · rw [h46, scanByte_dot]
      exact ⟨rfl, rfl, hl⟩
    · by_cases h45 : b = 45
      · rw [h45, scanByte_minus]
        exact ⟨rfl, rfl, hl⟩
      · rw [scanByte_other_full s b ⟨hb, h59, h46, h45⟩ (by omega)]
        exact ⟨rfl, rfl, hl⟩

theorem scan_frozen (bs : List Byte) (s : Scanner) (hbs : (10 : Byte) ∉ bs)
    (hl : s.letterInName = 64) :
    (bs.foldl scanByte s).name = s.name ∧ (bs.foldl scanByte s).cityStats = s.cityStats ∧
    (bs.foldl scanByte s).letterInName = 64 := by
  induction bs generalizing s with
  | nil => exact ⟨rfl, rfl, hl⟩
  | cons b rest ih =>
    have hb : b ≠ 10 := fun e => hbs (by simp [e])
    have hrest : (10 : Byte) ∉ rest := fun h => hbs (List.mem_cons_of_mem _ h)
    obtain ⟨h1, h2, h3⟩ := scanByte_frozen s b hb hl
    obtain ⟨h4, h5, h6⟩ := ih (scanByte s b) hrest h3
    rw [List.foldl_cons]
    exact ⟨h4.trans h1, h5.trans h2, h6⟩

/-- C16. Once a `';'` has been processed, for every sequence of bytes without
`'\n'` processed after it the identifier buffer (and the private map) is as it
stood when the `';'` was read, so the next `'\n'` registers its value under
that identifier. -/
theorem identifier_frozen_after_semicolon (s : Scanner) (bs : List Byte)
    (hbs : (10 : Byte) ∉ bs) :
    (bs.foldl scanByte (scanByte s 59)).name = s.name ∧
    (bs.foldl scanByte (scanByte s 59)).cityStats = s.cityStats ∧
    ∃ temp, ((bs ++ [10]).foldl scanByte (scanByte s 59)).cityStats =
      registerCity s.cityStats s.name temp := by
  have h0 : (scanByte s 59).letterInName = 64 := by rw [scanByte_semicolon]
  obtain ⟨h1, h2, _⟩ := scan_frozen bs (scanByte s 59) hbs h0
  have hn : (scanByte s 59).name = s.name := by rw [scanByte_semicolon]
  have hc : (scanByte s 59).cityStats = s.cityStats := by rw [scanByte_semicolon]
  refine ⟨h1.trans hn, h2.trans hc, ?_⟩
  rw [List.foldl_append, List.foldl_cons, List.foldl_nil, scanByte_newline, h1, h2, hn, hc]
  exact ⟨_, rfl⟩

/-- C16 applied to a scanner that has read `ab`, then `;`, then the bytes
`-1.5x;7`: the name is still `ab`. -/
theorem identifier_frozen_after_semicolon_witness :
    ([45, 49, 46, 53, 120, 59, 55].foldl scanByte
      (scanByte ([97, 98].foldl scanByte Scanner.init) 59)).name = keyOf [97, 98] :=
  (identifier_frozen_after_semicolon ([97, 98].foldl scanByte Scanner.init)
    [45, 49, 46, 53, 120, 59, 55] (by decide)).1

/-! ### After the `'\n'`: the scanner is reset -/

theorem registered_same (bs : List Byte) (s t : Scanner) (hn : s.name = t.name)
    (hl : s.letterInName = t.letterInName) (ht : s.temp = t.temp) (hg : s.neg = t.neg) :
    registered s bs = registered t bs ∧
    (bs.foldl scanByte s).name = (bs.foldl scanByte t).name ∧
    (bs.foldl scanByte s).letterInName = (bs.foldl scanByte t).letterInName ∧
    (bs.foldl scanByte s).temp = (bs.foldl scanByte t).temp ∧
    (bs.foldl scanByte s).neg = (bs.foldl scanByte t).neg := by
  induction bs generalizing s t with
  | nil => exact ⟨rfl, hn, hl, ht, hg⟩
  | cons b rest ih =>
    have hstep : (scanByte s b).name = (scanByte t b).name ∧
        (scanByte s b).letterInName = (scanByte t b).letterInName ∧
        (scanByte s b).temp = (scanByte t b).temp ∧
        (scanByte s b).neg = (scanByte t b).neg := by
      unfold scanByte
      rw [hn, hl, ht, hg]
      split_ifs <;> first | exact ⟨rfl, rfl, rfl, rfl⟩ | exact ⟨hn, hl, ht, hg⟩
    obtain ⟨h1, h2, h3, h4⟩ := hstep
    obtain ⟨i1, i2⟩ := ih (scanByte s b) (scanByte t b) h1 h2 h3 h4
    simp only [registered, List.foldl_cons]
    rw [i1, hn, ht, hg]
    exact ⟨rfl, i2⟩

theorem cityStats_registered (bs : List Byte) (s : Scanner) :
    (bs.foldl scanByte s).cityStats =
      (registered s bs).foldl (fun acc p => registerCity acc p.1 p.2) s.cityStats := by
  induction bs generalizing s with
  | nil => rfl
  | cons b rest ih =>
    rw [List.foldl_cons, ih]
    by_cases hb : b = 10
    · subst hb
      simp only [registered, if_true, List.foldl_cons]
      rw [scanByte_newline]
    · have hc : (scanByte s b).cityStats = s.cityStats := by
        unfold scanByte
        simp only [hb, if_false]
        split_ifs <;> rfl
      simp only [registered, hb, if_false]
      rw [hc]

/-- C17. For every scanner state, processing a `'\n'` leaves the identifier
buffer all zero, the identifier length 0, the accumulator 0 and the negative
flag false; hence after any segment ending in `'\n'` the scanner differs from
the initial one only by its private map, and on the next segment it goes through
the same scanner fields and performs the same registrations as a fresh worker. -/
theorem newline_resets_scanner (s : Scanner) :
    ((scanByte s 10).name = cityName.zero ∧ (scanByte s 10).letterInName = 0 ∧
      (scanByte s 10).temp = 0 ∧ (scanByte s 10).neg = false) ∧
    (∀ body : List Byte,
      (body ++ [10]).foldl scanByte s =
        Scanner.mk ((body ++ [10]).foldl scanByte s).cityStats cityName.zero 0 0 false) ∧
    (∀ body next : List Byte,
      registered ((body ++ [10]).foldl scanByte s) next = registered Scanner.init next ∧
      (next.foldl scanByte ((body ++ [10]).foldl scanByte s)).cityStats =
        (registered Scanner.init next).foldl (fun acc p => registerCity acc p.1 p.2)
          ((body ++ [10]).foldl scanByte s).cityStats ∧
      (next.foldl scanByte ((body ++ [10]).foldl scanByte s)).name =
        (next.foldl scanByte Scanner.init).name ∧
      (next.foldl scanByte ((body ++ [10]).foldl scanByte s)).letterInName =
        (next.foldl scanByte Scanner.init).letterInName ∧
      (next.foldl scanByte ((body ++ [10]).foldl scanByte s)).temp =
        (next.foldl scanByte Scanner.init).temp ∧
      (next.foldl scanByte ((body ++ [10]).foldl scanByte s)).neg =
        (next.foldl scanByte Scanner.init).neg) := by
  have hreset : ∀ body : List Byte,
      (body ++ [10]).foldl scanByte s =
        Scanner.mk ((body ++ [10]).foldl scanByte s).cityStats cityName.zero 0 0 false := by
    intro body
    rw [List.foldl_append, List.foldl_cons, List.foldl_nil, scanByte_newline]
  refine ⟨by rw [scanByte_newline]; exact ⟨rfl, rfl, rfl, rfl⟩, hreset, ?_⟩
  intro body next
  have h := hreset body
  obtain ⟨r1, r2, r3, r4, r5⟩ := registered_same next ((body ++ [10]).foldl scanByte s)
    Scanner.init (by rw [h]; rfl) (by rw [h]; rfl) (by rw [h]; rfl) (by rw [h]; rfl)
  refine ⟨r1, ?_, r2, r3, r4, r5⟩
  rw [cityStats_registered, r1]


/-! ### The value text -/

set_option maxRecDepth 100000 in
/-- C13 (as stated, refuted). In the record `a-b;1.0\n` the value text `1.0`
has no leading `'-'` and is scanned after a `';'`, yet the value recorded is
-10, not 10: the `'-'` of the identifier has already set the negative flag. And
after an identifier of 65 bytes `x` the same value text records 7210: the 65th
byte has already been read into the accumulator. -/
theorem value_after_semicolon_not_always_N :
    ([49, 46, 48, 10].foldl scanByte ([97, 45, 98, 59].foldl scanByte Scanner.init)).cityStats =
      [(keyOf [97, 98], ⟨-10, -10, 1, -10⟩)] ∧
    ([49, 46, 48, 10].foldl scanByte
      ((List.replicate 65 120 ++ [59]).foldl scanByte Scanner.init)).cityStats =
      [(keyOf (List.replicate 64 120), ⟨7210, 7210, 1, 7210⟩)] ∧
    ¬ (∀ (pre : List Byte) (r : Record), r.ValueOk →
        ((r.valueText ++ [10]).foldl scanByte
            ((pre ++ [59]).foldl scanByte Scanner.init)).cityStats =
          registerCity ((pre ++ [59]).foldl scanByte Scanner.init).cityStats
            ((pre ++ [59]).foldl scanByte Scanner.init).name r.value) := by
  refine ⟨by decide, by decide, ?_⟩
  intro h
  have h1 := h [97, 45, 98] ⟨[], false, [49], 48⟩ (by decide)
  revert h1
  decide

/-- C13 (amended). For every value text `[-]d1...dn.f` (decimal digits, one
fractional digit, digit string read as an integer `N <= 32767`) scanned after a
`';'` at which the accumulator is 0 and the negative flag is clear, and followed
by `'\n'`: the `'.'` changes no scanner field, and the value registered under
the current name is `N` without a leading `'-'` and `-N` with one. -/
theorem value_text_recorded (s : Scanner) (r : Record) (hv : r.ValueOk)
    (ht : s.temp = 0) (hn : s.neg = false) :
    (∀ t : Scanner, scanByte t 46 = t) ∧
    (r.valueText ++ [10]).foldl scanByte (scanByte s 59) =
      Scanner.mk (registerCity s.cityStats s.name r.value) cityName.zero 0 0 false ∧
    r.value = (if r.neg then -digitsValue 0 (r.whole ++ [r.frac])
      else digitsValue 0 (r.whole ++ [r.frac])) := by
  refine ⟨scanByte_dot, ?_, rfl⟩
  have h0 := magnitude_nonneg r hv
  have h1 := hv.2.2
  have hsplit : r.valueText ++ [10] =
      (if r.neg then [45] else []) ++ ((r.whole ++ [46, r.frac]) ++ [10]) := by
    simp [Record.valueText]
  have hneg : (if r.neg then [(45 : Byte)] else []).foldl scanByte
      (Scanner.mk s.cityStats s.name 64 0 false) = Scanner.mk s.cityStats s.name 64 0 r.neg := by
    cases r.neg <;> rfl
  rw [hsplit, scanByte_semicolon, ht, hn, List.foldl_append, hneg, List.foldl_append,
    scan_value r hv s.cityStats s.name]
  simp only [List.foldl_cons, List.foldl_nil]
  rw [scanByte_newline]
  have hval : (if r.neg = true then wrap16 (-r.magnitude) else r.magnitude) = r.value := by
    unfold Record.value
    split_ifs
    · exact wrap16_id _ (by omega) (by omega)
    · rfl
  simp only [hval]

set_option maxRecDepth 100000 in
/-- The amended C13 applied to the value text `-5.3` after `City;`: the value
registered under `City` is -53. -/
theorem value_text_recorded_witness :
    ([45, 53, 46, 51, 10].foldl scanByte
      (scanByte ([67, 105, 116, 121].foldl scanByte Scanner.init) 59)).cityStats =
      [(keyOf [67, 105, 116, 121], ⟨-53, -53, 1, -53⟩)] :=
  congrArg Scanner.cityStats
    (value_text_recorded ([67, 105, 116, 121].foldl scanByte Scanner.init)
      ⟨[], true, [53], 51⟩ (by decide) (by decide) (by decide)).2.1

/-! ### Sorting the names -/

theorem bytesCompare_range (a b : List Byte) :
    bytesCompare a b = -1 ∨ bytesCompare a b = 0 ∨ bytesCompare a b = 1 := by
  induction a generalizing b with
  | nil => cases b <;> simp [bytesCompare]
  | cons x xs ih =>
    cases b with
    | nil => simp [bytesCompare]
    | cons y ys =>
      unfold bytesCompare
      split_ifs
      · simp
      · simp
      · exact ih ys

theorem bytesCompare_swap (a b : List Byte) : bytesCompare b a = -bytesCompare a b := by
  induction a generalizing b with
  | nil => cases b <;> simp [bytesCompare]
  | cons x xs ih =>
    cases b with
    | nil => simp [bytesCompare]
    | cons y ys =>
      simp only [bytesCompare]
      by_cases h1 : x < y
      · have h2 : ¬ y < x := not_lt.mpr (le_of_lt h1)
        simp [h1, h2]
      · by_cases h2 : y < x
        · simp [h1, h2]
        · simp [h1, h2, ih ys]

theorem bytesCompare_eq_zero (a b : List Byte) (h : bytesCompare a b = 0) : a = b := by
  induction a generalizing b with
  | nil =>
    cases b with
    | nil => rfl
    | cons y ys => simp [bytesCompare] at h
  | cons x xs ih =>
    cases b with
    | nil => simp [bytesCompare] at h
    | cons y ys =>
      simp only [bytesCompare] at h
      by_cases h1 : x < y
      · simp [h1] at h
      · by_cases h2 : y < x
        · simp [h1, h2] at h
        · simp only [h1, h2, if_false] at h
          have hxy : x = y := le_antisymm (not_lt.mp h2) (not_lt.mp h1)
          rw [hxy, ih ys h]

theorem bytesCompare_lex (a b : List Byte) :
    bytesCompare a b < 0 ↔ List.Lex (fun x y : Byte => x < y) a b := by
  induction a generalizing b with
  | nil =>
    cases b with
    | nil => simp [bytesCompare]
    | cons y ys => simp [bytesCompare, List.Lex.nil]
  | cons x xs ih =>
    cases b with
    | nil => simp [bytesCompare]
    | cons y ys =>
      simp only [bytesCompare]
      by_cases h1 : x < y
      · simp only [h1, if_true]
        exact ⟨fun _ => List.Lex.rel h1, fun _ => by omega⟩
      · by_cases h2 : y < x
        · simp only [h1, h2, if_true, if_false]
          constructor
          · intro h; omega
          · intro h
            cases h with
            | cons h' => exact absurd h2 (lt_irrefl _)
            | rel h' => exact absurd h' h1
        · simp only [h1, h2, if_false]
          have hxy : x = y := le_antisymm (not_lt.mp h2) (not_lt.mp h1)
          subst hxy
          rw [ih ys]
          constructor
          · intro h; exact List.Lex.cons h
          · intro h
            cases h with
            | cons h' => exact h'
            | rel h' => exact absurd h' h1

theorem bytesCompare_trans (a b c : List Byte) (h1 : bytesCompare a b < 0)
    (h2 : bytesCompare b c < 0) : bytesCompare a c < 0 := by
  rw [bytesCompare_lex] at h1 h2 ⊢
  induction h1 generalizing c with
  | nil =>
    cases h2 with
    | cons h => exact List.Lex.nil
    | rel h => exact List.Lex.nil
  | cons h ih =>
    cases h2 with
    | cons h' => exact List.Lex.cons (ih _ h')
    | rel h' => exact List.Lex.rel h'
  | rel h =>
    cases h2 with
    | cons h' => exact List.Lex.rel h
    | rel h' => exact List.Lex.rel (lt_trans h h')


theorem cityLess_asymm (a b : cityName) (h : cityLess a b) : ¬ cityLess b a := by
  unfold cityLess at h ⊢
  rw [bytesCompare_swap a.1 b.1]
  omega

theorem cityLess_of_not (a b : cityName) (h : ¬ cityLess b a) (hne : a ≠ b) : cityLess a b := by
  unfold cityLess at h ⊢
  have hs := bytesCompare_swap a.1 b.1
  rcases bytesCompare_range a.1 b.1 with h1 | h1 | h1
  · omega
  · exact absurd (Subtype.ext (bytesCompare_eq_zero a.1 b.1 h1)) hne
  · omega

theorem notLess_total (a b : cityName) : ¬ cityLess b a ∨ ¬ cityLess a b := by
  by_cases h : cityLess b a
  · exact Or.inr (cityLess_asymm b a h)
  · exact Or.inl h

theorem notLess_trans (a b c : cityName) (h1 : ¬ cityLess b a) (h2 : ¬ cityLess c b) :
    ¬ cityLess c a := by
  intro h3
  by_cases hab : a = b
  · subst hab
    exact h2 h3
  · have h4 := cityLess_of_not a b h1 hab
    exact h2 (bytesCompare_trans c.1 a.1 b.1 h3 h4)

theorem sortedNames_perm (agg : Stats) : (sortedNames agg).Perm (agg.map Prod.fst) :=
  List.perm_insertionSort _ _

theorem sortedNames_sorted (agg : Stats) :
    (sortedNames agg).Pairwise (fun a b => ¬ cityLess b a) := by
  haveI : IsTotal cityName (fun a b => ¬ cityLess b a) := ⟨notLess_total⟩
  haveI : IsTrans cityName (fun a b => ¬ cityLess b a) := ⟨notLess_trans⟩
  exact List.sorted_insertionSort (fun a b => ¬ cityLess b a) _

theorem mem_keys_iff (agg : Stats) (k : cityName) :
    k ∈ agg.map Prod.fst ↔ (agg.get k).isSome = true := by
  induction agg with
  | nil => simp [Stats.get]
  | cons p rest ih =>
    obtain ⟨a, w⟩ := p
    by_cases ha : a = k
    · simp [Stats.get, ha]
    · have hk : ¬ k = a := fun h => ha h.symm
      simp [Stats.get, ha, hk, ih]

set_option maxRecDepth 100000 in
/-- C11. For every global aggregate (a map: no key twice), the sequence of
identifiers `main` reports contains every key of the aggregate exactly once and
nothing else, and is strictly ascending in the byte-wise lexicographic order of
the raw 64-byte keys; for the input `A;1.0\nB;2.0\n` the name `A` precedes the
name `B`. -/
theorem sortedNames_strictly_ascending (agg : Stats) (h : KeysNodup agg) :
    (∀ k, (sortedNames agg).count k = if (agg.get k).isSome then 1 else 0) ∧
    (sortedNames agg).Pairwise (fun a b => List.Lex (fun x y : Byte => x < y) a.1 b.1) ∧
    sortedNames (reduceAll (poolResults poolSize
      (mergeChunks [[65, 59, 49, 46, 48, 10, 66, 59, 50, 46, 48, 10]]) [0])) =
      [keyOf [65], keyOf [66]] := by
  have hperm := sortedNames_perm agg
  have hnd : (sortedNames agg).Nodup := hperm.nodup_iff.mpr h
  refine ⟨?_, ?_, by decide⟩
  · intro k
    by_cases hk : (agg.get k).isSome = true
    · rw [if_pos hk]
      exact List.count_eq_one_of_mem hnd
        (hperm.mem_iff.mpr ((mem_keys_iff agg k).mpr hk))
    · rw [if_neg hk]
      apply List.count_eq_zero_of_not_mem
      intro hmem
      exact hk ((mem_keys_iff agg k).mp (hperm.mem_iff.mp hmem))
  · have hs := sortedNames_sorted agg
    have hboth := hs.and hnd
    refine hboth.imp ?_
    intro a b hab
    exact (bytesCompare_lex a.1 b.1).mp (cityLess_of_not a b hab.1 hab.2)

set_option maxRecDepth 100000 in
/-- C11 applied to the aggregate of a worker that read `B;2.0\nA;1.0\n`, which
lists `B` before `A`: the reported sequence holds `A` exactly once. -/
theorem sortedNames_strictly_ascending_witness :
    processValidChunks [[66, 59, 50, 46, 48, 10, 65, 59, 49, 46, 48, 10]] =
      [(keyOf [66], ⟨20, 20, 1, 20⟩), (keyOf [65], ⟨10, 10, 1, 10⟩)] ∧
    (sortedNames (processValidChunks
      [[66, 59, 50, 46, 48, 10, 65, 59, 49, 46, 48, 10]])).count (keyOf [65]) = 1 :=
  ⟨by decide,
    (sortedNames_strictly_ascending
      (processValidChunks [[66, 59, 50, 46, 48, 10, 65, 59, 49, 46, 48, 10]])
      (by unfold KeysNodup; decide)).1 (keyOf [65])⟩

/-! ### What the reduce loop computes per key -/

theorem reduceStep_get (agg : Stats) (c k : cityName) (stats : measure10x) :
    (reduceStep agg c stats).get k =
      if c = k then some (mergeInto (agg.get c) stats) else agg.get k := by
  unfold reduceStep mergeInto
  cases agg.get c <;> simp only [Stats.get_put]

theorem get_none_of_not_mem (m : Stats) (k : cityName) (h : k ∉ m.map Prod.fst) :
    m.get k = none := by
  cases hget : m.get k with
  | none => rfl
  | some v =>
    exfalso
    apply h
    rw [mem_keys_iff, hget]
    rfl

theorem reduceOne_get (sc agg : Stats) (k : cityName) (hnd : KeysNodup sc) :
    (reduceOne agg sc).get k =
      match sc.get k with
      | none => agg.get k
      | some s => some (mergeInto (agg.get k) s) := by
  induction sc generalizing agg with
  | nil => rfl
  | cons p rest ih =>
    obtain ⟨c, st⟩ := p
    unfold KeysNodup at hnd
    rw [List.map_cons, List.nodup_cons] at hnd
    have hrest : KeysNodup rest := hnd.2
    have hstep : reduceOne agg ((c, st) :: rest) = reduceOne (reduceStep agg c st) rest := rfl
    rw [hstep, ih (reduceStep agg c st) hrest, reduceStep_get]
    by_cases hck : c = k
    · subst hck
      have hnone : Stats.get rest c = none := get_none_of_not_mem rest c hnd.1
      simp [Stats.get, hnone]
    · simp [Stats.get, hck]

theorem foldl_reduceOne_get (parts : List Stats) (agg : Stats) (k : cityName)
    (hnd : ∀ sc ∈ parts, KeysNodup sc) :
    (parts.foldl reduceOne agg).get k =
      (partialsOf parts k).foldl (fun acc s => some (mergeInto acc s)) (agg.get k) := by
  induction parts generalizing agg with
  | nil => rfl
  | cons sc rest ih =>
    have hsc := hnd sc (List.mem_cons_self _ _)
    have hrest : ∀ x ∈ rest, KeysNodup x := fun x hx => hnd x (List.mem_cons_of_mem _ hx)
    rw [List.foldl_cons, ih (reduceOne agg sc) hrest, reduceOne_get sc agg k hsc]
    unfold partialsOf
    cases hget : sc.get k with
    | none => simp [List.filterMap_cons, hget]
    | some s => simp [List.filterMap_cons, hget]

theorem combine_fields (r s : measure10x) :
    (combine r s).min = min r.min s.min ∧
    (combine r s).sum = wrap64 (r.sum + s.sum) ∧
    (combine r s).count = wrap32 (r.count + s.count) := by
  unfold combine
  split_ifs <;> (refine ⟨?_, rfl, rfl⟩; dsimp only; omega)

theorem wrap64_wrap64 (a : Int) : wrap64 (wrap64 a) = wrap64 a := by
  unfold wrap64; omega

theorem wrap32_wrap32 (a : Int) : wrap32 (wrap32 a) = wrap32 a := by
  unfold wrap32; omega

theorem fold_mergeInto_some (rs : List measure10x) (r0 : measure10x) :
    ∃ r, rs.foldl (fun acc s => some (mergeInto acc s)) (some r0) = some r ∧
      (r.min = r0.min ∨ ∃ s ∈ rs, r.min = s.min) ∧ r.min ≤ r0.min ∧
      (∀ s ∈ rs, r.min ≤ s.min) ∧
      wrap64 r.sum = wrap64 (r0.sum + (rs.map (fun s => s.sum)).sum) ∧
      wrap32 r.count = wrap32 (r0.count + (rs.map (fun s => s.count)).sum) ∧
      (rs ≠ [] → wrap64 r.sum = r.sum ∧ wrap32 r.count = r.count) ∧
      (rs = [] → r = r0) := by
  induction rs generalizing r0 with
  | nil => exact ⟨r0, rfl, Or.inl rfl, le_refl _, by simp, by simp, by simp, by simp,
      fun _ => rfl⟩
  | cons s rest ih =>
    obtain ⟨f1, f2, f3⟩ := combine_fields r0 s
    obtain ⟨r, hr, hmem, hle, hall, hsum, hcount, hwrap, hnil⟩ := ih (combine r0 s)
    refine ⟨r, ?_, ?_, ?_, ?_, ?_, ?_, ?_, by simp⟩
    · rw [List.foldl_cons]
      exact hr
    · rw [f1] at hmem
      rcases hmem with h | ⟨x, hx, h⟩
      · rcases le_total r0.min s.min with h' | h'
        · rw [min_eq_left h'] at h; exact Or.inl h
        · rw [min_eq_right h'] at h; exact Or.inr ⟨s, List.mem_cons_self _ _, h⟩
      · exact Or.inr ⟨x, List.mem_cons_of_mem _ hx, h⟩
    · rw [f1] at hle
      exact le_trans hle (min_le_left _ _)
    · intro x hx
      rcases List.mem_cons.mp hx with h | h
      · rw [h, f1] at *
        exact le_trans hle (min_le_right _ _)
      · exact hall x h
    · rw [hsum, f2, wrap64_add, List.map_cons, List.sum_cons]
      congr 1
      ring
    · rw [hcount, f3, wrap32_add, List.map_cons, List.sum_cons]
      congr 1
      ring
    · intro _
      by_cases hrest : rest = []
      · have := hnil hrest
        rw [this, f2, f3]
        exact ⟨wrap64_wrap64 _, wrap32_wrap32 _⟩
      · exact hwrap hrest


theorem partialsOf_eq_nil (parts : List Stats) (k : cityName) :
    partialsOf parts k = [] ↔ ∀ sc ∈ parts, sc.get k = none := by
  unfold partialsOf
  rw [List.filterMap_eq_nil_iff]

theorem mem_partialsOf (parts : List Stats) (k : cityName) (s : measure10x)
    (h : s ∈ partialsOf parts k) : ∃ sc ∈ parts, (k, s) ∈ sc := by
  unfold partialsOf at h
  obtain ⟨sc, hsc, hget⟩ := List.mem_filterMap.mp h
  exact ⟨sc, hsc, Stats.mem_of_get sc k s hget⟩

/-- C20. For every list of partial aggregates (maps whose records fit their Go
types), folded by the merge loop of `main` in any arrival order, and every
identifier: the global aggregate has an entry for it exactly when some partial
aggregate has one (the key set is the union of the partial key sets), and then
the global `min` is the minimum of the partial mins, the global `sum` is the sum
of the partial sums as an `int64` and the global `count` is the sum of the
partial counts as an `int32`: exactly the sums when these do not overflow. -/
theorem global_min_sum_count (parts arrived : List Stats) (hperm : arrived.Perm parts)
    (hnd : ∀ sc ∈ parts, KeysNodup sc) (hty : ∀ sc ∈ parts, ∀ p ∈ sc, WellTyped p.2) :
    (∀ k, (reduceAll arrived).get k = none ↔ ∀ sc ∈ parts, sc.get k = none) ∧
    (∀ k r, (reduceAll arrived).get k = some r →
      (∃ s ∈ partialsOf parts k, r.min = s.min) ∧
      (∀ s ∈ partialsOf parts k, r.min ≤ s.min) ∧
      r.sum = wrap64 ((partialsOf parts k).map (fun s => s.sum)).sum ∧
      r.count = wrap32 ((partialsOf parts k).map (fun s => s.count)).sum ∧
      (-9223372036854775808 ≤ ((partialsOf parts k).map (fun s => s.sum)).sum →
        ((partialsOf parts k).map (fun s => s.sum)).sum ≤ 9223372036854775807 →
        r.sum = ((partialsOf parts k).map (fun s => s.sum)).sum) ∧
      (-2147483648 ≤ ((partialsOf parts k).map (fun s => s.count)).sum →
        ((partialsOf parts k).map (fun s => s.count)).sum ≤ 2147483647 →
        r.count = ((partialsOf parts k).map (fun s => s.count)).sum)) := by
  have hnd' : ∀ sc ∈ arrived, KeysNodup sc := fun sc h => hnd sc (hperm.mem_iff.mp h)
  have hget : ∀ k, (reduceAll arrived).get k =
      (partialsOf arrived k).foldl (fun acc s => some (mergeInto acc s)) none := by
    intro k
    unfold reduceAll
    rw [foldl_reduceOne_get arrived [] k hnd']
    rfl
  have hpp : ∀ k, (partialsOf arrived k).Perm (partialsOf parts k) := by
    intro k
    unfold partialsOf
    exact hperm.filterMap _
  constructor
  · intro k
    rw [hget k, ← partialsOf_eq_nil parts k]
    constructor
    · intro h
      cases hp : partialsOf arrived k with
      | nil =>
        have := hpp k
        rw [hp] at this
        exact this.symm.eq_nil
      | cons s rest =>
        rw [hp, List.foldl_cons] at h
        obtain ⟨r, hr, _⟩ := fold_mergeInto_some rest (mergeInto none s)
        rw [hr] at h
        exact absurd h (by simp)
    · intro h
      have hp : partialsOf arrived k = [] := by
        have := hpp k
        rw [h] at this
        exact this.eq_nil
      rw [hp]
      rfl
  · intro k r hr
    rw [hget k] at hr
    have hsums : ((partialsOf arrived k).map (fun s => s.sum)).sum =
        ((partialsOf parts k).map (fun s => s.sum)).sum := ((hpp k).map _).sum_eq
    have hcounts : ((partialsOf arrived k).map (fun s => s.count)).sum =
        ((partialsOf parts k).map (fun s => s.count)).sum := ((hpp k).map _).sum_eq
    cases hp : partialsOf arrived k with
    | nil =>
      rw [hp] at hr
      exact absurd hr (by simp)
    | cons s rest =>
      rw [hp, List.foldl_cons] at hr
      have hs0 : mergeInto none s = s := rfl
      rw [hs0] at hr
      obtain ⟨r', hr', hmem, hle, hall, hsum, hcount, hwrap, hnil⟩ :=
        fold_mergeInto_some rest s
      rw [hr', Option.some.injEq] at hr
      subst hr
      have hsty : WellTyped s := by
        have hs : s ∈ partialsOf arrived k := by rw [hp]; exact List.mem_cons_self _ _
        obtain ⟨sc, hsc, hin⟩ := mem_partialsOf arrived k s hs
        exact hty sc (hperm.mem_iff.mp hsc) (k, s) hin
      have hw : wrap64 r'.sum = r'.sum ∧ wrap32 r'.count = r'.count := by
        by_cases hrest : rest = []
        · rw [hnil hrest]
          obtain ⟨_, _, hc, hsm⟩ := hsty
          exact ⟨wrap64_id _ hsm.1 hsm.2, wrap32_id _ hc.1 hc.2⟩
        · exact hwrap hrest
      rw [hp, List.map_cons, List.sum_cons] at hsums hcounts
      have hS : r'.sum = wrap64 ((partialsOf parts k).map (fun s => s.sum)).sum := by
        rw [← hw.1, hsum, hsums]
      have hC : r'.count = wrap32 ((partialsOf parts k).map (fun s => s.count)).sum := by
        rw [← hw.2, hcount, hcounts]
      refine ⟨?_, ?_, hS, hC, ?_, ?_⟩
      · rcases hmem with h | ⟨x, hx, h⟩
        · exact ⟨s, (hpp k).mem_iff.mp (by rw [hp]; exact List.mem_cons_self _ _), h⟩
        · exact ⟨x, (hpp k).mem_iff.mp (by rw [hp]; exact List.mem_cons_of_mem _ hx), h⟩
      · intro x hx
        have hx' : x ∈ s :: rest := by rw [← hp]; exact (hpp k).mem_iff.mpr hx
        rcases List.mem_cons.mp hx' with h | h
        · rw [h]; exact hle
        · exact hall x h
      · intro h1 h2
        rw [hS]
        exact wrap64_id _ h1 h2
      · intro h1 h2
        rw [hC]
        exact wrap32_id _ h1 h2

set_option maxRecDepth 100000 in
/-- C20 applied to the partial aggregates `A -> (50, 50, count 1, sum 50)` and
`A -> (0, 90, count 2, sum 90)`, arriving second first: the global record for
`A` has count `1 + 2`. -/
theorem global_min_sum_count_witness :
    (reduceAll [[(keyOf [65], ⟨0, 90, 2, 90⟩)], [(keyOf [65], ⟨50, 50, 1, 50⟩)]]).get
      (keyOf [65]) = some ⟨0, 90, 3, 140⟩ ∧
    (3 : Int) = ((partialsOf [[(keyOf [65], ⟨50, 50, 1, 50⟩)], [(keyOf [65], ⟨0, 90, 2, 90⟩)]]
      (keyOf [65])).map (fun s => s.count)).sum :=
  ⟨by decide,
    ((global_min_sum_count
      [[(keyOf [65], ⟨50, 50, 1, 50⟩)], [(keyOf [65], ⟨0, 90, 2, 90⟩)]]
      [[(keyOf [65], ⟨0, 90, 2, 90⟩)], [(keyOf [65], ⟨50, 50, 1, 50⟩)]]
      (List.Perm.swap _ _ _) (by decide) (by decide)).2 (keyOf [65]) ⟨0, 90, 3, 140⟩
      (by decide)).2.2.2.2.2 (by decide) (by decide)⟩

/-! ### Scanning a name of any length -/

theorem keyOf_snoc_short (f : List Byte) (b : Byte) (h : f.length < 64) :
    keyOf (f ++ [b]) = (keyOf f).store f.length b := by
  apply Subtype.ext
  have e : 64 - f.length = (64 - (f.length + 1)) + 1 := by omega
  simp only [cityName.store]
  rw [keyOf_val (f ++ [b]) (by simp; omega), keyOf_val f (by omega), e, List.replicate_succ,
    set_append_length]
  simp

theorem keyOf_snoc_full (f : List Byte) (b : Byte) (h : 64 ≤ f.length) :
    keyOf (f ++ [b]) = keyOf f := by
  apply Subtype.ext
  unfold keyOf
  simp only
  rw [List.append_assoc, List.take_append_of_le_length h, List.take_append_of_le_length h]

theorem storedBytes_append (a b : List Byte) :
    storedBytes (a ++ b) = storedBytes a ++ storedBytes b := by
  unfold storedBytes
  exact List.filter_append _ _

theorem scan_name (bs : List Byte) (s : Scanner) (f : List Byte)
    (hbs : ∀ b ∈ bs, b ≠ 10 ∧ b ≠ 59) (hl : s.letterInName = min 64 f.length)
    (hname : s.name = keyOf f) :
    (bs.foldl scanByte s).name = keyOf (f ++ storedBytes bs) ∧
    (bs.foldl scanByte s).letterInName = min 64 (f ++ storedBytes bs).length ∧
    (bs.foldl scanByte s).cityStats = s.cityStats ∧
    ((bs.foldl scanByte s).neg = true ↔ (s.neg = true ∨ (45 : Byte) ∈ bs)) ∧
    ((f ++ storedBytes bs).length ≤ 64 → (bs.foldl scanByte s).temp = s.temp) := by
  induction bs generalizing s f with
  | nil => simp [storedBytes, hname, hl]
  | cons b rest ih =>
    have hb := hbs b (List.mem_cons_self _ _)
    have hrest : ∀ x ∈ rest, x ≠ 10 ∧ x ≠ 59 := fun x hx => hbs x (List.mem_cons_of_mem _ hx)
    rw [List.foldl_cons]
    by_cases h45 : b = 45
    · subst h45
      have hst : storedBytes ((45 : Byte) :: rest) = storedBytes rest := by
        simp [storedBytes, List.filter_cons]
      have e1 : (scanByte s 45).letterInName = s.letterInName := by rw [scanByte_minus]
      have e2 : (scanByte s 45).name = s.name := by rw [scanByte_minus]
      have e3 : (scanByte s 45).cityStats = s.cityStats := by rw [scanByte_minus]
      have e4 : (scanByte s 45).neg = true := by rw [scanByte_minus]
      have e5 : (scanByte s 45).temp = s.temp := by rw [scanByte_minus]
      obtain ⟨i1, i2, i3, i4, i5⟩ := ih (scanByte s 45) f hrest (e1.trans hl) (e2.trans hname)
      rw [hst]
      refine ⟨i1, i2, i3.trans e3, ?_, fun h => (i5 h).trans e5⟩
      rw [i4, e4]
      simp
    · by_cases h46 : b = 46
      · subst h46
        have hst : storedBytes ((46 : Byte) :: rest) = storedBytes rest := by
          simp [storedBytes, List.filter_cons]
        rw [scanByte_dot, hst]
        obtain ⟨i1, i2, i3, i4, i5⟩ := ih s f hrest hl hname
        refine ⟨i1, i2, i3, ?_, i5⟩
        rw [i4]
        have : ¬ ((45 : Byte) = 46) := by decide
        simp [this]
      · have hst : storedBytes (b :: rest) = b :: storedBytes rest := by
          simp [storedBytes, List.filter_cons, h45, h46]
        have happ : f ++ b :: storedBytes rest = (f ++ [b]) ++ storedBytes rest := by simp
        have hmem : ((45 : Byte) ∈ b :: rest) ↔ (45 : Byte) ∈ rest := by
          simp [Ne.symm h45]
        rw [hst, happ, hmem]
        by_cases hlt : f.length < 64
        · have hl' : s.letterInName < 64 := by rw [hl]; omega
          have hs : scanByte s b = Scanner.mk s.cityStats (s.name.store s.letterInName b)
              (s.letterInName + 1) s.temp s.neg :=
            scanByte_ident s b ⟨hb.1, hb.2, h46, h45⟩ hl'
          have hlen : s.letterInName = f.length := by rw [hl]; omega
          have e1 : (scanByte s b).letterInName = min 64 (f ++ [b]).length := by
            rw [hs]; simp only [List.length_append, List.length_singleton]; omega
          have e2 : (scanByte s b).name = keyOf (f ++ [b]) := by
            rw [hs]; simp only; rw [hname, hlen, keyOf_snoc_short f b hlt]
          have e3 : (scanByte s b).cityStats = s.cityStats := by rw [hs]
          have e4 : (scanByte s b).neg = s.neg := by rw [hs]
          have e5 : (scanByte s b).temp = s.temp := by rw [hs]
          obtain ⟨i1, i2, i3, i4, i5⟩ := ih (scanByte s b) (f ++ [b]) hrest e1 e2
          rw [e4] at i4
          exact ⟨i1, i2, i3.trans e3, i4, fun h => (i5 h).trans e5⟩
        · have hl' : 64 ≤ s.letterInName := by rw [hl]; omega
          have hs := scanByte_other_full s b ⟨hb.1, hb.2, h46, h45⟩ hl'
          have e1 : (scanByte s b).letterInName = min 64 (f ++ [b]).length := by
            rw [hs]; simp only [List.length_append, List.length_singleton]; omega
          have e2 : (scanByte s b).name = keyOf (f ++ [b]) := by
            rw [hs]; simp only; rw [hname, keyOf_snoc_full f b (by omega)]
          have e3 : (scanByte s b).cityStats = s.cityStats := by rw [hs]
          have e4 : (scanByte s b).neg = s.neg := by rw [hs]
          obtain ⟨i1, i2, i3, i4, i5⟩ := ih (scanByte s b) (f ++ [b]) hrest e1 e2
          rw [e4] at i4
          refine ⟨i1, i2, i3.trans e3, i4, ?_⟩
          intro h
          simp only [List.length_append, List.length_singleton] at h
          omega


theorem keyOf_zero : keyOf [] = cityName.zero := by
  apply Subtype.ext
  simp [keyOf, cityName.zero]

theorem scan_line (name val : List Byte) (m : Stats)
    (hname : ∀ b ∈ name, b ≠ 10 ∧ b ≠ 59) (hval : (10 : Byte) ∉ val) :
    ((name ++ [59] ++ val).foldl scanByte (Scanner.mk m cityName.zero 0 0 false)).name =
      keyOf (storedBytes name) ∧
    ((name ++ [59] ++ val).foldl scanByte (Scanner.mk m cityName.zero 0 0 false)).cityStats =
      m ∧
    (((name ++ [59] ++ val).foldl scanByte (Scanner.mk m cityName.zero 0 0 false)).neg = true ↔
      ((45 : Byte) ∈ name ∨ (45 : Byte) ∈ val)) := by
  obtain ⟨n1, n2, n3, n4, _⟩ := scan_name name (Scanner.mk m cityName.zero 0 0 false) []
    hname (by simp) keyOf_zero.symm
  simp only [List.nil_append] at n1 n2
  rw [List.append_assoc, List.foldl_append, List.foldl_append, List.foldl_cons, List.foldl_nil]
  have e0 : (scanByte (name.foldl scanByte (Scanner.mk m cityName.zero 0 0 false)) 59).letterInName
      = 64 := by rw [scanByte_semicolon]
  obtain ⟨f1, f2, _⟩ := scan_frozen val _ hval e0
  refine ⟨?_, ?_, ?_⟩
  · rw [f1, scanByte_semicolon]
    exact n1
  · rw [f2, scanByte_semicolon]
    exact n3
  · have hv : ∀ b ∈ val, b ≠ 10 := fun b hb e => hval (e ▸ hb)
    have key : ∀ (bs : List Byte) (s : Scanner), (∀ b ∈ bs, b ≠ 10) →
        ((bs.foldl scanByte s).neg = true ↔ (s.neg = true ∨ (45 : Byte) ∈ bs)) := by
      intro bs
      induction bs with
      | nil => intro s _; simp
      | cons b rest ih =>
        intro s hbs
        have hb := hbs b (List.mem_cons_self _ _)
        rw [List.foldl_cons, ih (scanByte s b) (fun x hx => hbs x (List.mem_cons_of_mem _ hx))]
        by_cases h45 : b = 45
        · subst h45
          rw [scanByte_minus]
          simp
        · have hneg : (scanByte s b).neg = s.neg := by
            unfold scanByte
            simp only [hb, h45, if_false]
            split_ifs <;> rfl
          rw [hneg]
          simp [Ne.symm h45]
    rw [key val _ hv, scanByte_semicolon]
    simp only
    rw [n4]
    simp

theorem scan_line_newline (name val : List Byte) (m : Stats)
    (hname : ∀ b ∈ name, b ≠ 10 ∧ b ≠ 59) (hval : (10 : Byte) ∉ val) :
    ∃ temp, (name ++ [59] ++ val ++ [10]).foldl scanByte (Scanner.mk m cityName.zero 0 0 false) =
      Scanner.mk (registerCity m (keyOf (storedBytes name)) temp) cityName.zero 0 0 false := by
  obtain ⟨h1, h2, _⟩ := scan_line name val m hname hval
  rw [List.foldl_append, List.foldl_cons, List.foldl_nil, scanByte_newline, h1, h2]
  exact ⟨_, rfl⟩

theorem render_eq (r : Record) : r.render = r.ident ++ [59] ++ r.valueText ++ [10] := by
  simp [Record.render, Record.valueText]

theorem keyOf_prefix (p x : List Byte) (h : p.length = 64) : (keyOf (p ++ x)).1 = p := by
  unfold keyOf
  simp only
  rw [List.append_assoc, List.take_append_of_le_length (by omega), List.take_of_length_le (by omega)]

theorem storedBytes_clean (p : List Byte) (h : ∀ b ∈ p, b ≠ 45 ∧ b ≠ 46) : storedBytes p = p := by
  unfold storedBytes
  rw [List.filter_eq_self]
  intro b hb
  simpa using h b hb

theorem keyOf_stored_long (ident : List Byte) (hlen : 64 < ident.length)
    (hclean : ∀ b ∈ ident.take 64, b ≠ 45 ∧ b ≠ 46) :
    keyOf (storedBytes ident) = keyOf ident ∧ (keyOf ident).1 = ident.take 64 := by
  have hsplit : ident = ident.take 64 ++ ident.drop 64 := (List.take_append_drop 64 ident).symm
  have hl : (ident.take 64).length = 64 := by rw [List.length_take]; omega
  have h2 : (keyOf ident).1 = ident.take 64 := by
    conv_lhs => rw [hsplit]
    exact keyOf_prefix _ _ hl
  refine ⟨?_, h2⟩
  apply Subtype.ext
  rw [h2]
  conv_lhs => rw [hsplit]
  rw [storedBytes_append, storedBytes_clean _ hclean]
  exact keyOf_prefix _ _ hl


/-! ### Identifiers longer than the capacity -/

set_option maxRecDepth 100000 in
/-- C12 (as stated, refuted). The identifiers `.` + 63 times `x` + `A` and
`.` + 63 times `x` + `B` are 65 bytes long and share their first 64 bytes, yet
the worker files them under two keys (63 times `x` followed by `A`, resp. `B`),
each with count 1: the `'.'` is not stored, so the 65th byte reaches the key. -/
theorem long_identifiers_with_dot_split :
    processValidChunks
      [(⟨46 :: (List.replicate 63 120 ++ [65]), false, [49], 48⟩ : Record).render ++
        (⟨46 :: (List.replicate 63 120 ++ [66]), false, [49], 48⟩ : Record).render] =
      [(keyOf (List.replicate 63 120 ++ [65]), ⟨10, 10, 1, 10⟩),
        (keyOf (List.replicate 63 120 ++ [66]), ⟨10, 10, 1, 10⟩)] ∧
    ¬ (∀ r1 r2 : Record, 64 < r1.ident.length → 64 < r2.ident.length →
        r1.ident.take 64 = r2.ident.take 64 →
        (∀ b ∈ r1.ident, b ≠ 59 ∧ b ≠ 10) → (∀ b ∈ r2.ident, b ≠ 59 ∧ b ≠ 10) →
        r1.ValueOk → r2.ValueOk →
        ∃ r, processValidChunks [r1.render ++ r2.render] = [(keyOf r1.ident, r)] ∧
          r.count = 2) := by
  have hpv : processValidChunks
      [(⟨46 :: (List.replicate 63 120 ++ [65]), false, [49], 48⟩ : Record).render ++
        (⟨46 :: (List.replicate 63 120 ++ [66]), false, [49], 48⟩ : Record).render] =
      [(keyOf (List.replicate 63 120 ++ [65]), ⟨10, 10, 1, 10⟩),
        (keyOf (List.replicate 63 120 ++ [66]), ⟨10, 10, 1, 10⟩)] := by decide
  refine ⟨hpv, ?_⟩
  intro h
  obtain ⟨r, hr, _⟩ := h ⟨46 :: (List.replicate 63 120 ++ [65]), false, [49], 48⟩
    ⟨46 :: (List.replicate 63 120 ++ [66]), false, [49], 48⟩
    (by decide) (by decide) (by decide) (by decide) (by decide) (by decide) (by decide)
  rw [hpv] at hr
  have hlen := congrArg List.length hr
  simp at hlen

/-- C12 (amended). For every two records whose identifiers are longer than 64
bytes and share the same first 64 bytes, these being free of `'-'` and `'.'`
(and the identifiers of `';'` and `'\n'`), a worker that reads the two records
truncates both to the same key, which is exactly those first 64 bytes, and its
partial aggregate has exactly one entry, under that key, with count 2. -/
theorem long_identifiers_share_bucket (r1 r2 : Record) (validChunks : List (List Byte))
    (h1 : 64 < r1.ident.length) (h2 : 64 < r2.ident.length)
    (hsame : r1.ident.take 64 = r2.ident.take 64)
    (hid1 : ∀ b ∈ r1.ident, b ≠ 59 ∧ b ≠ 10) (hid2 : ∀ b ∈ r2.ident, b ≠ 59 ∧ b ≠ 10)
    (hclean : ∀ b ∈ r1.ident.take 64, b ≠ 45 ∧ b ≠ 46)
    (hv1 : (10 : Byte) ∉ r1.valueText) (hv2 : (10 : Byte) ∉ r2.valueText)
    (hin : validChunks.flatten = r1.render ++ r2.render) :
    (keyOf r1.ident).1 = r1.ident.take 64 ∧ keyOf r2.ident = keyOf r1.ident ∧
    ∃ r, processValidChunks validChunks = [(keyOf r1.ident, r)] ∧ r.count = 2 := by
  obtain ⟨k1, k2⟩ := keyOf_stored_long r1.ident h1 hclean
  obtain ⟨k3, k4⟩ := keyOf_stored_long r2.ident h2 (by rw [← hsame]; exact hclean)
  have hkey : keyOf r2.ident = keyOf r1.ident := by
    apply Subtype.ext
    rw [k2, k4, hsame]
  refine ⟨k2, hkey, ?_⟩
  have hn1 : ∀ b ∈ r1.ident, b ≠ 10 ∧ b ≠ 59 := fun b hb => ⟨(hid1 b hb).2, (hid1 b hb).1⟩
  have hn2 : ∀ b ∈ r2.ident, b ≠ 10 ∧ b ≠ 59 := fun b hb => ⟨(hid2 b hb).2, (hid2 b hb).1⟩
  obtain ⟨t1, e1⟩ := scan_line_newline r1.ident r1.valueText [] hn1 hv1
  obtain ⟨t2, e2⟩ := scan_line_newline r2.ident r2.valueText
    (registerCity [] (keyOf (storedBytes r1.ident)) t1) hn2 hv2
  unfold processValidChunks
  rw [scanChunks_eq_foldl, hin, List.foldl_append, render_eq, render_eq]
  have hinit : Scanner.init = Scanner.mk [] cityName.zero 0 0 false := rfl
  rw [hinit, e1, e2, k1, k3, hkey]
  refine ⟨registerTemp ⟨t1, t1, 1, t1⟩ t2, ?_, ?_⟩
  · simp [registerCity, Stats.get, Stats.put]
  · rw [registerTemp_count]
    show wrap32 (1 + 1) = 2
    decide

set_option maxRecDepth 100000 in
/-- The amended C12 applied to the identifiers 64 times `x` + `A` and 64 times
`x` + `B`, with the values `1.0` and `2.0`. -/
theorem long_identifiers_share_bucket_witness :
    ∃ r, processValidChunks
        [(⟨List.replicate 64 120 ++ [65], false, [49], 48⟩ : Record).render,
          (⟨List.replicate 64 120 ++ [66], false, [50], 48⟩ : Record).render] =
        [(keyOf (List.replicate 64 120 ++ [65]), r)] ∧ r.count = 2 :=
  (long_identifiers_share_bucket ⟨List.replicate 64 120 ++ [65], false, [49], 48⟩
    ⟨List.replicate 64 120 ++ [66], false, [50], 48⟩
    [(⟨List.replicate 64 120 ++ [65], false, [49], 48⟩ : Record).render,
      (⟨List.replicate 64 120 ++ [66], false, [50], 48⟩ : Record).render]
    (by decide) (by decide) (by decide) (by decide) (by decide) (by decide) (by decide)
    (by decide) (by decide)).2.2

/-! ### `'-'` and `'.'` inside a name -/

set_option maxRecDepth 100000 in
/-- C18. The bytes `'-'` and `'.'` never reach the identifier buffer, and a
`'-'` sets the negative flag in every scanner state. Hence for every record
`<name>;<value>\n` (name of any length without `';'` and `'\n'`, value text
without `'\n'`) the bucket updated is keyed by the name with its `'-'` and `'.'`
removed (cut or zero-padded to 64 bytes), and the value registered is the `int16`
negation of the accumulator exactly when a `'-'` occurs in the name or in the
value text. When the stored name fits the 64 bytes and the value is a decimal
with one fractional digit of magnitude `N <= 32767`, the value registered is
`-N` if the name contains `'-'`, also when the value text has none; e.g.
`a-b;1.0\n` updates the key `ab` with the value -10. -/
theorem dash_and_dot_in_name (name val : List Byte) (m : Stats) (r : Record)
    (hname : ∀ b ∈ name, b ≠ 10 ∧ b ≠ 59) (hval : (10 : Byte) ∉ val)
    (hid : ∀ b ∈ r.ident, b ≠ 10 ∧ b ≠ 59) (hfit : (storedBytes r.ident).length ≤ 64)
    (hv : r.ValueOk) :
    (∀ s : Scanner, scanByte s 46 = s ∧
      scanByte s 45 = Scanner.mk s.cityStats s.name s.letterInName s.temp true) ∧
    (name ++ [59] ++ val ++ [10]).foldl scanByte (Scanner.mk m cityName.zero 0 0 false) =
      Scanner.mk
        (registerCity m (keyOf (storedBytes name))
          (if (45 : Byte) ∈ name ∨ (45 : Byte) ∈ val then
            wrap16 (-((name ++ [59] ++ val).foldl scanByte
              (Scanner.mk m cityName.zero 0 0 false)).temp)
          else ((name ++ [59] ++ val).foldl scanByte
              (Scanner.mk m cityName.zero 0 0 false)).temp))
        cityName.zero 0 0 false ∧
    r.render.foldl scanByte (Scanner.mk m cityName.zero 0 0 false) =
      Scanner.mk
        (registerCity m (keyOf (storedBytes r.ident))
          (if (45 : Byte) ∈ r.ident ∨ r.neg = true then -r.magnitude else r.magnitude))
        cityName.zero 0 0 false ∧
    processValidChunks [[97, 45, 98, 59, 49, 46, 48, 10]] =
      [(keyOf [97, 98], ⟨-10, -10, 1, -10⟩)] := by
  refine ⟨fun s => ⟨scanByte_dot s, scanByte_minus s⟩, ?_, ?_, by decide⟩
  · obtain ⟨h1, h2, h3⟩ := scan_line name val m hname hval
    rw [List.foldl_append, List.foldl_cons, List.foldl_nil, scanByte_newline, h1, h2]
    congr 2
    by_cases hc : (45 : Byte) ∈ name ∨ (45 : Byte) ∈ val
    · rw [if_pos hc, if_pos (h3.mpr hc)]
    · have hn : ¬ ((name ++ [59] ++ val).foldl scanByte
          (Scanner.mk m cityName.zero 0 0 false)).neg = true := fun h => hc (h3.mp h)
      rw [if_neg hc, if_neg hn]
  · have h0 := magnitude_nonneg r hv
    have hm := hv.2.2
    obtain ⟨n1, n2, n3, n4, n5⟩ := scan_name r.ident (Scanner.mk m cityName.zero 0 0 false) []
      hid (by simp) keyOf_zero.symm
    simp only [List.nil_append] at n1 n2 n5
    have n5' := n5 hfit
    simp only [Bool.false_eq_true, false_or] at n4
    have hsplit : r.render =
        r.ident ++ ([59] ++ ((if r.neg then [45] else []) ++
          ((r.whole ++ [46, r.frac]) ++ [10]))) := by
      simp [Record.render]
    rw [hsplit, List.foldl_append, List.foldl_append, List.foldl_cons, List.foldl_nil,
      scanByte_semicolon, n1, n3, n5', List.foldl_append]
    generalize hg : (r.ident.foldl scanByte (Scanner.mk m cityName.zero 0 0 false)).neg = g at n4 ⊢
    have hneg : (if r.neg then [(45 : Byte)] else []).foldl scanByte
        (Scanner.mk m (keyOf (storedBytes r.ident)) 64 0 g) =
        Scanner.mk m (keyOf (storedBytes r.ident)) 64 0 (g || r.neg) := by
      cases r.neg <;> cases g <;> rfl
    rw [hneg, List.foldl_append]
    have hsv := scan_value ⟨r.ident, g || r.neg, r.whole, r.frac⟩ hv m
      (keyOf (storedBytes r.ident))
    simp only at hsv
    rw [hsv]
    simp only [List.foldl_cons, List.foldl_nil]
    rw [scanByte_newline]
    simp only
    congr 2
    have hmag : Record.magnitude ⟨r.ident, g || r.neg, r.whole, r.frac⟩ = r.magnitude := rfl
    rw [hmag]
    by_cases hc : (45 : Byte) ∈ r.ident ∨ r.neg = true
    · have hb : (g || r.neg) = true := by
        rcases hc with h | h
        · simp [n4.mpr h]
        · simp [h]
      rw [if_pos hc, if_pos hb]
      exact wrap16_id _ (by omega) (by omega)
    · have hb : ¬ (g || r.neg) = true := by
        intro h
        rw [Bool.or_eq_true] at h
        rcases h with h | h
        · exact hc (Or.inl (n4.mp h))
        · exact hc (Or.inr h)
      rw [if_neg hc, if_neg hb]

set_option maxRecDepth 100000 in
/-- C18 applied to the record `a-b;1.0\n`: the key is `ab` and the value
registered is -10. -/
theorem dash_and_dot_in_name_witness :
    ([97, 45, 98, 59, 49, 46, 48, 10].foldl scanByte Scanner.init).cityStats =
      [(keyOf [97, 98], ⟨-10, -10, 1, -10⟩)] :=
  congrArg Scanner.cityStats
    (dash_and_dot_in_name [97, 45, 98] [49, 46, 48] [] ⟨[97, 45, 98], false, [49], 48⟩
      (by decide) (by decide) (by decide) (by decide) (by decide)).2.2.1

/-! ### The unterminated tail -/

theorem scanByte_cityStats (s : Scanner) (b : Byte) (hb : b ≠ 10) :
    (scanByte s b).cityStats = s.cityStats := by
  unfold scanByte
  simp only [hb, if_false]
  split_ifs <;> rfl

theorem scan_tail_cityStats (tail : List Byte) (s : Scanner) (h : (10 : Byte) ∉ tail) :
    (tail.foldl scanByte s).cityStats = s.cityStats := by
  induction tail generalizing s with
  | nil => rfl
  | cons b rest ih =>
    have hb : b ≠ 10 := fun e => h (by simp [e])
    have hrest : (10 : Byte) ∉ rest := fun hm => h (List.mem_cons_of_mem _ hm)
    rw [List.foldl_cons, ih (scanByte s b) hrest, scanByte_cityStats s b hb]

theorem processValidChunks_tail (segs : List (List Byte)) (tail : List Byte)
    (h : (10 : Byte) ∉ tail) :
    processValidChunks (segs ++ [tail]) = processValidChunks segs := by
  unfold processValidChunks
  rw [scanChunks_eq_foldl, scanChunks_eq_foldl, List.flatten_append, List.foldl_append]
  simp only [List.flatten_cons, List.flatten_nil, List.append_nil]
  exact scan_tail_cityStats tail _ h

theorem workerShare_append (segs : List (List Byte)) (assign : List Nat) (tail : List Byte)
    (a w : Nat) (hlen : assign.length = segs.length) :
    workerShare (segs ++ [tail]) (assign ++ [a]) w =
      workerShare segs assign w ++ (if a = w then [tail] else []) := by
  unfold workerShare
  rw [List.zip_append hlen.symm, List.filter_append, List.map_append]
  by_cases h : a = w <;> simp [h]

theorem poolResults_tail (n : Nat) (segs : List (List Byte)) (assign : List Nat)
    (tail : List Byte) (a : Nat) (hlen : assign.length = segs.length)
    (h : (10 : Byte) ∉ tail) :
    poolResults n (segs ++ [tail]) (assign ++ [a]) = poolResults n segs assign := by
  unfold poolResults
  apply List.map_congr_left
  intro w _
  rw [workerShare_append segs assign tail a w hlen]
  by_cases haw : a = w
  · rw [if_pos haw, processValidChunks_tail _ _ h]
  · rw [if_neg haw, List.append_nil]

theorem mergeChunks_flush (raw : List (List Byte)) (hne : raw.flatten ≠ [])
    (hlast : ¬ EndsWithNewline raw.flatten) :
    (mergeChunksLoop raw ([], [])).2 ≠ [] ∧
    mergeChunks raw = (mergeChunksLoop raw ([], [])).1 ++ [(mergeChunksLoop raw ([], [])).2] := by
  obtain ⟨hs, hr⟩ := mergeChunksLoop_segments raw [] [] (by simp) (by simp)
  have hj := mergeChunksLoop_join raw [] []
  simp only [List.flatten_nil, List.nil_append] at hj
  have hrem : (mergeChunksLoop raw ([], [])).2 ≠ [] := by
    intro e
    rw [e, List.append_nil] at hj
    rcases List.eq_nil_or_concat (mergeChunksLoop raw ([], [])).1 with h0 | ⟨init, l, hl⟩
    · rw [h0] at hj
      exact hne hj.symm
    · rw [List.concat_eq_append] at hl
      have hle : EndsWithNewline l := hs l (by rw [hl]; simp)
      have hlne : l ≠ [] := by
        intro e2
        rw [e2] at hle
        simp [EndsWithNewline] at hle
      apply hlast
      unfold EndsWithNewline
      rw [← hj, hl, getLast?_flatten_of_last_nonempty init l hlne]
      exact hle
  refine ⟨hrem, ?_⟩
  rw [mergeChunks_eq, if_pos (List.length_pos.mpr hrem)]


set_option maxRecDepth 100000 in
/-- C19 (amended). For every input whose last record is not terminated by
`'\n'`, `mergeChunks` sends the bytes after the last `'\n'` as a final segment,
and no worker registers them: they change no scanner's private map, so the
partial aggregates of the pool are those of the segments before the flush (no
bucket is created, no min, max, sum or count changes). For inputs with fewer
than `2^31` bytes `'\n'` the total `main` prints is the number of `'\n'` bytes;
e.g. `A;1.0\nB;2.0` yields only the entry for `A` and the total 1. -/
theorem unterminated_tail_not_registered (raw : List (List Byte)) (n : Nat)
    (assign : List Nat) (arrived : List Stats)
    (hne : raw.flatten ≠ []) (hlast : ¬ EndsWithNewline raw.flatten)
    (hlen : assign.length = (mergeChunks raw).length) (hn : ∀ a ∈ assign, a < n)
    (harr : arrived.Perm (poolResults n (mergeChunks raw) assign)) :
    (∃ segs tail, mergeChunks raw = segs ++ [tail] ∧ tail ≠ [] ∧ newline ∉ tail ∧
      (∀ seg ∈ segs, EndsWithNewline seg) ∧ raw.flatten = segs.flatten ++ tail ∧
      (∀ s : Scanner, (tail.foldl scanByte s).cityStats = s.cityStats) ∧
      poolResults n (mergeChunks raw) assign = poolResults n segs assign.dropLast) ∧
    (raw.flatten.count newline < 2 ^ 31 →
      printedCount (reduceAll arrived) = (raw.flatten.count newline : Int)) ∧
    (reduceAll (poolResults poolSize
        (mergeChunks [[65, 59, 49, 46, 48, 10, 66, 59, 50, 46, 48]]) [0, 1]) =
        [(keyOf [65], ⟨10, 10, 1, 10⟩)] ∧
      printedCount (reduceAll (poolResults poolSize
        (mergeChunks [[65, 59, 49, 46, 48, 10, 66, 59, 50, 46, 48]]) [0, 1])) = 1) := by
  obtain ⟨hs, hr⟩ := mergeChunksLoop_segments raw [] [] (by simp) (by simp)
  obtain ⟨hrem, hmc⟩ := mergeChunks_flush raw hne hlast
  have hj := mergeChunksLoop_join raw [] []
  simp only [List.flatten_nil, List.nil_append, List.append_nil] at hj
  have h10 : (10 : Byte) ∉ (mergeChunksLoop raw ([], [])).2 := hr
  refine ⟨⟨(mergeChunksLoop raw ([], [])).1, (mergeChunksLoop raw ([], [])).2, hmc, hrem, hr,
    hs, hj.symm, fun s => scan_tail_cityStats _ s h10, ?_⟩, ?_, by decide, by decide⟩
  · have hl2 : assign.length = (mergeChunksLoop raw ([], [])).1.length + 1 := by
      rw [hlen, hmc]; simp
    rcases List.eq_nil_or_concat assign with h0 | ⟨init, a, ha⟩
    · rw [h0] at hl2
      simp at hl2
    · rw [List.concat_eq_append] at ha
      have hl3 : init.length = (mergeChunksLoop raw ([], [])).1.length := by
        rw [ha] at hl2
        simpa using hl2
      rw [hmc, ha, List.dropLast_concat]
      exact poolResults_tail n _ init _ a hl3 h10
  · intro hcount
    have hflat : (mergeChunks raw).flatten = raw.flatten := mergeChunks_flatten raw
    have hb : ((mergeChunks raw).flatten.count newline : Int) < 2147483648 := by
      rw [hflat]
      have : (raw.flatten.count newline : Int) < 2 ^ 31 := by exact_mod_cast hcount
      omega
    obtain ⟨h1, h2⟩ := pool_total n (mergeChunks raw) assign arrived hlen hn hb harr
    rw [printedCount_eq_totalCount _ (keysNodup_reduceAll arrived) h2 (by rw [h1]; exact hb), h1,
      hflat]

set_option maxRecDepth 100000 in
/-- The amended C19 applied to the single chunk `A;1.0\nB;2.0`, two workers,
the flushed segment going to worker 1: the printed total is 1. -/
theorem unterminated_tail_not_registered_witness :
    printedCount (reduceAll (poolResults 2
      (mergeChunks [[65, 59, 49, 46, 48, 10, 66, 59, 50, 46, 48]]) [0, 1])) = 1 :=
  (unterminated_tail_not_registered [[65, 59, 49, 46, 48, 10, 66, 59, 50, 46, 48]] 2 [0, 1]
    (poolResults 2 (mergeChunks [[65, 59, 49, 46, 48, 10, 66, 59, 50, 46, 48]]) [0, 1])
    (by decide) (by decide) (by decide) (by decide) (List.Perm.refl _)).2.1 (by decide)


/-! ### More than `2^31 - 1` records -/

theorem scan_newline_zero (c : Int) :
    scanByte (Scanner.mk [(cityName.zero, ⟨0, 0, c, 0⟩)] cityName.zero 0 0 false) 10 =
      Scanner.mk [(cityName.zero, ⟨0, 0, wrap32 (c + 1), 0⟩)] cityName.zero 0 0 false := by
  have h64 : wrap64 0 = 0 := by decide
  rw [scanByte_newline]
  simp [registerCity, Stats.get, Stats.put, registerTemp, h64]

theorem scan_newlines_zero (bs : List Byte) (c : Int) (hbs : ∀ b ∈ bs, b = 10) :
    ∃ c', bs.foldl scanByte (Scanner.mk [(cityName.zero, ⟨0, 0, c, 0⟩)] cityName.zero 0 0 false) =
        Scanner.mk [(cityName.zero, ⟨0, 0, c', 0⟩)] cityName.zero 0 0 false ∧
      wrap32 c' = wrap32 (c + (bs.length : Int)) ∧ (bs ≠ [] → wrap32 c' = c') := by
  induction bs generalizing c with
  | nil => exact ⟨c, rfl, by simp, by simp⟩
  | cons b rest ih =>
    have hb : b = 10 := hbs b (List.mem_cons_self _ _)
    subst hb
    obtain ⟨c', h1, h2, h3⟩ := ih (wrap32 (c + 1)) (fun x hx => hbs x (List.mem_cons_of_mem _ hx))
    refine ⟨c', ?_, ?_, ?_⟩
    · rw [List.foldl_cons, scan_newline_zero, h1]
    · rw [h2, wrap32_add, List.length_cons]
      push_cast
      congr 1
      ring
    · intro _
      by_cases hr : rest = []
      · subst hr
        simp only [List.foldl_nil, Scanner.mk.injEq, List.cons.injEq, Prod.mk.injEq,
          measure10x.mk.injEq, and_true, true_and] at h1
        rw [← h1]
        exact wrap32_wrap32 _
      · exact h3 hr

theorem newlines_from_init (bs : List Byte) (hbs : ∀ b ∈ bs, b = 10) (hne : bs ≠ []) :
    ∃ c, (bs.foldl scanByte Scanner.init).cityStats = [(cityName.zero, ⟨0, 0, c, 0⟩)] ∧
      c = wrap32 (bs.length : Int) := by
  cases bs with
  | nil => exact absurd rfl hne
  | cons b rest =>
    have hb : b = 10 := hbs b (List.mem_cons_self _ _)
    subst hb
    have hfirst : scanByte Scanner.init 10 =
        Scanner.mk [(cityName.zero, ⟨0, 0, 1, 0⟩)] cityName.zero 0 0 false := by
      rw [scanByte_newline]
      simp [Scanner.init, registerCity, Stats.get, Stats.put]
    obtain ⟨c', h1, h2, h3⟩ := scan_newlines_zero rest 1
      (fun x hx => hbs x (List.mem_cons_of_mem _ hx))
    refine ⟨c', ?_, ?_⟩
    · rw [List.foldl_cons, hfirst, h1]
    · by_cases hr : rest = []
      · subst hr
        simp only [List.foldl_nil, Scanner.mk.injEq, List.cons.injEq, Prod.mk.injEq,
          measure10x.mk.injEq, and_true, true_and] at h1
        rw [← h1]
        decide
      · rw [← h3 hr, h2, List.length_cons]
        push_cast
        congr 1
        ring


theorem mergeChunksLoop_append (a b : List (List Byte)) (st : List (List Byte) × List Byte) :
    mergeChunksLoop (a ++ b) st = mergeChunksLoop b (mergeChunksLoop a st) := by
  induction a generalizing st with
  | nil => rfl
  | cons r rest ih =>
    obtain ⟨sent, remainder⟩ := st
    rw [List.cons_append, mergeChunksLoop_cons, mergeChunksLoop_cons, ih]

theorem mergeChunksLoop_terminated (chunks sent : List (List Byte))
    (h : ∀ c ∈ chunks, ∃ body, c = body ++ [newline]) :
    mergeChunksLoop chunks (sent, []) = (sent ++ chunks, []) := by
  induction chunks generalizing sent with
  | nil => simp [mergeChunksLoop]
  | cons c rest ih =>
    obtain ⟨body, hc⟩ := h c (List.mem_cons_self _ _)
    have hm : mergeChunk [] c = (c, []) := by
      rw [hc]
      have := mergeChunk_split [] body [] (by simp)
      simpa using this
    rw [mergeChunksLoop_cons, hm]
    have hpos : (c, ([] : List Byte)).1.length > 0 := by
      rw [hc]; simp
    rw [if_pos hpos, ih (sent ++ [c]) (fun x hx => h x (List.mem_cons_of_mem _ hx))]
    simp

theorem mergeChunks_terminated_then_tail (chunks : List (List Byte)) (body tail : List Byte)
    (h : ∀ c ∈ chunks, ∃ b, c = b ++ [newline]) (ht : newline ∉ tail) (hne : tail ≠ []) :
    mergeChunks (chunks ++ [body ++ newline :: tail]) = chunks ++ [body ++ [newline], tail] := by
  have hloop : mergeChunksLoop (chunks ++ [body ++ newline :: tail]) ([], []) =
      (chunks ++ [body ++ [newline]], tail) := by
    rw [mergeChunksLoop_append, mergeChunksLoop_terminated chunks [] h, mergeChunksLoop_cons,
      mergeChunk_split [] body tail ht]
    have hpos : ([] ++ (body ++ [newline]), tail).1.length > 0 := by simp
    rw [if_pos hpos]
    simp [mergeChunksLoop]
  rw [mergeChunks_eq, hloop, if_pos (List.length_pos.mpr hne)]
  simp

theorem workerShare_all_zero (segs : List (List Byte)) :
    workerShare segs (List.replicate segs.length 0) 0 = segs ∧
    ∀ w, workerShare segs (List.replicate segs.length 0) (w + 1) = [] := by
  induction segs with
  | nil => exact ⟨rfl, fun _ => rfl⟩
  | cons seg rest ih =>
    rw [List.length_cons, List.replicate_succ]
    refine ⟨?_, fun w => ?_⟩
    · rw [workerShare_cons, if_pos rfl, ih.1]
    · rw [workerShare_cons, if_neg (by omega), ih.2 w]

theorem poolResults_all_zero (n : Nat) (segs : List (List Byte)) :
    poolResults (n + 1) segs (List.replicate segs.length 0) =
      processValidChunks segs :: List.replicate n [] := by
  unfold poolResults
  rw [List.range_succ_eq_map, List.map_cons, List.map_map, (workerShare_all_zero segs).1]
  congr 1
  rw [List.eq_replicate_iff]
  refine ⟨by simp, ?_⟩
  intro sc hsc
  obtain ⟨w, _, rfl⟩ := List.mem_map.mp hsc
  simp only [Function.comp_apply, Nat.succ_eq_add_one]
  rw [(workerShare_all_zero segs).2 w]
  rfl

theorem foldl_reduceOne_empties (n : Nat) (agg : Stats) :
    (List.replicate n ([] : Stats)).foldl reduceOne agg = agg := by
  induction n with
  | zero => rfl
  | succ n ih => rw [List.replicate_succ, List.foldl_cons]; exact ih

theorem printedCount_single (k : cityName) (r : measure10x) :
    printedCount (reduceAll ([(k, r)] :: List.replicate 1024 [])) = wrap32 (0 + r.count) := by
  have h1 : reduceAll ([(k, r)] :: List.replicate 1024 []) = [(k, r)] := by
    unfold reduceAll
    rw [List.foldl_cons, foldl_reduceOne_empties]
    simp [reduceOne, reduceStep, Stats.get, Stats.put]
  rw [h1]
  simp [printedCount, sortedNames, Stats.get]


theorem newline_blocks (K M L : Nat) :
    (∀ b ∈ (List.replicate K (List.replicate M newline) ++ [List.replicate L newline]).flatten,
      b = newline) ∧
    (List.replicate K (List.replicate M newline) ++ [List.replicate L newline]).flatten.length =
      K * M + L := by
  constructor
  · intro b hb
    rw [List.mem_flatten] at hb
    obtain ⟨seg, hseg, hbs⟩ := hb
    rcases List.mem_append.mp hseg with h | h
    · rw [List.eq_of_mem_replicate h] at hbs
      exact List.eq_of_mem_replicate hbs
    · rw [List.mem_singleton] at h
      rw [h] at hbs
      exact List.eq_of_mem_replicate hbs
  · induction K with
    | zero => simp
    | succ K ih =>
      rw [List.replicate_succ, List.cons_append, List.flatten_cons, List.length_append, ih,
        List.length_replicate]
      ring

theorem huge_input (K M L : Nat) (hM : 1 ≤ M) (hL : 1 ≤ L) :
    mergeChunks (List.replicate K (List.replicate M newline) ++ [List.replicate L newline ++ [65]])
      = List.replicate K (List.replicate M newline) ++ [List.replicate L newline, [65]] ∧
    printedCount (reduceAll (poolResults poolSize
      (mergeChunks
        (List.replicate K (List.replicate M newline) ++ [List.replicate L newline ++ [65]]))
      (List.replicate (K + 2) 0))) = wrap32 ((K * M + L : Nat) : Int) ∧
    (List.replicate K (List.replicate M newline) ++
      [List.replicate L newline ++ [65]]).flatten.count newline = K * M + L ∧
    (List.replicate K (List.replicate M newline) ++
      [List.replicate L newline ++ [65]]).flatten ≠ [] ∧
    ¬ EndsWithNewline (List.replicate K (List.replicate M newline) ++
      [List.replicate L newline ++ [65]]).flatten := by
  obtain ⟨M', rfl⟩ : ∃ M', M = M' + 1 := ⟨M - 1, by omega⟩
  obtain ⟨L', rfl⟩ : ∃ L', L = L' + 1 := ⟨L - 1, by omega⟩
  obtain ⟨hall, hlen⟩ := newline_blocks K (M' + 1) (L' + 1)
  have hmc : mergeChunks (List.replicate K (List.replicate (M' + 1) newline) ++
      [List.replicate (L' + 1) newline ++ [65]]) =
      List.replicate K (List.replicate (M' + 1) newline) ++
        [List.replicate (L' + 1) newline, [65]] := by
    have hterm : ∀ c ∈ List.replicate K (List.replicate (M' + 1) newline),
        ∃ b, c = b ++ [newline] := by
      intro c hc
      rw [List.eq_of_mem_replicate hc]
      exact ⟨List.replicate M' newline, List.replicate_succ' _ _⟩
    have h65 : newline ∉ [(65 : Byte)] := by decide
    have := mergeChunks_terminated_then_tail _ (List.replicate L' newline) [65] hterm h65
      (by simp)
    rw [← List.replicate_succ'] at this
    rw [← this]
    congr 3
    rw [List.replicate_succ']
    simp
  have hflat : (List.replicate K (List.replicate (M' + 1) newline) ++
      [List.replicate (L' + 1) newline ++ [65]]).flatten =
      (List.replicate K (List.replicate (M' + 1) newline) ++
        [List.replicate (L' + 1) newline]).flatten ++ [65] := by
    rw [List.flatten_append, List.flatten_append]
    simp only [List.flatten_cons, List.flatten_nil, List.append_nil, List.append_assoc]
  have hne : (List.replicate K (List.replicate (M' + 1) newline) ++
      [List.replicate (L' + 1) newline]).flatten ≠ [] := by
    intro e
    have := congrArg List.length e
    rw [hlen] at this
    simp at this
  refine ⟨hmc, ?_, ?_, ?_, ?_⟩
  · rw [hmc]
    have hsegs : List.replicate K (List.replicate (M' + 1) newline) ++
        [List.replicate (L' + 1) newline, [65]] =
        (List.replicate K (List.replicate (M' + 1) newline) ++
          [List.replicate (L' + 1) newline]) ++ [[65]] := by simp
    have hassign : List.replicate (K + 2) 0 =
        List.replicate (List.replicate K (List.replicate (M' + 1) newline) ++
          [List.replicate (L' + 1) newline, [65]]).length 0 := by
      simp
    rw [hassign]
    have hpool := poolResults_all_zero 1024 (List.replicate K (List.replicate (M' + 1) newline) ++
      [List.replicate (L' + 1) newline, [65]])
    have hps : poolSize = 1024 + 1 := rfl
    rw [hps, hpool, hsegs, processValidChunks_tail _ [65] (by decide)]
    obtain ⟨c, hc1, hc2⟩ := newlines_from_init _ hall hne
    unfold processValidChunks
    rw [scanChunks_eq_foldl, hc1, printedCount_single, hc2, hlen]
    simp only
    rw [zero_add, wrap32_wrap32]
  · rw [hflat, List.count_append, List.count_eq_length.mpr (fun b hb => (hall b hb).symm), hlen]
    simp
    decide
  · rw [hflat]
    simp
  · rw [hflat]
    unfold EndsWithNewline
    rw [List.getLast?_concat]
    decide


/-- C19 (as stated, refuted). A file of `2^31` bytes `'\n'` followed by `A` is
read as 20 chunks of 104857600 bytes `'\n'` and a last chunk of 50331648 bytes
`'\n'` followed by `A`. With every segment taken by worker 0, the total `main`
prints is -2147483648, while the input holds 2147483648 bytes `'\n'`: the
counter is an `int32`. -/
theorem total_wraps_beyond_int32 :
    printedCount (reduceAll (poolResults poolSize
      (mergeChunks (List.replicate 20 (List.replicate 104857600 newline) ++
        [List.replicate 50331648 newline ++ [65]]))
      (List.replicate 22 0))) = -2147483648 ∧
    (List.replicate 20 (List.replicate 104857600 newline) ++
      [List.replicate 50331648 newline ++ [65]]).flatten.count newline = 2147483648 ∧
    ¬ (∀ (raw : List (List Byte)) (n : Nat) (assign : List Nat) (arrived : List Stats),
        raw.flatten ≠ [] → ¬ EndsWithNewline raw.flatten →
        assign.length = (mergeChunks raw).length → (∀ a ∈ assign, a < n) →
        arrived.Perm (poolResults n (mergeChunks raw) assign) →
        printedCount (reduceAll arrived) = (raw.flatten.count newline : Int)) := by
  obtain ⟨h1, h2, h3, h4, h5⟩ := huge_input 20 104857600 50331648 (by omega) (by omega)
  have hw : wrap32 ((20 * 104857600 + 50331648 : Nat) : Int) = -2147483648 := by decide
  rw [hw] at h2
  refine ⟨h2, h3, ?_⟩
  intro h
  have hlen : (List.replicate 22 0).length =
      (mergeChunks (List.replicate 20 (List.replicate 104857600 newline) ++
        [List.replicate 50331648 newline ++ [65]])).length := by
    rw [h1, List.length_replicate, List.length_append, List.length_replicate]
    rfl
  have hlt : ∀ a ∈ List.replicate 22 0, a < poolSize := by
    intro a ha
    rw [List.eq_of_mem_replicate ha]
    decide
  have h6 := h _ poolSize (List.replicate 22 0) _ h4 h5 hlen hlt (List.Perm.refl _)
  rw [h2, h3] at h6
  revert h6
  decide

/-! ### Decimal digits -/

theorem digitChar_byte (d : Nat) (h : d < 10) :
    (Fin.ofNat (Nat.digitChar d).toNat : Byte) = Fin.ofNat (48 + d) := by
  interval_cases d <;> rfl

theorem isDigit_ofNat (d : Nat) (h : d < 10) : isDigit (Fin.ofNat (48 + d) : Byte) := by
  interval_cases d <;> decide

theorem toDigitsCore_digits (fuel n : Nat) (acc : List Char)
    (hacc : ∀ c ∈ acc, isDigit (Fin.ofNat c.toNat : Byte)) :
    ∀ c ∈ Nat.toDigitsCore 10 fuel n acc, isDigit (Fin.ofNat c.toNat : Byte) := by
  induction fuel generalizing n acc with
  | zero => simpa [Nat.toDigitsCore] using hacc
  | succ fuel ih =>
    have hd : isDigit (Fin.ofNat (Nat.digitChar (n % 10)).toNat : Byte) := by
      rw [digitChar_byte _ (Nat.mod_lt _ (by decide))]
      exact isDigit_ofNat _ (Nat.mod_lt _ (by decide))
    have hacc' : ∀ c ∈ Nat.digitChar (n % 10) :: acc, isDigit (Fin.ofNat c.toNat : Byte) := by
      intro c hc
      rcases List.mem_cons.mp hc with h | h
      · rw [h]; exact hd
      · exact hacc c h
    unfold Nat.toDigitsCore
    simp only
    split_ifs
    · exact hacc'
    · exact ih _ _ hacc'

theorem toDigitsCore_ne_nil (fuel n : Nat) (acc : List Char) :
    Nat.toDigitsCore 10 (fuel + 1) n acc ≠ [] := by
  induction fuel generalizing n acc with
  | zero =>
    unfold Nat.toDigitsCore
    simp only
    split_ifs <;> simp [Nat.toDigitsCore]
  | succ fuel ih =>
    unfold Nat.toDigitsCore
    simp only
    split_ifs
    · simp
    · exact ih _ _

theorem natDigits_digits (n : Nat) : natDigits n ≠ [] ∧ ∀ c ∈ natDigits n, isDigit c := by
  unfold natDigits Nat.toDigits
  constructor
  · intro h
    rw [List.map_eq_nil_iff] at h
    exact toDigitsCore_ne_nil n n [] h
  · intro c hc
    obtain ⟨ch, hch, rfl⟩ := List.mem_map.mp hc
    exact toDigitsCore_digits (n + 1) n [] (by simp) ch hch

/-! ### One decimal place -/

theorem fmtF1_fin_oneDecimal (neg : Bool) (man : Nat) (exp : Int) :
    OneDecimal (fmtF1 (.fin neg man exp)) := by
  unfold fmtF1
  refine ⟨if neg then [45] else [], _, _, rfl, ?_, (natDigits_digits _).1,
    (natDigits_digits _).2, isDigit_ofNat _ (Nat.mod_lt _ (by decide))⟩
  cases neg <;> simp

theorem ofInt_fin (x : Int) : ∃ n m e, F64.ofInt x = .fin n m e := by
  unfold F64.ofInt
  split_ifs <;> exact ⟨_, _, _, rfl⟩

theorem div_ten_fin (a : F64) (h : ∃ n m e, a = .fin n m e) :
    ∃ n m e, F64.div a F64.ten = .fin n m e := by
  obtain ⟨n, m, e, rfl⟩ := h
  unfold F64.ten F64.div
  simp only [show ¬ ((10 : Nat) = 0) by decide, if_false]
  split_ifs <;> exact ⟨_, _, _, rfl⟩

theorem tenthF1_oneDecimal (x : Int) : OneDecimal (tenthF1 x) := by
  obtain ⟨n, m, e, h⟩ := div_ten_fin _ (ofInt_fin x)
  unfold tenthF1
  rw [h]
  exact fmtF1_fin_oneDecimal n m e

theorem averageF1_oneDecimal (sum count : Int) (hc : count ≠ 0)
    (hr : -2147483648 ≤ count ∧ count ≤ 2147483647) : OneDecimal (averageF1 sum count) := by
  obtain ⟨n, m, e, h⟩ := div_ten_fin _ (ofInt_fin sum)
  have hcount : F64.ofInt count = .fin (decide (count < 0)) count.natAbs 0 := by
    unfold F64.ofInt
    have h53 : count.natAbs < 2 ^ 53 := by omega
    rw [if_neg hc, if_pos h53]
  have hne : count.natAbs ≠ 0 := by omega
  unfold averageF1
  rw [h, hcount]
  unfold F64.div
  simp only [hne, if_false]
  split_ifs <;> exact fmtF1_fin_oneDecimal _ _ _


/-! ### A tenth is rendered exactly -/

theorem roundHalfEven_round_trip (a P : Nat) (hP : 11 ≤ P) :
    roundHalfEven (roundHalfEven (a * P) 10 * 10) P = a := by
  have hN : a * P = 10 * (a * P / 10) + a * P % 10 := (Nat.div_add_mod _ _).symm
  have hr : a * P % 10 < 10 := Nat.mod_lt _ (by decide)
  generalize hq : a * P / 10 = q at hN
  generalize hrr : a * P % 10 = r at hN hr
  have key : ∀ m δ : Nat, δ ≤ 5 → (m = a * P + δ ∨ (m + δ = a * P)) → roundHalfEven m P = a := by
    intro m δ hδ hm
    rcases hm with hm | hm
    · have h1 : m / P = a := by
        rw [hm, Nat.add_comm, Nat.add_mul_div_right _ _ (by omega), Nat.div_eq_of_lt (by omega)]
        omega
      have h2 : m % P = δ := by
        rw [hm, Nat.add_comm, Nat.add_mul_mod_self_right, Nat.mod_eq_of_lt (by omega)]
      unfold roundHalfEven
      simp only [h1, h2]
      rw [if_neg (by omega)]
    · by_cases hδ0 : δ = 0
      · subst hδ0
        have h1 : m / P = a := by
          rw [show m = a * P by omega, Nat.mul_div_cancel _ (by omega)]
        have h2 : m % P = 0 := by
          rw [show m = a * P by omega, Nat.mul_mod_left]
        unfold roundHalfEven
        simp only [h1, h2]
        rw [if_neg (by omega)]
      · have ha : 1 ≤ a := by
          rcases Nat.eq_zero_or_pos a with h0 | h0
          · rw [h0] at hm
            omega
          · exact h0
        obtain ⟨a', rfl⟩ : ∃ a', a = a' + 1 := ⟨a - 1, by omega⟩
        have hm' : m = (P - δ) + a' * P := by
          rw [Nat.add_mul] at hm
          omega
        have h1 : m / P = a' := by
          rw [hm', Nat.add_mul_div_right _ _ (by omega), Nat.div_eq_of_lt (by omega)]
          omega
        have h2 : m % P = P - δ := by
          rw [hm', Nat.add_mul_mod_self_right, Nat.mod_eq_of_lt (by omega)]
        unfold roundHalfEven
        simp only [h1, h2]
        rw [if_pos (Or.inl (by omega))]
  by_cases hup : 2 * r > 10 ∨ (2 * r = 10 ∧ q % 2 = 1)
  · have hm : roundHalfEven (a * P) 10 = q + 1 := by
      unfold roundHalfEven
      simp only [hq, hrr]
      rw [if_pos hup]
    rw [hm]
    exact key _ (10 - r) (by omega) (Or.inl (by omega))
  · have hm : roundHalfEven (a * P) 10 = q := by
      unfold roundHalfEven
      simp only [hq, hrr]
      rw [if_neg hup]
    rw [hm]
    exact key _ r (by omega) (Or.inr (by omega))

theorem bitLog_le (fuel : Nat) : ∀ n k : Nat, n < 2 ^ (k + 1) → bitLog fuel n ≤ k := by
  induction fuel with
  | zero => intro n k _; simp [bitLog]
  | succ fuel ih =>
    intro n k h
    unfold bitLog
    split_ifs with h2
    · cases k with
      | zero => simp at h; omega
      | succ k =>
        have := ih (n / 2) k (by rw [pow_succ] at h; omega)
        omega
    · omega

theorem roundQuot_ten (a : Nat) (h1 : 1 ≤ a) (h2 : a ≤ 32768) :
    ∃ S : Nat, 40 ≤ S ∧ roundQuot a 10 = (roundHalfEven (a * 2 ^ S) 10, -(S : Int)) := by
  have hla : ilog2 a < 16 := by
    have := bitLog_le a a 15 (by omega)
    unfold ilog2
    omega
  have h10 : ilog2 10 = 3 := by decide
  unfold roundQuot
  simp only [h10]
  split_ifs
  · refine ⟨55 - ilog2 a, by omega, ?_⟩
    have e1 : (53 + ((3 : Nat) : Int) - (ilog2 a : Int) - 1).toNat = 55 - ilog2 a := by omega
    have e2 : (-(53 + ((3 : Nat) : Int) - (ilog2 a : Int) - 1)).toNat = 0 := by omega
    have e3 : -(53 + ((3 : Nat) : Int) - (ilog2 a : Int) - 1) = -((55 - ilog2 a : Nat) : Int) := by
      omega
    rw [e1, e2, e3]
    simp
  · refine ⟨56 - ilog2 a, by omega, ?_⟩
    have e1 : (53 + ((3 : Nat) : Int) - (ilog2 a : Int)).toNat = 56 - ilog2 a := by omega
    have e2 : (-(53 + ((3 : Nat) : Int) - (ilog2 a : Int))).toNat = 0 := by omega
    have e3 : -(53 + ((3 : Nat) : Int) - (ilog2 a : Int)) = -((56 - ilog2 a : Nat) : Int) := by
      omega
    rw [e1, e2, e3]
    simp

theorem tenthF1_exact (x : Int) (h1 : -32768 ≤ x) (h2 : x ≤ 32767) :
    tenthF1 x = tenthText x := by
  by_cases hx : x = 0
  · subst hx
    decide
  · have ha1 : 1 ≤ x.natAbs := by omega
    have ha2 : x.natAbs ≤ 32768 := by omega
    have h53 : x.natAbs < 2 ^ 53 := by omega
    have hne : x.natAbs ≠ 0 := by omega
    obtain ⟨S, hS, hq⟩ := roundQuot_ten x.natAbs ha1 ha2
    have hP : 11 ≤ 2 ^ S := by
      calc 11 ≤ 2 ^ 40 := by decide
        _ ≤ 2 ^ S := Nat.pow_le_pow_right (by decide) hS
    have hrt := roundHalfEven_round_trip x.natAbs (2 ^ S) hP
    unfold tenthF1 tenthText F64.ofInt F64.ten
    rw [if_neg hx, if_pos h53]
    unfold F64.div
    simp only [show ¬ ((10 : Nat) = 0) by decide, hne, if_false, hq]
    unfold fmtF1
    have e1 : (-(S : Int) + 0 - 0).toNat = 0 := by omega
    have e2 : (-(-(S : Int) + 0 - 0)).toNat = S := by omega
    simp only [e1, e2, pow_zero, Nat.mul_one, hrt, Bool.xor_false, decide_eq_true_eq]


/-- The average is the `float64` quotient, rounded once more by `%.1f`: for the
sum 7 and the count 2 the quotient `0.7/2` is the `float64` just below 0.35 and
is written `0.3`; for the sum 5 and the count 2 the quotient is exactly 0.25 and
is written `0.2`; for the sum 417 and the count 2 the quotient lies just above
20.85 and is written `20.9`. -/
theorem averageF1_float_rounding :
    averageF1 7 2 = [48, 46, 51] ∧ averageF1 5 2 = [48, 46, 50] ∧
    averageF1 417 2 = [50, 48, 46, 57] := by
  decide

/-! ### The report -/

theorem printLoop_eq (agg : Stats) (cityNames : List cityName)
    (done rest : List (cityName × measure10x))
    (hnames : cityNames = (done ++ rest).map Prod.fst)
    (hget : ∀ p ∈ rest, agg.get p.1 = some p.2) :
    printLoop agg cityNames done.length (rest.map Prod.fst) =
      List.intercalate [44, 10] (rest.map (fun p => printEntry p.1 p.2)) ++
        (if rest = [] then [] else [10]) := by
  induction rest generalizing done with
  | nil => simp [printLoop, List.intercalate]
  | cons p rest ih =>
    have hp := hget p (List.mem_cons_self _ _)
    have hrest : ∀ q ∈ rest, agg.get q.1 = some q.2 :=
      fun q hq => hget q (List.mem_cons_of_mem _ hq)
    have hnames' : cityNames = ((done ++ [p]) ++ rest).map Prod.fst := by
      rw [hnames]; simp
    have hrec := ih (done ++ [p]) hnames' hrest
    rw [List.length_append, List.length_singleton] at hrec
    have hlen : (cityNames.length : Int) = (done.length : Int) + (rest.length : Int) + 1 := by
      rw [hnames]
      simp only [List.map_append, List.map_cons, List.length_append, List.length_map,
        List.length_cons]
      push_cast
      ring
    simp only [List.map_cons, printLoop, hp, hrec]
    cases rest with
    | nil =>
      have hlast : ¬ ((done.length : Int) ≠ (cityNames.length : Int) - 1) := by
        rw [hlen]; simp
      simp [hlast, List.intercalate]
    | cons q rest' =>
      have hnot : (done.length : Int) ≠ (cityNames.length : Int) - 1 := by
        rw [hlen]
        simp only [List.length_cons]
        push_cast
        omega
      simp [hnot, List.intercalate]

theorem filterMap_get_eq_map (agg : Stats) (names : List cityName)
    (h : ∀ name ∈ names, name ∈ agg.map Prod.fst) :
    names.filterMap (fun name => (agg.get name).map (fun stats => (name, stats))) =
      names.map (fun name => (name, (agg.get name).getD ⟨0, 0, 0, 0⟩)) := by
  induction names with
  | nil => rfl
  | cons name rest ih =>
    have h1 := (mem_keys_iff agg name).mp (h name (List.mem_cons_self _ _))
    obtain ⟨stats, hs⟩ := Option.isSome_iff_exists.mp h1
    rw [List.filterMap_cons, hs, List.map_cons, hs,
      ih (fun n hn => h n (List.mem_cons_of_mem _ hn))]
    rfl

theorem entriesOf_eq (agg : Stats) :
    entriesOf agg =
      (sortedNames agg).map (fun name => (name, (agg.get name).getD ⟨0, 0, 0, 0⟩)) :=
  filterMap_get_eq_map agg _ (fun _ hn => (sortedNames_perm agg).mem_iff.mp hn)

theorem entriesOf_names (agg : Stats) : (entriesOf agg).map Prod.fst = sortedNames agg := by
  rw [entriesOf_eq, List.map_map]
  conv_rhs => rw [← List.map_id (sortedNames agg)]
  apply List.map_congr_left
  intro name _
  rfl

theorem entriesOf_perm (agg : Stats) (h : KeysNodup agg) : (entriesOf agg).Perm agg := by
  have hself : ∀ p ∈ agg, (p.1, (agg.get p.1).getD ⟨0, 0, 0, 0⟩) = p := by
    intro p hp
    rw [Stats.get_of_mem agg h p hp]
    rfl
  have h1 := (sortedNames_perm agg).map (fun name => (name, (agg.get name).getD ⟨0, 0, 0, 0⟩))
  rw [List.map_map] at h1
  have h2 : agg.map ((fun name => (name, (agg.get name).getD ⟨0, 0, 0, 0⟩)) ∘ Prod.fst) =
      agg := by
    conv_rhs => rw [← List.map_id agg]
    apply List.map_congr_left
    intro p hp
    exact hself p hp
  rw [h2] at h1
  rw [entriesOf_eq]
  exact h1

theorem report_eq (agg : Stats) (h : KeysNodup agg) :
    report agg =
      [123, 10] ++
      List.intercalate [44, 10] ((entriesOf agg).map (fun p => printEntry p.1 p.2)) ++
      (if agg = [] then [] else [10]) ++
      [125, 10] ++ decimalText (printedCount agg) ++ [10] := by
  have hperm := entriesOf_perm agg h
  have hget : ∀ p ∈ entriesOf agg, agg.get p.1 = some p.2 :=
    fun p hp => Stats.get_of_mem agg h p (hperm.mem_iff.mp hp)
  have hloop := printLoop_eq agg (sortedNames agg) [] _ (by simp [entriesOf_names]) hget
  rw [entriesOf_names] at hloop
  have hnil : entriesOf agg = [] ↔ agg = [] := by
    constructor
    · intro e
      rw [e] at hperm
      exact hperm.symm.eq_nil
    · intro e
      rw [e]
      rfl
  unfold report
  rw [show (0 : Nat) = ([] : List (cityName × measure10x)).length from rfl, hloop]
  by_cases hagg : agg = []
  · rw [if_pos hagg, if_pos (hnil.mpr hagg)]
    simp
  · rw [if_neg hagg, if_neg (fun e => hagg (hnil.mp e))]
    simp

set_option maxRecDepth 100000 in
/-- C14 (as stated, refuted). For the input `A;1.0\n` the report is
`{`, newline, a tab, `{"A` followed by 63 zero bytes and `":[1.0,1.0,1.0]}`,
newline, `}`, newline, `1`, newline: the entry is wrapped in a tab and braces
and carries the 64 raw bytes of the key, so the text `"A":[1.0,1.0,1.0]` occurs
nowhere in it, and no entry that `main` prints is the claimed text. -/
theorem report_entry_not_as_claimed :
    report (reduceAll (poolResults poolSize (mergeChunks [[65, 59, 49, 46, 48, 10]]) [0])) =
      [123, 10] ++ ([9, 123, 34, 65] ++ List.replicate 63 0 ++
        [34, 58, 91, 49, 46, 48, 44, 49, 46, 48, 44, 49, 46, 48, 93, 125]) ++
        [10, 125, 10, 49, 10] ∧
    claimedEntry [65] ⟨10, 10, 1, 10⟩ =
      [34, 65, 34, 58, 91, 49, 46, 48, 44, 49, 46, 48, 44, 49, 46, 48, 93] ∧
    ¬ (claimedEntry [65] ⟨10, 10, 1, 10⟩ <:+:
        report (reduceAll (poolResults poolSize (mergeChunks [[65, 59, 49, 46, 48, 10]]) [0]))) ∧
    ¬ (∃ (ident : List Byte) (stats : measure10x),
        printEntry (keyOf ident) stats = claimedEntry ident stats) := by
  refine ⟨by decide, by decide, by decide, ?_⟩
  rintro ⟨ident, stats, h⟩
  have h1 := congrArg List.head? h
  simp [printEntry, claimedEntry] at h1

/-- C14 (amended). The report `main` writes is: `{` and a newline; one entry
per identifier of the global aggregate, in the sorted order, consecutive
entries separated by a comma and a newline, the last one followed by a newline;
`}` and a newline; the total count in decimal and a newline. Each entry is a
tab followed by `{"<key>":[<min>,<max>,<avg>]}`, where `<key>` is the 64 raw
bytes of the key (the name as stored, followed by its zero padding), `<min>`
and `<max>` are `float64(min)/10.` and `float64(max)/10.` written with `%.1f`,
and `<avg>` is `float64(sum)/10./float64(count)` written with `%.1f`. `<min>`
and `<max>` always have the shape sign, digits, point, one digit; for `int16`
fields they are exactly the decimal text of the field with the point moved one
place to the left; `<avg>` has one decimal place too as soon as the `int32`
count is not zero. -/
theorem report_layout (agg : Stats) (h : KeysNodup agg) :
    (entriesOf agg).Perm agg ∧ (entriesOf agg).map Prod.fst = sortedNames agg ∧
    report agg =
      [123, 10] ++
      List.intercalate [44, 10]
        ((entriesOf agg).map (fun p =>
          [9, 123, 34] ++ p.1.1 ++ [34, 58, 91] ++ tenthF1 p.2.min ++ [44] ++
            tenthF1 p.2.max ++ [44] ++ averageF1 p.2.sum p.2.count ++ [93, 125])) ++
      (if agg = [] then [] else [10]) ++
      [125, 10] ++ decimalText (printedCount agg) ++ [10] ∧
    (∀ p ∈ entriesOf agg, p.1.1.length = 64 ∧
      OneDecimal (tenthF1 p.2.min) ∧ OneDecimal (tenthF1 p.2.max) ∧
      (WellTyped p.2 →
        tenthF1 p.2.min = tenthText p.2.min ∧ tenthF1 p.2.max = tenthText p.2.max ∧
        (p.2.count ≠ 0 → OneDecimal (averageF1 p.2.sum p.2.count)))) := by
  refine ⟨entriesOf_perm agg h, entriesOf_names agg, ?_, ?_⟩
  · rw [report_eq agg h]
    simp [printEntry]
  · intro p _
    refine ⟨p.1.2, tenthF1_oneDecimal _, tenthF1_oneDecimal _, ?_⟩
    intro hw
    exact ⟨tenthF1_exact _ hw.1.1 hw.1.2, tenthF1_exact _ hw.2.1.1 hw.2.1.2,
      fun hc => averageF1_oneDecimal _ _ hc hw.2.2.1⟩


set_option maxRecDepth 100000 in
/-- The amended C14 applied to the aggregate of `Paris;23.5`, `Paris;18.2`,
`City;-5.3`, `City;-1.1`: its keys are distinct, and the layout equation gives
the report `{`, newline, tab, `{"City` with 60 zero bytes `":[-5.3,-1.1,-3.2]},`,
newline, tab, `{"Paris` with 59 zero bytes `":[18.2,23.5,20.9]}`, newline, `}`,
newline, `4`, newline. -/
theorem report_layout_witness :
    KeysNodup [(keyOf [80, 97, 114, 105, 115], ⟨182, 235, 2, 417⟩),
      (keyOf [67, 105, 116, 121], ⟨-53, -11, 2, -64⟩)] ∧
    report [(keyOf [80, 97, 114, 105, 115], ⟨182, 235, 2, 417⟩),
      (keyOf [67, 105, 116, 121], ⟨-53, -11, 2, -64⟩)] =
      [123, 10] ++
      ([9, 123, 34, 67, 105, 116, 121] ++ List.replicate 60 0 ++
        [34, 58, 91, 45, 53, 46, 51, 44, 45, 49, 46, 49, 44, 45, 51, 46, 50, 93, 125]) ++
      [44, 10] ++
      ([9, 123, 34, 80, 97, 114, 105, 115] ++ List.replicate 59 0 ++
        [34, 58, 91, 49, 56, 46, 50, 44, 50, 51, 46, 53, 44, 50, 48, 46, 57, 93, 125]) ++
      [10, 125, 10, 52, 10] :=
  ⟨by decide,
    (report_layout [(keyOf [80, 97, 114, 105, 115], ⟨182, 235, 2, 417⟩),
      (keyOf [67, 105, 116, 121], ⟨-53, -11, 2, -64⟩)] (by decide)).2.2.1.trans (by decide)⟩

end OneBRC
